import Mathlib

/-! # COSMOS `structure.c`: the binary accessor read path

A shallow embedding of `ext/cosmos/ext/structure/structure.c`.

Modelling conventions.

* A C `unsigned char*` is a memory function `Nat → Nat` from byte offsets to
  byte values; an in-place store is `Function.update`.  Passing `&a[i]` to a
  function is `at_offset i`.
* A Ruby string buffer is a `List Nat` of byte values (each below 256, stated
  as `IsBytes` where it matters); `RSTRING_PTR` and `RSTRING_LEN` turn it into
  a pointer and a length.
* `unsigned char` arithmetic is `Nat` arithmetic reduced with `uchar`
  (`% 256`); the 32-bit `int` complement `~` is `bnot32`.
* `int` offsets and sizes are `Int`; C division and remainder are `Int.tdiv`
  and `Int.tmod`.  In the functions that compute the result of a read this
  arithmetic is exact: they describe the requests whose intermediate values
  fit in an `int`, and signed overflow (undefined behaviour in C) is outside
  them.  The last part of the model, the memory accesses of a read, wraps
  `int` arithmetic to 32 bits instead.  A theorem whose statement depends on
  the sums of lines 329, 339 or 352 is stated for the requests without
  overflow (`InRange`), on which the two computations take the same course
  (`in_range_outcome`); what the code does on an overflow is evaluated on the
  wrapping part.
* `malloc` returns memory (an allocation that fails is outside the model)
  whose initial contents are arbitrary: they are the parameter `uninit` of
  `binary_accessor_read`.
* `rb_raise` and the `raise_buffer_error` callback abort the call: the result
  is `Except.error`.  Ruby integers (Fixnum or Bignum) are `Int`.
* The host byte order `HOST_ENDIANNESS` is the parameter `host`.
-/

namespace Cosmos

/-- The symbols `:BIG_ENDIAN` and `:LITTLE_ENDIAN`. -/
inductive Endianness where
  | BIG_ENDIAN
  | LITTLE_ENDIAN
  deriving DecidableEq, Repr

/-- The data type symbols; `OTHER` stands for any other Ruby value. -/
inductive DataType where
  | INT
  | UINT
  | FLOAT
  | STRING
  | BLOCK
  | DERIVED
  | OTHER (tag : Nat)
  deriving DecidableEq, Repr

/-- The `rb_raise(rb_eArgError, ...)` sites of `binary_accessor_read` and `read_bitfield`. -/
inductive ArgReason where
  | NegativeOffsetNonPositiveSize
  | NonPositiveSize
  | LittleEndianBitfieldInvalid
  | NotByteAligned
  | FloatBitSize
  | NotRecognized
  deriving DecidableEq, Repr

/-- The two ways a read fails: an argument error or the buffer error channel. -/
inductive ReadError where
  | ArgError (reason : ArgReason)
  | BufferError
  deriving DecidableEq, Repr

/-- The Ruby value returned by a read: an integer, a float given by the bits of
its IEEE-754 representation, or a byte string. -/
inductive Value where
  | Integer (v : Int)
  | Float (bit_size : Nat) (bits : Nat)
  | Str (bytes : List Nat)
  deriving DecidableEq, Repr

/-- Every element of the buffer is a byte value. -/
def IsBytes (buffer : List Nat) : Prop := ∀ b ∈ buffer, b < 256

instance (buffer : List Nat) : Decidable (IsBytes buffer) := by
  unfold IsBytes; infer_instance

/-- Conversion to `unsigned char`. -/
def uchar (x : Nat) : Nat := x % 256

/-- The operator `~` on a 32-bit `int`, on two's-complement bit patterns. -/
def bnot32 (x : Nat) : Nat := 0xFFFFFFFF - x % 2 ^ 32

/-- The pointer `RSTRING_PTR(s)`. -/
def RSTRING_PTR (s : List Nat) : Nat → Nat := fun i => s.getD i 0

/-- The length `RSTRING_LEN(s)`. -/
def RSTRING_LEN (s : List Nat) : Int := s.length

/-- Freshly allocated memory: its contents are whatever the allocator left there. -/
def malloc (uninit : Nat → Nat) : Nat → Nat := fun i => uchar (uninit i)

/-- The call `memcpy(dest, src, n)`. -/
def memcpy (dest src : Nat → Nat) (n : Nat) : Nat → Nat :=
  fun i => if i < n then src i else dest i

/-- Run `f` on the pointer `&mem[index]`. -/
def at_offset (index : Nat) (f : (Nat → Nat) → (Nat → Nat)) (mem : Nat → Nat) : Nat → Nat :=
  let r := f (fun i => mem (index + i))
  fun j => if index ≤ j then r (j - index) else mem j

/-- One iteration of the loop of `left_shift_byte_array`; the state is the array and `previous_index`. -/
def left_shift_step (shift : Nat) (st : (Nat → Nat) × Nat) (current_index : Nat) : (Nat → Nat) × Nat :=
  let array := st.1
  let previous_index := st.2
  let saved_bits_mask := uchar (0xFF <<< (8 - shift))
  let sign_extension_remove_mask := uchar (bnot32 (0xFF <<< shift))
  let saved_bits := uchar (((array current_index &&& saved_bits_mask) >>> (8 - shift)) &&& sign_extension_remove_mask)
  let array := Function.update array current_index (uchar (array current_index <<< shift))
  let array := if current_index > 0 then
      Function.update array previous_index (array previous_index ||| saved_bits)
    else array
  (array, current_index)

/-- Perform a left bit shift on a byte array (`left_shift_byte_array`). -/
def left_shift_byte_array (array : Nat → Nat) (array_length : Nat) (shift : Nat) : Nat → Nat :=
  ((List.range array_length).foldl (left_shift_step shift) (array, 0)).1

/-- One iteration of the loop of `unsigned_right_shift_byte_array`. -/
def unsigned_right_shift_step (array_length shift : Nat) (st : (Nat → Nat) × Nat) (current_index : Nat) :
    (Nat → Nat) × Nat :=
  let array := st.1
  let previous_index := st.2
  let saved_bits_mask := uchar (bnot32 (0xFF <<< shift))
  let sign_extension_remove_mask := uchar (bnot32 (0xFF <<< (8 - shift)))
  let saved_bits := uchar ((array current_index &&& saved_bits_mask) <<< (8 - shift))
  let array := Function.update array current_index ((array current_index >>> shift) &&& sign_extension_remove_mask)
  let array := if current_index ≠ array_length - 1 then
      Function.update array previous_index (array previous_index ||| saved_bits)
    else array
  (array, current_index)

/-- Perform an unsigned right bit shift on a byte array (`unsigned_right_shift_byte_array`):
the loop runs `current_index` from `array_length - 1` down to `0`. -/
def unsigned_right_shift_byte_array (array : Nat → Nat) (array_length : Nat) (shift : Nat) : Nat → Nat :=
  ((List.range array_length).reverse.foldl (unsigned_right_shift_step array_length shift) (array, 0)).1

/-- Perform a signed right bit shift on a byte array (`signed_right_shift_byte_array`). -/
def signed_right_shift_byte_array (array : Nat → Nat) (array_length : Nat) (shift : Nat) : Nat → Nat :=
  let start_bits_mask := uchar (0xFF <<< (8 - shift))
  let is_signed := 0x80 &&& array 0
  let array := unsigned_right_shift_byte_array array array_length shift
  if is_signed ≠ 0 then Function.update array 0 (array 0 ||| start_bits_mask) else array

/-- Perform an unsigned bit shift on a byte array (`unsigned_shift_byte_array`):
left for a negative `shift`, right for a positive one. -/
def unsigned_shift_byte_array (array : Nat → Nat) (array_length : Nat) (shift : Int) : Nat → Nat :=
  if shift < 0 then left_shift_byte_array array array_length (-shift).toNat
  else if shift > 0 then unsigned_right_shift_byte_array array array_length shift.toNat
  else array

/-- One iteration of the loop of `reverse_bytes`. -/
def reverse_bytes_step (array_length : Nat) (array : Nat → Nat) (first_index : Nat) : Nat → Nat :=
  let second_index := array_length - 1 - first_index
  let temp_byte := array first_index
  let array := Function.update array first_index (array second_index)
  Function.update array second_index temp_byte

/-- Reverse the byte order of a byte array (`reverse_bytes`). -/
def reverse_bytes (array : Nat → Nat) (array_length : Nat) : Nat → Nat :=
  (List.range (array_length / 2)).foldl (reverse_bytes_step array_length) array

/-- The function `read_aligned_16`. -/
def read_aligned_16 (host : Endianness) (lower_bound upper_bound : Nat) (endianness : Endianness)
    (buffer read_value : Nat → Nat) : Nat → Nat :=
  if endianness = host then
    let read_value := Function.update read_value 1 (buffer upper_bound)
    Function.update read_value 0 (buffer lower_bound)
  else
    let read_value := Function.update read_value 0 (buffer upper_bound)
    Function.update read_value 1 (buffer lower_bound)

/-- The function `read_aligned_32`. -/
def read_aligned_32 (host : Endianness) (lower_bound upper_bound : Nat) (endianness : Endianness)
    (buffer read_value : Nat → Nat) : Nat → Nat :=
  if endianness = host then
    let read_value := Function.update read_value 3 (buffer upper_bound)
    let read_value := Function.update read_value 2 (buffer (upper_bound - 1))
    let read_value := Function.update read_value 1 (buffer (lower_bound + 1))
    Function.update read_value 0 (buffer lower_bound)
  else
    let read_value := Function.update read_value 0 (buffer upper_bound)
    let read_value := Function.update read_value 1 (buffer (upper_bound - 1))
    let read_value := Function.update read_value 2 (buffer (lower_bound + 1))
    Function.update read_value 3 (buffer lower_bound)

/-- The function `read_aligned_64`. -/
def read_aligned_64 (host : Endianness) (lower_bound upper_bound : Nat) (endianness : Endianness)
    (buffer read_value : Nat → Nat) : Nat → Nat :=
  if endianness = host then
    let read_value := Function.update read_value 7 (buffer upper_bound)
    let read_value := Function.update read_value 6 (buffer (upper_bound - 1))
    let read_value := Function.update read_value 5 (buffer (upper_bound - 2))
    let read_value := Function.update read_value 4 (buffer (upper_bound - 3))
    let read_value := Function.update read_value 3 (buffer (lower_bound + 3))
    let read_value := Function.update read_value 2 (buffer (lower_bound + 2))
    let read_value := Function.update read_value 1 (buffer (lower_bound + 1))
    Function.update read_value 0 (buffer lower_bound)
  else
    let read_value := Function.update read_value 0 (buffer upper_bound)
    let read_value := Function.update read_value 1 (buffer (upper_bound - 1))
    let read_value := Function.update read_value 2 (buffer (upper_bound - 2))
    let read_value := Function.update read_value 3 (buffer (upper_bound - 3))
    let read_value := Function.update read_value 4 (buffer (lower_bound + 3))
    let read_value := Function.update read_value 5 (buffer (lower_bound + 2))
    let read_value := Function.update read_value 6 (buffer (lower_bound + 1))
    Function.update read_value 7 (buffer lower_bound)

/-- The function `read_bitfield`: the result is the array `read_value` after the call. -/
def read_bitfield (lower_bound upper_bound bit_offset bit_size : Int) (endianness : Endianness)
    (buffer read_value : Nat → Nat) : Except ReadError (Nat → Nat) :=
  let copied : Except ReadError (Int × Int × Int × (Nat → Nat)) :=
    if endianness = Endianness.LITTLE_ENDIAN then
      let num_bytes := (bit_offset.tmod 8 + bit_size - 1).tdiv 8 + 1
      let upper_bound := bit_offset.tdiv 8
      let lower_bound := upper_bound - num_bytes + 1
      if lower_bound < 0 then
        Except.error (ReadError.ArgError ArgReason.LittleEndianBitfieldInvalid)
      else
        let read_value := memcpy read_value (fun i => buffer (lower_bound.toNat + i)) num_bytes.toNat
        let read_value := reverse_bytes read_value num_bytes.toNat
        Except.ok (lower_bound, upper_bound, num_bytes, read_value)
    else
      let num_bytes := upper_bound - lower_bound + 1
      let read_value := memcpy read_value (fun i => buffer (lower_bound.toNat + i)) num_bytes.toNat
      Except.ok (lower_bound, upper_bound, num_bytes, read_value)
  match copied with
  | Except.error e => Except.error e
  | Except.ok (lower_bound, upper_bound, num_bytes, read_value) =>
    let temp_upper := upper_bound - lower_bound
    let total_bits := (temp_upper + 1) * 8
    let start_bits := bit_offset.tmod 8
    let end_bits := total_bits - start_bits - bit_size
    let end_mask := uchar (0xFF <<< end_bits.toNat)
    let read_value := Function.update read_value temp_upper.toNat (read_value temp_upper.toNat &&& end_mask)
    Except.ok (unsigned_shift_byte_array read_value num_bytes.toNat (-start_bits))

/-- The `n` bytes at `p` read as an unsigned big-endian integer. -/
def be_value (p : Nat → Nat) : Nat → Nat
  | 0 => 0
  | n + 1 => be_value p n * 256 + p n

/-- The `n` bytes at `p` read as an unsigned little-endian integer. -/
def le_value (p : Nat → Nat) : Nat → Nat
  | 0 => 0
  | n + 1 => le_value p n + p n * 256 ^ n

/-- The `n`-byte unsigned integer object stored at `p`, in the byte order of the host. -/
def host_uint (host : Endianness) (p : Nat → Nat) (n : Nat) : Nat :=
  if host = Endianness.LITTLE_ENDIAN then le_value p n else be_value p n

/-- Reinterpretation of a `bits`-bit pattern as a two's-complement signed integer. -/
def to_signed (bits : Nat) (u : Nat) : Int :=
  if u < 2 ^ (bits - 1) then (u : Int) else (u : Int) - 2 ^ bits

/-- The `n`-byte signed integer object stored at `p`, in the byte order of the host. -/
def host_int (host : Endianness) (p : Nat → Nat) (n : Nat) : Int :=
  to_signed (8 * n) (host_uint host p n)

/-- The loop `for (index = 0; index < num_bytes; index += 4) reverse_bytes(&array[index], 4)`. -/
def reverse_words (array : Nat → Nat) (num_words : Nat) : Nat → Nat :=
  (List.range num_words).foldl (fun a k => at_offset (4 * k) (fun p => reverse_bytes p 4) a) array

/-- The loop `for (index = 4; index < num_bytes; index += 4)` that shifts the
accumulated integer left by 32 bits and adds the next unsigned word. -/
def assemble_words (host : Endianness) (array : Nat → Nat) (num_words : Nat) (first : Int) : Int :=
  (List.range (num_words - 1)).foldl
    (fun return_value k => return_value * 2 ^ 32 + (host_uint host (fun i => array (4 * (k + 1) + i)) 4 : Int))
    first

/-- The test `(byte_aligned) && ((bit_size == 8) || (bit_size == 16) || (bit_size == 32) || (bit_size == 64))`. -/
def aligned_width (bit_offset bit_size : Int) : Bool :=
  decide (bit_offset.tmod 8 = 0) && (decide (bit_size = 8) || decide (bit_size = 16) ||
    decide (bit_size = 32) || decide (bit_size = 64))

/-- Lines 324-334: handle negative bit offsets. -/
def handle_negative_bit_offset (buffer_length bit_offset given_bit_size : Int) : Except ReadError Int :=
  if bit_offset < 0 then
    if given_bit_size ≤ 0 then
      Except.error (ReadError.ArgError ArgReason.NegativeOffsetNonPositiveSize)
    else
      let bit_offset := buffer_length * 8 + bit_offset
      if bit_offset < 0 then Except.error ReadError.BufferError else Except.ok bit_offset
  else Except.ok bit_offset

/-- Lines 336-348: handle negative and zero bit sizes; `none` is the early return of an empty string. -/
def handle_bit_size (buffer_length bit_offset bit_size : Int) (param_data_type : DataType) :
    Except ReadError (Option Int) :=
  if bit_size ≤ 0 then
    if param_data_type = DataType.STRING ∨ param_data_type = DataType.BLOCK then
      let bit_size := buffer_length * 8 - bit_offset + bit_size
      if bit_size = 0 then Except.ok none
      else if bit_size < 0 then Except.error ReadError.BufferError
      else Except.ok (some bit_size)
    else Except.error (ReadError.ArgError ArgReason.NonPositiveSize)
  else Except.ok (some bit_size)

/-- Lines 357-365: the sanity check of the buffer size; `true` when the buffer error is raised. -/
def buffer_too_short (buffer_length lower_bound upper_bound bit_offset bit_size : Int)
    (param_data_type : DataType) (param_endianness : Endianness) : Bool :=
  if upper_bound ≥ buffer_length then
    if param_endianness = Endianness.LITTLE_ENDIAN ∧
        (param_data_type = DataType.INT ∨ param_data_type = DataType.UINT) ∧
        ¬ (aligned_width bit_offset bit_size = true) ∧ lower_bound < buffer_length then
      false
    else true
  else false

/-- Lines 367-386: the data types `:STRING` and `:BLOCK`. -/
def read_string (uninit : Nat → Nat) (lower_bound upper_bound bit_offset : Int)
    (param_data_type : DataType) (buffer : Nat → Nat) : Except ReadError Value :=
  if bit_offset.tmod 8 = 0 then
    let string_length := upper_bound - lower_bound + 1
    let string := malloc uninit
    let string := memcpy string (fun i => buffer (lower_bound.toNat + i)) string_length.toNat
    let string := Function.update string string_length.toNat 0
    if param_data_type = DataType.STRING then
      -- rb_str_new2: the bytes before the first zero byte (the terminator bounds the scan)
      Except.ok (Value.Str (((List.range (string_length.toNat + 1)).map string).takeWhile (fun b => b ≠ 0)))
    else
      -- rb_str_new(string, string_length)
      Except.ok (Value.Str ((List.range string_length.toNat).map string))
  else Except.error (ReadError.ArgError ArgReason.NotByteAligned)

/-- Lines 399-418: byte-aligned 8, 16, 32 and 64 bit `:INT`. -/
def read_int_aligned (host : Endianness) (lower_bound upper_bound bit_size : Int)
    (param_endianness : Endianness) (buffer : Nat → Nat) : Value :=
  if bit_size = 8 then
    Value.Integer (to_signed 8 (buffer lower_bound.toNat))
  else if bit_size = 16 then
    Value.Integer (host_int host
      (read_aligned_16 host lower_bound.toNat upper_bound.toNat param_endianness buffer (fun _ => 0)) 2)
  else if bit_size = 32 then
    Value.Integer (host_int host
      (read_aligned_32 host lower_bound.toNat upper_bound.toNat param_endianness buffer (fun _ => 0)) 4)
  else
    Value.Integer (host_int host
      (read_aligned_64 host lower_bound.toNat upper_bound.toNat param_endianness buffer (fun _ => 0)) 8)

/-- Lines 492-511: byte-aligned 8, 16, 32 and 64 bit `:UINT`. -/
def read_uint_aligned (host : Endianness) (lower_bound upper_bound bit_size : Int)
    (param_endianness : Endianness) (buffer : Nat → Nat) : Value :=
  if bit_size = 8 then
    Value.Integer (buffer lower_bound.toNat)
  else if bit_size = 16 then
    Value.Integer (host_uint host
      (read_aligned_16 host lower_bound.toNat upper_bound.toNat param_endianness buffer (fun _ => 0)) 2)
  else if bit_size = 32 then
    Value.Integer (host_uint host
      (read_aligned_32 host lower_bound.toNat upper_bound.toNat param_endianness buffer (fun _ => 0)) 4)
  else
    Value.Integer (host_uint host
      (read_aligned_64 host lower_bound.toNat upper_bound.toNat param_endianness buffer (fun _ => 0)) 8)

/-- Lines 420-478: the `:INT` bitfield. -/
def read_int_bitfield (host : Endianness) (uninit : Nat → Nat) (lower_bound upper_bound bit_offset bit_size : Int)
    (param_endianness : Endianness) (buffer : Nat → Nat) : Except ReadError Value :=
  let unsigned_char_array := malloc uninit
  match read_bitfield lower_bound upper_bound bit_offset bit_size param_endianness buffer unsigned_char_array with
  | Except.error e => Except.error e
  | Except.ok unsigned_char_array =>
    let string_length := (bit_size - 1).tdiv 8 + 1
    let num_words := (string_length - 1).tdiv 4 + 1
    let num_bytes := num_words * 4
    let num_bits := num_bytes * 8
    let shift_needed := num_bits - bit_size
    let shift_count := shift_needed.tdiv 8
    let shift_needed := shift_needed.tmod 8
    let unsigned_char_array :=
      if bit_size > 1 then
        let a := (fun a => signed_right_shift_byte_array a num_bytes.toNat 8)^[shift_count.toNat] unsigned_char_array
        if shift_needed > 0 then signed_right_shift_byte_array a num_bytes.toNat shift_needed.toNat else a
      else
        let a := (fun a => unsigned_right_shift_byte_array a num_bytes.toNat 8)^[shift_count.toNat] unsigned_char_array
        if shift_needed > 0 then unsigned_right_shift_byte_array a num_bytes.toNat shift_needed.toNat else a
    let unsigned_char_array :=
      if host = Endianness.LITTLE_ENDIAN then reverse_words unsigned_char_array num_words.toNat
      else unsigned_char_array
    if bit_size ≤ 31 then
      Except.ok (Value.Integer (host_int host unsigned_char_array 4))
    else if bit_size = 32 then
      Except.ok (Value.Integer (host_int host unsigned_char_array 4))
    else
      Except.ok (Value.Integer
        (assemble_words host unsigned_char_array num_words.toNat (host_int host unsigned_char_array 4)))

/-- Lines 513-561: the `:UINT` bitfield. -/
def read_uint_bitfield (host : Endianness) (uninit : Nat → Nat) (lower_bound upper_bound bit_offset bit_size : Int)
    (param_endianness : Endianness) (buffer : Nat → Nat) : Except ReadError Value :=
  let unsigned_char_array := malloc uninit
  match read_bitfield lower_bound upper_bound bit_offset bit_size param_endianness buffer unsigned_char_array with
  | Except.error e => Except.error e
  | Except.ok unsigned_char_array =>
    let string_length := (bit_size - 1).tdiv 8 + 1
    let num_words := (string_length - 1).tdiv 4 + 1
    let num_bytes := num_words * 4
    let num_bits := num_bytes * 8
    let shift_needed := num_bits - bit_size
    let shift_count := shift_needed.tdiv 8
    let shift_needed := shift_needed.tmod 8
    let unsigned_char_array :=
      (fun a => unsigned_right_shift_byte_array a num_bytes.toNat 8)^[shift_count.toNat] unsigned_char_array
    let unsigned_char_array :=
      if shift_needed > 0 then unsigned_right_shift_byte_array unsigned_char_array num_bytes.toNat shift_needed.toNat
      else unsigned_char_array
    let unsigned_char_array :=
      if host = Endianness.LITTLE_ENDIAN then reverse_words unsigned_char_array num_words.toNat
      else unsigned_char_array
    if bit_size ≤ 30 then
      Except.ok (Value.Integer (host_int host unsigned_char_array 4))
    else if bit_size ≤ 32 then
      Except.ok (Value.Integer (host_uint host unsigned_char_array 4))
    else
      Except.ok (Value.Integer
        (assemble_words host unsigned_char_array num_words.toNat (host_uint host unsigned_char_array 4)))

/-- Lines 570-588: the data type `:FLOAT`; the value is given by the IEEE-754 bits read from the
buffer (the widening of a `float` to `double` before `rb_float_new`, which quiets a signalling NaN,
is not part of the model). -/
def read_float (host : Endianness) (lower_bound upper_bound bit_offset bit_size : Int)
    (param_endianness : Endianness) (buffer : Nat → Nat) : Except ReadError Value :=
  if bit_offset.tmod 8 = 0 then
    if bit_size = 32 then
      Except.ok (Value.Float 32 (host_uint host
        (read_aligned_32 host lower_bound.toNat upper_bound.toNat param_endianness buffer (fun _ => 0)) 4))
    else if bit_size = 64 then
      Except.ok (Value.Float 64 (host_uint host
        (read_aligned_64 host lower_bound.toNat upper_bound.toNat param_endianness buffer (fun _ => 0)) 8))
    else Except.error (ReadError.ArgError ArgReason.FloatBitSize)
  else Except.error (ReadError.ArgError ArgReason.NotByteAligned)

/-- Reads binary data of any data type from a buffer (`binary_accessor_read`). -/
def binary_accessor_read (host : Endianness) (uninit : Nat → Nat) (param_bit_offset param_bit_size : Int)
    (param_data_type : DataType) (param_buffer : List Nat) (param_endianness : Endianness) :
    Except ReadError Value :=
  let buffer := RSTRING_PTR param_buffer
  let buffer_length := RSTRING_LEN param_buffer
  match handle_negative_bit_offset buffer_length param_bit_offset param_bit_size with
  | Except.error e => Except.error e
  | Except.ok bit_offset =>
    match handle_bit_size buffer_length bit_offset param_bit_size param_data_type with
    | Except.error e => Except.error e
    | Except.ok none => Except.ok (Value.Str [])
    | Except.ok (some bit_size) =>
      let lower_bound := bit_offset.tdiv 8
      let upper_bound := (bit_offset + bit_size - 1).tdiv 8
      if buffer_too_short buffer_length lower_bound upper_bound bit_offset bit_size
          param_data_type param_endianness = true then
        Except.error ReadError.BufferError
      else if param_data_type = DataType.STRING ∨ param_data_type = DataType.BLOCK then
        read_string uninit lower_bound upper_bound bit_offset param_data_type buffer
      else if param_data_type = DataType.INT then
        if aligned_width bit_offset bit_size = true then
          Except.ok (read_int_aligned host lower_bound upper_bound bit_size param_endianness buffer)
        else
          read_int_bitfield host uninit lower_bound upper_bound bit_offset bit_size param_endianness buffer
      else if param_data_type = DataType.UINT then
        if aligned_width bit_offset bit_size = true then
          Except.ok (read_uint_aligned host lower_bound upper_bound bit_size param_endianness buffer)
        else
          read_uint_bitfield host uninit lower_bound upper_bound bit_offset bit_size param_endianness buffer
      else if param_data_type = DataType.FLOAT then
        read_float host lower_bound upper_bound bit_offset bit_size param_endianness buffer
      else
        Except.error (ReadError.ArgError ArgReason.NotRecognized)

/-- The instance variables of a StructureItem that the extension reads: `@bit_offset`, `@bit_size`,
`@data_type`, `@array_size` (`none` for nil) and `@endianness`. -/
structure StructureItem where
  bit_offset : Int
  bit_size : Int
  data_type : DataType
  array_size : Option Int
  endianness : Endianness
  deriving DecidableEq, Repr

/-- The instance variables of a Structure that the extension reads or writes here: `@buffer`
(`none` for nil) and `@defined_length`. -/
structure Structure where
  buffer : Option (List Nat)
  defined_length : Int
  deriving DecidableEq, Repr

/-- The ways `read_item` fails: an error of the accessor, the `rb_eRuntimeError`
"No buffer given to read_item", or the `rb_eArgError` for a wrong number of arguments. -/
inductive ItemError where
  | Read (e : ReadError)
  | NoBufferGiven
  | WrongNumberOfArguments
  deriving DecidableEq, Repr

/-- The Ruby value returned by `read_item`: nil, a scalar, or the array of the array reader. -/
inductive ItemValue where
  | Nil
  | Scalar (v : Value)
  | Array (vs : List Value)
  deriving DecidableEq, Repr

/-- The actual length as an integer (`get_int_length`). -/
def get_int_length (self : Structure) : Int :=
  match self.buffer with
  | some buffer => RSTRING_LEN buffer
  | none => 0

/-- The actual structure length (`structure_length`). -/
def structure_length (self : Structure) : Int := get_int_length self

/-- The function `read_item_internal`; the Ruby method `BinaryAccessor.read_array` is the
parameter `read_array`. -/
def read_item_internal (host : Endianness) (uninit : Nat → Nat)
    (read_array : Int → Int → DataType → Int → List Nat → Endianness → Except ItemError ItemValue)
    (item : StructureItem) (buffer : Option (List Nat)) : Except ItemError ItemValue :=
  let data_type := item.data_type
  if data_type = DataType.DERIVED then Except.ok ItemValue.Nil
  else
    match buffer with
    | some buffer =>
      let bit_offset := item.bit_offset
      let bit_size := item.bit_size
      let endianness := item.endianness
      match item.array_size with
      | some array_size => read_array bit_offset bit_size data_type array_size buffer endianness
      | none =>
        match binary_accessor_read host uninit bit_offset bit_size data_type buffer endianness with
        | Except.ok v => Except.ok (ItemValue.Scalar v)
        | Except.error e => Except.error (ItemError.Read e)
    | none => Except.error ItemError.NoBufferGiven

/-- Read an item in the structure (`read_item`): `argc` is the number of arguments, `item` is
`argv[0]` and `explicit_buffer` is `argv[2]`; `argv[1]` is not used. -/
def read_item (host : Endianness) (uninit : Nat → Nat)
    (read_array : Int → Int → DataType → Int → List Nat → Endianness → Except ItemError ItemValue)
    (self : Structure) (argc : Nat) (item : StructureItem) (explicit_buffer : Option (List Nat)) :
    Except ItemError ItemValue :=
  if argc = 1 ∨ argc = 2 then
    read_item_internal host uninit read_array item self.buffer
  else if argc = 3 then
    read_item_internal host uninit read_array item explicit_buffer
  else Except.error ItemError.WrongNumberOfArguments

/-- Comparison operator `<=>` of two StructureItems (`structure_item_spaceship`). -/
def structure_item_spaceship (self other_item : StructureItem) : Int :=
  let bit_offset := self.bit_offset
  let other_bit_offset := other_item.bit_offset
  if bit_offset = 0 ∧ other_bit_offset = 0 then
    let bit_size := self.bit_size
    let other_bit_size := other_item.bit_size
    if bit_size = other_bit_size then 0
    else if bit_size < other_bit_size then -1
    else 1
  else if (bit_offset ≥ 0 ∧ other_bit_offset ≥ 0) ∨ (bit_offset < 0 ∧ other_bit_offset < 0) then
    if bit_offset = other_bit_offset then 0
    else if bit_offset < other_bit_offset then -1
    else 1
  else
    if bit_offset = other_bit_offset then 0
    else if bit_offset < other_bit_offset then 1
    else -1

/-- The frozen one-byte string `ZERO_STRING`. -/
def ZERO_STRING : List Nat := [0]

/-- The call `rb_str_times(str, times)`. -/
def rb_str_times (str : List Nat) (times : Int) : List Nat :=
  (List.replicate times.toNat str).flatten

/-- Resize the buffer to at least the defined length of the structure (`resize_buffer`). -/
def resize_buffer (self : Structure) : Structure :=
  match self.buffer with
  | some buffer =>
    let defined_length := self.defined_length
    let current_length := RSTRING_LEN buffer
    if current_length < defined_length then
      { self with buffer := some (buffer ++ rb_str_times ZERO_STRING (defined_length - current_length)) }
    else self
  | none => self

/-! ## The memory accesses of a read

The functions of this part list, in program order, the indices at which `binary_accessor_read` and
its helpers access the input buffer and the scratch array `unsigned_char_array`: one entry for each
subscript expression of a statement that reads or writes memory (`a[i] |= x` is one entry).  Here
`int` arithmetic is that of the machine: every `+`, `-` and `*` on `int` values wraps to 32 bits
(`to_int`), which is what the signed overflow of `bit_offset + bit_size - 1` does in practice.  A
call that raises has made no access before the raise; its list of accesses is the error. -/

/-- Conversion to `int`: 32 bits, two's complement, wrapping on overflow. -/
def to_int (x : Int) : Int := (x + 2 ^ 31) % 2 ^ 32 - 2 ^ 31

/-- The operator `+` on `int`. -/
def int_add (x y : Int) : Int := to_int (x + y)

/-- The operator `-` on `int`. -/
def int_sub (x y : Int) : Int := to_int (x - y)

/-- The operator `*` on `int`. -/
def int_mul (x y : Int) : Int := to_int (x * y)

/-- Conversion of an `int` to `size_t` (64 bits), as for the count of `memcpy`. -/
def to_size_t (x : Int) : Nat := (x % 2 ^ 64).toNat

/-- A memory access of a read: a subscript of the input buffer, or a subscript of the scratch
array `unsigned_char_array`. -/
inductive Access where
  | Buffer (index : Int)
  | Scratch (index : Int)
  deriving DecidableEq, Repr

/-- The access is within its object: the buffer of `buffer_length` bytes, or the scratch array of
`array_length` bytes. -/
def in_bounds (buffer_length array_length : Int) : Access → Bool
  | Access.Buffer index => decide (0 ≤ index) && decide (index < buffer_length)
  | Access.Scratch index => decide (0 ≤ index) && decide (index < array_length)

/-- One iteration of the loop of `left_shift_byte_array`: the subscripts of lines 74, 77 and 82;
the state is the list so far and `previous_index`. -/
def left_shift_accesses_step (st : List Int × Int) (current_index : Nat) : List Int × Int :=
  let trace := st.1
  let previous_index := st.2
  let trace := trace ++ [(current_index : Int)]
  let trace := trace ++ [(current_index : Int)]
  let trace := if current_index > 0 then trace ++ [previous_index] else trace
  (trace, (current_index : Int))

/-- The subscripts of `array` used by `left_shift_byte_array(array, array_length, shift)`. -/
def left_shift_byte_array_accesses (array_length : Int) : List Int :=
  ((List.range array_length.toNat).foldl left_shift_accesses_step ([], 0)).1

/-- One iteration of the loop of `unsigned_right_shift_byte_array`: the subscripts of lines 104,
107 and 112. -/
def unsigned_right_shift_accesses_step (array_length : Int) (st : List Int × Int) (current_index : Nat) :
    List Int × Int :=
  let trace := st.1
  let previous_index := st.2
  let trace := trace ++ [(current_index : Int)]
  let trace := trace ++ [(current_index : Int)]
  let trace := if (current_index : Int) ≠ int_sub array_length 1 then trace ++ [previous_index] else trace
  (trace, (current_index : Int))

/-- The subscripts of `array` used by `unsigned_right_shift_byte_array(array, array_length, shift)`. -/
def unsigned_right_shift_byte_array_accesses (array_length : Int) : List Int :=
  ((List.range (int_sub array_length 1 + 1).toNat).reverse.foldl
    (unsigned_right_shift_accesses_step array_length) ([], 0)).1

/-- The subscripts of `array` used by `signed_right_shift_byte_array`: line 126, the unsigned
shift, and line 132 (which runs only when the sign bit was set; it is listed in either case). -/
def signed_right_shift_byte_array_accesses (array_length : Int) : List Int :=
  [0] ++ unsigned_right_shift_byte_array_accesses array_length ++ [0]

/-- The subscripts of `array` used by `unsigned_shift_byte_array(array, array_length, shift)`. -/
def unsigned_shift_byte_array_accesses (array_length shift : Int) : List Int :=
  if shift < 0 then left_shift_byte_array_accesses array_length
  else if shift > 0 then unsigned_right_shift_byte_array_accesses array_length
  else []

/-- The subscripts of `array` used by `reverse_bytes(array, array_length)`: lines 163, 164, 165. -/
def reverse_bytes_accesses (array_length : Int) : List Int :=
  ((List.range (array_length.tdiv 2).toNat).map (fun (first_index : Nat) =>
    let second_index := int_sub (int_sub array_length 1) first_index
    [(first_index : Int), (first_index : Int), second_index, second_index])).flatten

/-- The subscripts of `buffer` read by `read_aligned_16` (the same in both branches). -/
def read_aligned_16_accesses (lower_bound upper_bound : Int) : List Int :=
  [upper_bound, lower_bound]

/-- The subscripts of `buffer` read by `read_aligned_32` (the same in both branches). -/
def read_aligned_32_accesses (lower_bound upper_bound : Int) : List Int :=
  [upper_bound, int_sub upper_bound 1, int_add lower_bound 1, lower_bound]

/-- The subscripts of `buffer` read by `read_aligned_64` (the same in both branches). -/
def read_aligned_64_accesses (lower_bound upper_bound : Int) : List Int :=
  [upper_bound, int_sub upper_bound 1, int_sub upper_bound 2, int_sub upper_bound 3,
    int_add lower_bound 3, int_add lower_bound 2, int_add lower_bound 1, lower_bound]

/-- The accesses of `memcpy(read_value, &buffer[lower_bound], num_bytes)`: byte `i` of the copy reads
`buffer[lower_bound + i]` and writes `read_value[i]`. -/
def memcpy_accesses (lower_bound num_bytes : Int) : List Access :=
  ((List.range (to_size_t num_bytes)).map (fun (i : Nat) =>
    [Access.Buffer (lower_bound + (i : Int)), Access.Scratch (i : Int)])).flatten

/-- The accesses of `read_bitfield`, whose `read_value` is the scratch array. -/
def read_bitfield_accesses (lower_bound upper_bound bit_offset bit_size : Int) (endianness : Endianness) :
    Except ReadError (List Access) :=
  let copied : Except ReadError (Int × Int × Int × List Access) :=
    if endianness = Endianness.LITTLE_ENDIAN then
      let num_bytes := int_add ((int_sub (int_add (bit_offset.tmod 8) bit_size) 1).tdiv 8) 1
      let upper_bound := bit_offset.tdiv 8
      let lower_bound := int_add (int_sub upper_bound num_bytes) 1
      if lower_bound < 0 then
        Except.error (ReadError.ArgError ArgReason.LittleEndianBitfieldInvalid)
      else
        let trace := memcpy_accesses lower_bound num_bytes
        let trace := trace ++ (reverse_bytes_accesses num_bytes).map Access.Scratch
        Except.ok (lower_bound, upper_bound, num_bytes, trace)
    else
      let num_bytes := int_add (int_sub upper_bound lower_bound) 1
      let trace := memcpy_accesses lower_bound num_bytes
      Except.ok (lower_bound, upper_bound, num_bytes, trace)
  match copied with
  | Except.error e => Except.error e
  | Except.ok (lower_bound, upper_bound, num_bytes, trace) =>
    let temp_upper := int_sub upper_bound lower_bound
    let start_bits := bit_offset.tmod 8
    let trace := trace ++ [Access.Scratch temp_upper]
    Except.ok (trace ++ (unsigned_shift_byte_array_accesses num_bytes (int_sub 0 start_bits)).map Access.Scratch)

/-- The values of `index` in a loop `for (index = start; index < bound; index += 4)`. -/
def word_loop (start bound : Int) : List Int :=
  (List.range ((bound - start + 3).tdiv 4).toNat).map (fun (k : Nat) => start + 4 * (k : Int))

/-- The accesses of reading the `int` (or `unsigned int`) stored at `&unsigned_char_array[index]`. -/
def word_accesses (index : Int) : List Access :=
  [Access.Scratch index, Access.Scratch (index + 1), Access.Scratch (index + 2), Access.Scratch (index + 3)]

/-- The accesses of the loop `for (index = 0; index < num_bytes; index += 4)
reverse_bytes(&(unsigned_char_array[index]), 4)`. -/
def reverse_words_accesses (num_bytes : Int) : List Access :=
  ((word_loop 0 num_bytes).map (fun (index : Int) =>
    (reverse_bytes_accesses 4).map (fun (i : Int) => Access.Scratch (index + i)))).flatten

/-- The length `array_length` of the scratch array of a bitfield of `bit_size` bits (lines 420-421
and 513-514). -/
def scratch_array_length (bit_size : Int) : Int :=
  let string_length := int_add ((int_sub bit_size 1).tdiv 8) 1
  int_add string_length 4

/-- The accesses of lines 420-478: the `:INT` bitfield. -/
def read_int_bitfield_accesses (host : Endianness) (lower_bound upper_bound bit_offset bit_size : Int)
    (param_endianness : Endianness) : Except ReadError (List Access) :=
  let string_length := int_add ((int_sub bit_size 1).tdiv 8) 1
  match read_bitfield_accesses lower_bound upper_bound bit_offset bit_size param_endianness with
  | Except.error e => Except.error e
  | Except.ok trace =>
    let num_words := int_add ((int_sub string_length 1).tdiv 4) 1
    let num_bytes := int_mul num_words 4
    let num_bits := int_mul num_bytes 8
    let shift_needed := int_sub num_bits bit_size
    let shift_count := shift_needed.tdiv 8
    let shift_needed := shift_needed.tmod 8
    let trace :=
      if bit_size > 1 then
        let trace := trace ++ ((List.replicate shift_count.toNat
          (signed_right_shift_byte_array_accesses num_bytes)).flatten).map Access.Scratch
        if shift_needed > 0 then trace ++ (signed_right_shift_byte_array_accesses num_bytes).map Access.Scratch
        else trace
      else
        let trace := trace ++ ((List.replicate shift_count.toNat
          (unsigned_right_shift_byte_array_accesses num_bytes)).flatten).map Access.Scratch
        if shift_needed > 0 then trace ++ (unsigned_right_shift_byte_array_accesses num_bytes).map Access.Scratch
        else trace
    let trace :=
      if host = Endianness.LITTLE_ENDIAN then trace ++ reverse_words_accesses num_bytes else trace
    if bit_size ≤ 31 then Except.ok (trace ++ word_accesses 0)
    else if bit_size = 32 then Except.ok (trace ++ word_accesses 0)
    else Except.ok (trace ++ word_accesses 0 ++ ((word_loop 4 num_bytes).map word_accesses).flatten)

/-- The accesses of lines 513-561: the `:UINT` bitfield. -/
def read_uint_bitfield_accesses (host : Endianness) (lower_bound upper_bound bit_offset bit_size : Int)
    (param_endianness : Endianness) : Except ReadError (List Access) :=
  let string_length := int_add ((int_sub bit_size 1).tdiv 8) 1
  match read_bitfield_accesses lower_bound upper_bound bit_offset bit_size param_endianness with
  | Except.error e => Except.error e
  | Except.ok trace =>
    let num_words := int_add ((int_sub string_length 1).tdiv 4) 1
    let num_bytes := int_mul num_words 4
    let num_bits := int_mul num_bytes 8
    let shift_needed := int_sub num_bits bit_size
    let shift_count := shift_needed.tdiv 8
    let shift_needed := shift_needed.tmod 8
    let trace := trace ++ ((List.replicate shift_count.toNat
      (unsigned_right_shift_byte_array_accesses num_bytes)).flatten).map Access.Scratch
    let trace :=
      if shift_needed > 0 then trace ++ (unsigned_right_shift_byte_array_accesses num_bytes).map Access.Scratch
      else trace
    let trace :=
      if host = Endianness.LITTLE_ENDIAN then trace ++ reverse_words_accesses num_bytes else trace
    if bit_size ≤ 30 then Except.ok (trace ++ word_accesses 0)
    else if bit_size ≤ 32 then Except.ok (trace ++ word_accesses 0)
    else Except.ok (trace ++ word_accesses 0 ++ ((word_loop 4 num_bytes).map word_accesses).flatten)

/-- The accesses of lines 399-418 and 492-511: a byte-aligned 8, 16, 32 or 64 bit integer. -/
def read_aligned_accesses (lower_bound upper_bound bit_size : Int) : List Access :=
  if bit_size = 8 then [Access.Buffer lower_bound]
  else if bit_size = 16 then (read_aligned_16_accesses lower_bound upper_bound).map Access.Buffer
  else if bit_size = 32 then (read_aligned_32_accesses lower_bound upper_bound).map Access.Buffer
  else (read_aligned_64_accesses lower_bound upper_bound).map Access.Buffer

/-- Lines 324-334, handle negative bit offsets, in `int` arithmetic. -/
def handle_negative_bit_offset_int (buffer_length bit_offset given_bit_size : Int) : Except ReadError Int :=
  if bit_offset < 0 then
    if given_bit_size ≤ 0 then
      Except.error (ReadError.ArgError ArgReason.NegativeOffsetNonPositiveSize)
    else
      let bit_offset := int_add (int_mul (to_int buffer_length) 8) bit_offset
      if bit_offset < 0 then Except.error ReadError.BufferError else Except.ok bit_offset
  else Except.ok bit_offset

/-- Lines 336-348, handle negative and zero bit sizes, in `int` arithmetic; `none` is the early
return of an empty string. -/
def handle_bit_size_int (buffer_length bit_offset bit_size : Int) (param_data_type : DataType) :
    Except ReadError (Option Int) :=
  if bit_size ≤ 0 then
    if param_data_type = DataType.STRING ∨ param_data_type = DataType.BLOCK then
      let bit_size := int_add (int_sub (int_mul (to_int buffer_length) 8) bit_offset) bit_size
      if bit_size = 0 then Except.ok none
      else if bit_size < 0 then Except.error ReadError.BufferError
      else Except.ok (some bit_size)
    else Except.error (ReadError.ArgError ArgReason.NonPositiveSize)
  else Except.ok (some bit_size)

/-- The accesses of lines 350-597: the bounds in `int` arithmetic, the sanity check of the buffer
size and the dispatch on the data type. -/
def dispatch_accesses (host : Endianness) (buffer_length bit_offset bit_size : Int)
    (param_data_type : DataType) (param_endianness : Endianness) : Except ReadError (List Access) :=
  let lower_bound := bit_offset.tdiv 8
  let upper_bound := (int_sub (int_add bit_offset bit_size) 1).tdiv 8
  if buffer_too_short buffer_length lower_bound upper_bound bit_offset bit_size
      param_data_type param_endianness = true then
    Except.error ReadError.BufferError
  else if param_data_type = DataType.STRING ∨ param_data_type = DataType.BLOCK then
    if bit_offset.tmod 8 = 0 then
      let string_length := int_add (int_sub upper_bound lower_bound) 1
      -- memcpy(string, buffer + lower_bound, string_length)
      Except.ok ((List.range (to_size_t string_length)).map
        (fun (i : Nat) => Access.Buffer (lower_bound + (i : Int))))
    else Except.error (ReadError.ArgError ArgReason.NotByteAligned)
  else if param_data_type = DataType.INT then
    if aligned_width bit_offset bit_size = true then
      Except.ok (read_aligned_accesses lower_bound upper_bound bit_size)
    else
      read_int_bitfield_accesses host lower_bound upper_bound bit_offset bit_size param_endianness
  else if param_data_type = DataType.UINT then
    if aligned_width bit_offset bit_size = true then
      Except.ok (read_aligned_accesses lower_bound upper_bound bit_size)
    else
      read_uint_bitfield_accesses host lower_bound upper_bound bit_offset bit_size param_endianness
  else if param_data_type = DataType.FLOAT then
    if bit_offset.tmod 8 = 0 then
      if bit_size = 32 then
        Except.ok ((read_aligned_32_accesses lower_bound upper_bound).map Access.Buffer)
      else if bit_size = 64 then
        Except.ok ((read_aligned_64_accesses lower_bound upper_bound).map Access.Buffer)
      else Except.error (ReadError.ArgError ArgReason.FloatBitSize)
    else Except.error (ReadError.ArgError ArgReason.NotByteAligned)
  else
    Except.error (ReadError.ArgError ArgReason.NotRecognized)

/-- The accesses of `binary_accessor_read` to the input buffer and to the scratch array
`unsigned_char_array`; the bit offset and the bit size are the `int` values of `FIX2INT`. -/
def binary_accessor_read_accesses (host : Endianness) (param_bit_offset param_bit_size : Int)
    (param_data_type : DataType) (param_buffer : List Nat) (param_endianness : Endianness) :
    Except ReadError (List Access) :=
  let buffer_length := RSTRING_LEN param_buffer
  match handle_negative_bit_offset_int buffer_length param_bit_offset param_bit_size with
  | Except.error e => Except.error e
  | Except.ok bit_offset =>
    match handle_bit_size_int buffer_length bit_offset param_bit_size param_data_type with
    | Except.error e => Except.error e
    | Except.ok none => Except.ok []
    | Except.ok (some bit_size) =>
      dispatch_accesses host buffer_length bit_offset bit_size param_data_type param_endianness

/-! ## Vocabulary of the proofs -/

/-- The byte at index `j` after a left shift by `n` of the first `L` bytes of `a`. -/
def shl_byte (n : Nat) (a : Nat → Nat) (L j : Nat) : Nat :=
  if j + 1 < L then (a j * 2 ^ n) % 256 + a (j + 1) / 2 ^ (8 - n)
  else if j < L then (a j * 2 ^ n) % 256 else a j

/-- The byte at index `j` after an unsigned right shift by `n` of the first `L` bytes of `a`. -/
def shr_byte (n : Nat) (a : Nat → Nat) (L j : Nat) : Nat :=
  if j < L then (if 0 < j then a (j - 1) % 2 ^ n * 2 ^ (8 - n) + a j / 2 ^ n else a j / 2 ^ n) else a j

/-- All bytes of a memory are byte values. -/
def ByteMem (a : Nat → Nat) : Prop := ∀ i, a i < 256

/-- The array of `unsigned_right_shift_byte_array` after the indices `L - 1` down to `L - m` have been processed. -/
def shr_part (n : Nat) (a : Nat → Nat) (L m j : Nat) : Nat :=
  if L - m < j ∧ j < L then a (j - 1) % 2 ^ n * 2 ^ (8 - n) + a j / 2 ^ n
  else if j = L - m ∧ 0 < m then a j / 2 ^ n else a j

/-- The array of `reverse_bytes` after `k` iterations. -/
def rev_part (a : Nat → Nat) (L k j : Nat) : Nat :=
  if j < k ∨ (L - k ≤ j ∧ j < L) then a (L - 1 - j) else a j

/-- Lines 254-267 of `read_bitfield` on a run of `num` bytes holding a field of `w` bits after `s` leading bits. -/
def bitfield_tail (num s w : Nat) (m : Nat → Nat) : Nat → Nat :=
  unsigned_shift_byte_array
    (Function.update m (num - 1) (m (num - 1) &&& uchar (0xFF <<< (8 * num - s - w)))) num (-(s : Int))

/-- Number of 32-bit words of a `w`-bit field: `num_words`. -/
def field_words (w : Nat) : Nat := ((w - 1) / 8) / 4 + 1

/-- The `k` bytes at `q` read in the byte order `e`. -/
def wire_value (e : Endianness) (q : Nat → Nat) (k : Nat) : Nat :=
  if e = Endianness.LITTLE_ENDIAN then le_value q k else be_value q k

/-- The field of `w` bits at bit offset `o`, cut out of the span of the buffer `p` that
`read_bitfield` copies, the span read in the byte order `e`. -/
def field_value (e : Endianness) (p : Nat → Nat) (o w : Nat) : Nat :=
  (wire_value e (fun i => p ((if e = Endianness.LITTLE_ENDIAN then
      o / 8 + 1 - ((o % 8 + w - 1) / 8 + 1) else o / 8) + i)) ((o % 8 + w - 1) / 8 + 1)
    / 2 ^ (8 * ((o % 8 + w - 1) / 8 + 1) - o % 8 - w)) % 2 ^ w

/-- Every access of the list is within the buffer of `N` bytes or the scratch array of `A` bytes. -/
def AllInBounds (N A : Int) (trace : List Access) : Prop := ∀ a ∈ trace, in_bounds N A a = true

/-- The outcome of a computation without its value: completion, or the error raised. -/
def outcome {α : Type} (r : Except ReadError α) : Except ReadError Unit :=
  match r with
  | Except.ok _ => Except.ok ()
  | Except.error x => Except.error x

/-- A request without `int` overflow: a buffer shorter than 2^27 bytes, a bit offset and a bit
size of magnitude below 2^30. -/
def InRange (buffer : List Nat) (bit_offset bit_size : Int) : Prop :=
  (buffer.length : Int) < 2 ^ 27 ∧ -2 ^ 30 ≤ bit_offset ∧ bit_offset < 2 ^ 30 ∧
    -2 ^ 30 ≤ bit_size ∧ bit_size < 2 ^ 30

instance (buffer : List Nat) (bit_offset bit_size : Int) : Decidable (InRange buffer bit_offset bit_size) := by
  unfold InRange; infer_instance

/-- The bit offset after lines 324-334: a negative bit offset counts from the end of the buffer. -/
def resolved_bit_offset (buffer_length bit_offset : Int) : Int :=
  if bit_offset < 0 then buffer_length * 8 + bit_offset else bit_offset

/-- The bit size after lines 336-348: a bit size that is not positive counts from the end of the
buffer. -/
def resolved_bit_size (buffer_length bit_offset bit_size : Int) : Int :=
  if bit_size ≤ 0 then buffer_length * 8 - resolved_bit_offset buffer_length bit_offset + bit_size
  else bit_size

/-! ## Byte-level facts -/

set_option maxRecDepth 100000 in
theorem saved_bits_left_eq : ∀ n < 8, ∀ x < 256, 0 < n →
    uchar (((x &&& uchar (0xFF <<< (8 - n))) >>> (8 - n)) &&& uchar (bnot32 (0xFF <<< n))) = x / 2 ^ (8 - n) := by
  decide

set_option maxRecDepth 100000 in
theorem saved_bits_right_eq : ∀ n < 9, ∀ x < 256, 0 < n →
    uchar ((x &&& uchar (bnot32 (0xFF <<< n))) <<< (8 - n)) = x % 2 ^ n * 2 ^ (8 - n) := by
  decide

set_option maxRecDepth 100000 in
theorem shifted_byte_right_eq : ∀ n < 9, ∀ x < 256, 0 < n →
    (x >>> n) &&& uchar (bnot32 (0xFF <<< (8 - n))) = x / 2 ^ n := by
  decide

set_option maxRecDepth 100000 in
theorem end_mask_eq : ∀ e < 8, ∀ x < 256, x &&& uchar (0xFF <<< e) = x / 2 ^ e * 2 ^ e := by
  decide

set_option maxRecDepth 100000 in
theorem start_bits_mask_eq : ∀ n < 9, 0 < n → uchar (0xFF <<< (8 - n)) = 256 - 2 ^ (8 - n) := by
  decide

set_option maxRecDepth 100000 in
theorem is_signed_iff : ∀ x < 256, (0x80 &&& x ≠ 0) ↔ 128 ≤ x := by
  decide

theorem or_eq_add_of_low (n p q : Nat) (hp : p % 2 ^ n = 0) (hq : q < 2 ^ n) : p ||| q = p + q := by
  obtain ⟨c, rfl⟩ : 2 ^ n ∣ p := Nat.dvd_of_mod_eq_zero hp
  exact (Nat.mul_add_lt_is_or hq c).symm

/-! ## The loops, element by element -/

theorem two_pow_split (n : Nat) (hn : n ≤ 8) : 2 ^ n * 2 ^ (8 - n) = 256 := by
  rw [← pow_add, Nat.add_sub_cancel' hn]; norm_num

theorem left_shift_fold (n : Nat) (hn0 : 0 < n) (hn : n < 8) (a : Nat → Nat) (ha : ByteMem a) (k : Nat) :
    (List.range k).foldl (left_shift_step n) (a, 0) = (shl_byte n a k, k - 1) := by
  induction k with
  | zero =>
    simp only [List.range_zero, List.foldl_nil]
    refine Prod.ext ?_ rfl
    funext j
    simp [shl_byte]
  | succ k ih =>
    rw [List.range_succ, List.foldl_append, ih]
    simp only [List.foldl_cons, List.foldl_nil, left_shift_step]
    refine Prod.ext ?_ (by simp)
    funext j
    have hk : shl_byte n a k k = a k := by simp [shl_byte]
    simp only [hk, saved_bits_left_eq n hn (a k) (ha k) hn0]
    have hu : uchar (a k <<< n) = (a k * 2 ^ n) % 256 := by simp [uchar, Nat.shiftLeft_eq]
    rw [hu]
    by_cases hk0 : k > 0
    · simp only [hk0, if_true]
      have hprev : shl_byte n a k (k - 1) = (a (k - 1) * 2 ^ n) % 256 := by
        have h1 : ¬ (k - 1 + 1 < k) := by omega
        have h2 : k - 1 < k := by omega
        simp [shl_byte, h1, h2]
      have hne : k - 1 ≠ k := by omega
      rw [Function.update_noteq hne, hprev]
      have hor : (a (k - 1) * 2 ^ n) % 256 ||| a k / 2 ^ (8 - n) = (a (k - 1) * 2 ^ n) % 256 + a k / 2 ^ (8 - n) := by
        apply or_eq_add_of_low n
        · rw [← two_pow_split n (by omega), Nat.mul_comm (a (k-1)), Nat.mul_mod_mul_left]
          simp
        · have := ha k
          rw [Nat.div_lt_iff_lt_mul (by positivity)]
          calc a k < 256 := this
            _ = 2 ^ n * 2 ^ (8 - n) := (two_pow_split n (by omega)).symm
      rw [hor]
      by_cases h1 : j = k - 1
      · subst h1
        have h3 : k - 1 + 1 < k + 1 := by omega
        have h4 : k - 1 + 1 = k := by omega
        simp [shl_byte, h3, h4]
      · rw [Function.update_noteq h1]
        by_cases h2 : j = k
        · subst h2
          simp [shl_byte]
        · rw [Function.update_noteq h2]
          simp only [shl_byte]
          split_ifs <;> first | rfl | omega
    · have hk00 : k = 0 := by omega
      subst hk00
      simp only [gt_iff_lt, lt_self_iff_false, if_false]
      by_cases h2 : j = 0
      · subst h2
        simp [shl_byte]
      · rw [Function.update_noteq h2]
        simp only [shl_byte]
        split_ifs <;> first | rfl | omega

theorem left_shift_byte_array_eq (n : Nat) (hn0 : 0 < n) (hn : n < 8) (a : Nat → Nat) (ha : ByteMem a) (L : Nat) :
    left_shift_byte_array a L n = shl_byte n a L := by
  simp [left_shift_byte_array, left_shift_fold n hn0 hn a ha L]

theorem right_shift_fold (n : Nat) (hn0 : 0 < n) (hn : n ≤ 8) (a : Nat → Nat) (ha : ByteMem a) (L : Nat)
    (m : Nat) (hm : m ≤ L) :
    (List.range m).foldl (fun st t => unsigned_right_shift_step L n st (L - 1 - t)) (a, 0)
      = (shr_part n a L m, if m = 0 then 0 else L - m) := by
  induction m with
  | zero =>
    simp only [List.range_zero, List.foldl_nil]
    refine Prod.ext ?_ rfl
    funext j
    simp only [shr_part]
    split_ifs <;> first | rfl | omega
  | succ m ih =>
    rw [List.range_succ, List.foldl_append, ih (by omega)]
    simp only [List.foldl_cons, List.foldl_nil, unsigned_right_shift_step]
    refine Prod.ext ?_ (by simp; omega)
    funext j
    have hcur : shr_part n a L m (L - 1 - m) = a (L - 1 - m) := by
      have h1 : ¬ (L - m < L - 1 - m ∧ L - 1 - m < L) := by omega
      have h2 : ¬ (L - 1 - m = L - m ∧ 0 < m) := by omega
      simp [shr_part, h1, h2]
    simp only [hcur, saved_bits_right_eq n (by omega) _ (ha _) hn0,
      shifted_byte_right_eq n (by omega) _ (ha _) hn0]
    by_cases hm0 : m = 0
    · subst hm0
      simp only [Nat.sub_zero, ne_eq, not_true_eq_false, if_false]
      by_cases h2 : j = L - 1
      · subst h2
        have h1 : ¬ (L - (0 + 1) < L - 1 ∧ L - 1 < L) := by omega
        simp [shr_part, h1]
      · rw [Function.update_noteq h2]
        simp only [shr_part]
        split_ifs <;> first | rfl | omega
    · have hne : L - 1 - m ≠ L - 1 := by omega
      simp only [hne, ne_eq, not_false_eq_true, if_true]
      rw [if_neg hm0]
      have hne2 : L - m ≠ L - 1 - m := by omega
      rw [Function.update_noteq hne2]
      have hprev : shr_part n a L m (L - m) = a (L - m) / 2 ^ n := by
        have h1 : ¬ (L - m < L - m ∧ L - m < L) := by omega
        have h2 : 0 < m := by omega
        simp [shr_part, h1, h2]
      rw [hprev]
      have hor : a (L - m) / 2 ^ n ||| a (L - 1 - m) % 2 ^ n * 2 ^ (8 - n)
          = a (L - 1 - m) % 2 ^ n * 2 ^ (8 - n) + a (L - m) / 2 ^ n := by
        rw [Nat.lor_comm]
        apply or_eq_add_of_low (8 - n)
        · simp
        · rw [Nat.div_lt_iff_lt_mul (by positivity)]
          calc a (L - m) < 256 := ha _
            _ = 2 ^ (8 - n) * 2 ^ n := by rw [Nat.mul_comm]; exact (two_pow_split n hn).symm
      rw [hor]
      by_cases h1 : j = L - m
      · subst h1
        have h3 : L - (m + 1) < L - m ∧ L - m < L := by omega
        have h4 : L - m - 1 = L - 1 - m := by omega
        simp [shr_part, h3, h4]
      · rw [Function.update_noteq h1]
        by_cases h2 : j = L - 1 - m
        · subst h2
          have h3 : ¬ (L - (m + 1) < L - 1 - m ∧ L - 1 - m < L) := by omega
          have h4 : L - 1 - m = L - (m + 1) := by omega
          simp [shr_part, h3, h4]
        · rw [Function.update_noteq h2]
          simp only [shr_part]
          split_ifs <;> first | rfl | omega

theorem unsigned_right_shift_byte_array_eq (n : Nat) (hn0 : 0 < n) (hn : n ≤ 8) (a : Nat → Nat)
    (ha : ByteMem a) (L : Nat) :
    unsigned_right_shift_byte_array a L n = shr_byte n a L := by
  have hrev : (List.range L).reverse = (List.range L).map (fun t => L - 1 - t) := by
    conv_lhs => rw [List.range_eq_range', List.reverse_range']
    simp
  simp only [unsigned_right_shift_byte_array, hrev, List.foldl_map]
  rw [right_shift_fold n hn0 hn a ha L L le_rfl]
  funext j
  simp only [shr_part, shr_byte, Nat.sub_self]
  split_ifs <;> first | rfl | omega

theorem reverse_bytes_fold (a : Nat → Nat) (L k : Nat) (hk : k ≤ L / 2) :
    (List.range k).foldl (reverse_bytes_step L) a = rev_part a L k := by
  induction k with
  | zero =>
    simp only [List.range_zero, List.foldl_nil]
    funext j
    simp only [rev_part]
    split_ifs <;> first | rfl | omega
  | succ k ih =>
    rw [List.range_succ, List.foldl_append, ih (by omega)]
    simp only [List.foldl_cons, List.foldl_nil, reverse_bytes_step]
    funext j
    have h1 : rev_part a L k k = a k := by
      simp only [rev_part]; split_ifs <;> first | rfl | omega
    have h2 : rev_part a L k (L - 1 - k) = a (L - 1 - k) := by
      simp only [rev_part]; split_ifs <;> first | rfl | omega
    rw [h1, h2]
    by_cases hj : j = L - 1 - k
    · subst hj
      have h3 : L - 1 - (L - 1 - k) = k := by omega
      simp only [Function.update_same, rev_part, h3]
      split_ifs <;> first | rfl | omega
    · rw [Function.update_noteq hj]
      by_cases hj2 : j = k
      · subst hj2
        simp only [Function.update_same, rev_part]
        split_ifs <;> first | rfl | omega
      · rw [Function.update_noteq hj2]
        simp only [rev_part]
        split_ifs <;> first | rfl | omega

theorem reverse_bytes_eq (a : Nat → Nat) (L : Nat) :
    reverse_bytes a L = fun j => if j < L then a (L - 1 - j) else a j := by
  rw [reverse_bytes, reverse_bytes_fold a L (L / 2) le_rfl]
  funext j
  simp only [rev_part]
  split_ifs with h1 h2 h3
  · rfl
  · omega
  · have : L - 1 - j = j := by omega
    rw [this]
  · rfl

/-! ## Big-endian and little-endian values -/

theorem be_value_congr (f g : Nat → Nat) (L : Nat) (h : ∀ j < L, f j = g j) : be_value f L = be_value g L := by
  induction L with
  | zero => rfl
  | succ L ih =>
    simp only [be_value]
    rw [ih (fun j hj => h j (by omega)), h L (by omega)]

theorem le_value_congr (f g : Nat → Nat) (L : Nat) (h : ∀ j < L, f j = g j) : le_value f L = le_value g L := by
  induction L with
  | zero => rfl
  | succ L ih =>
    simp only [le_value]
    rw [ih (fun j hj => h j (by omega)), h L (by omega)]

theorem be_value_lt (f : Nat → Nat) (L : Nat) (h : ∀ j < L, f j < 256) : be_value f L < 256 ^ L := by
  induction L with
  | zero => simp [be_value]
  | succ L ih =>
    simp only [be_value, pow_succ]
    have := ih (fun j hj => h j (by omega))
    have := h L (by omega)
    omega

/-- Splitting a big-endian value into its first `m` bytes and the `k` bytes after them. -/
theorem be_value_add (f : Nat → Nat) (m k : Nat) :
    be_value f (m + k) = be_value f m * 256 ^ k + be_value (fun i => f (m + i)) k := by
  induction k with
  | zero => simp [be_value]
  | succ k ih =>
    rw [← Nat.add_assoc]
    simp only [be_value, ih, pow_succ]
    ring

theorem le_value_add (f : Nat → Nat) (m k : Nat) :
    le_value f (m + k) = le_value f m + 256 ^ m * le_value (fun i => f (m + i)) k := by
  induction k with
  | zero => simp [le_value]
  | succ k ih =>
    rw [← Nat.add_assoc]
    simp only [le_value, ih, pow_add]
    ring

/-- Reading reversed bytes big-endian is reading the bytes little-endian. -/
theorem be_value_reverse (f : Nat → Nat) (L : Nat) :
    be_value (fun j => f (L - 1 - j)) L = le_value f L := by
  induction L generalizing f with
  | zero => rfl
  | succ L ih =>
    have h1 : le_value f (1 + L) = le_value f 1 + 256 ^ 1 * le_value (fun i => f (1 + i)) L :=
      le_value_add f 1 L
    rw [Nat.add_comm 1 L] at h1
    rw [h1]
    simp only [be_value, le_value]
    rw [← ih (fun i => f (1 + i))]
    have hc : be_value (fun j => f (L + 1 - 1 - j)) L = be_value (fun j => f (1 + (L - 1 - j))) L := by
      apply be_value_congr
      intro j hj
      congr 1
      omega
    rw [hc]
    simp
    ring

/-! ## The shifts as arithmetic on big-endian values -/

theorem shl_byte_lt (n : Nat) (hn0 : 0 < n) (hn : n < 8) (a : Nat → Nat) (ha : ByteMem a) (L : Nat) :
    ByteMem (shl_byte n a L) := by
  intro j
  have h1 := ha j
  have h2 := ha (j + 1)
  simp only [shl_byte]
  interval_cases n <;> simp only [Nat.reducePow, Nat.reduceSub] <;> split_ifs <;> omega

theorem shr_byte_lt (n : Nat) (hn0 : 0 < n) (hn : n ≤ 8) (a : Nat → Nat) (ha : ByteMem a) (L : Nat) :
    ByteMem (shr_byte n a L) := by
  intro j
  have h1 := ha j
  have h2 := ha (j - 1)
  simp only [shr_byte]
  interval_cases n <;> simp only [Nat.reducePow, Nat.reduceSub] <;> split_ifs <;> omega

theorem be_value_shl_carry (n : Nat) (hn0 : 0 < n) (hn : n < 8) (a : Nat → Nat) (ha : ByteMem a) (M : Nat) :
    be_value a (M + 1) * 2 ^ n
      = a 0 / 2 ^ (8 - n) * 256 ^ (M + 1) + be_value (shl_byte n a (M + 1)) (M + 1) := by
  induction M with
  | zero =>
    have h0 := ha 0
    simp only [be_value, shl_byte]
    interval_cases n <;> simp <;> omega
  | succ M ih =>
    have hstep : be_value (shl_byte n a (M + 2)) (M + 1)
        = be_value (shl_byte n a (M + 1)) (M + 1) + a (M + 1) / 2 ^ (8 - n) := by
      have hc : be_value (shl_byte n a (M + 2)) M = be_value (shl_byte n a (M + 1)) M := by
        apply be_value_congr
        intro j hj
        simp only [shl_byte]
        split_ifs <;> first | rfl | omega
      simp only [be_value, hc]
      have h1 : shl_byte n a (M + 2) M = shl_byte n a (M + 1) M + a (M + 1) / 2 ^ (8 - n) := by
        simp only [shl_byte]
        split_ifs <;> first | rfl | omega
      rw [h1]; ring
    have hlast : shl_byte n a (M + 2) (M + 1) = (a (M + 1) * 2 ^ n) % 256 := by
      simp only [shl_byte]
      split_ifs <;> first | rfl | omega
    have hb : be_value a (M + 1 + 1) = be_value a (M + 1) * 256 + a (M + 1) := rfl
    have hs : be_value (shl_byte n a (M + 1 + 1)) (M + 1 + 1)
        = be_value (shl_byte n a (M + 2)) (M + 1) * 256 + shl_byte n a (M + 2) (M + 1) := rfl
    have hsplit : a (M + 1) * 2 ^ n = a (M + 1) / 2 ^ (8 - n) * 256 + (a (M + 1) * 2 ^ n) % 256 := by
      have := ha (M + 1)
      interval_cases n <;> simp <;> omega
    rw [hb, hs, hstep, hlast]
    generalize (a (M + 1) * 2 ^ n) % 256 = R at *
    have e1 : (be_value a (M + 1) * 256 + a (M + 1)) * 2 ^ n
        = (be_value a (M + 1) * 2 ^ n) * 256 + a (M + 1) * 2 ^ n := by ring
    rw [e1, ih, hsplit]
    ring

/-- A left shift by `n` of `L` bytes multiplies the big-endian value by `2 ^ n`, modulo `256 ^ L`. -/
theorem be_value_shl (n : Nat) (hn0 : 0 < n) (hn : n < 8) (a : Nat → Nat) (ha : ByteMem a) (L : Nat) :
    be_value (shl_byte n a L) L = (be_value a L * 2 ^ n) % 256 ^ L := by
  cases L with
  | zero => simp [be_value]
  | succ M =>
    rw [be_value_shl_carry n hn0 hn a ha M, Nat.mul_add_mod']
    exact (Nat.mod_eq_of_lt (be_value_lt _ _ (fun j _ => shl_byte_lt n hn0 hn a ha _ j))).symm

/-- An unsigned right shift by `n` of `L` bytes divides the big-endian value by `2 ^ n`. -/
theorem be_value_shr (n : Nat) (hn0 : 0 < n) (hn : n ≤ 8) (a : Nat → Nat) (ha : ByteMem a) (L : Nat) :
    be_value (shr_byte n a L) L = be_value a L / 2 ^ n := by
  induction L with
  | zero => simp [be_value]
  | succ L ih =>
    have hc : be_value (shr_byte n a (L + 1)) L = be_value (shr_byte n a L) L := by
      apply be_value_congr
      intro j hj
      simp only [shr_byte]
      split_ifs <;> first | rfl | omega
    simp only [be_value, hc, ih]
    have hL := ha L
    cases L with
    | zero =>
      simp only [be_value, shr_byte]
      simp
    | succ K =>
      have hK := ha K
      have hlast : shr_byte n a (K + 1 + 1) (K + 1) = a K % 2 ^ n * 2 ^ (8 - n) + a (K + 1) / 2 ^ n := by
        simp only [shr_byte]
        split_ifs <;> first | rfl | omega
      rw [hlast]
      simp only [be_value]
      generalize be_value a K = V
      interval_cases n <;> simp <;> omega

theorem be_value_update_zero (f : Nat → Nat) (d M : Nat) :
    be_value (Function.update f 0 (f 0 + d)) (M + 1) = be_value f (M + 1) + d * 256 ^ M := by
  induction M with
  | zero => simp [be_value]
  | succ M ih =>
    have h1 : be_value (Function.update f 0 (f 0 + d)) (M + 1 + 1)
        = be_value (Function.update f 0 (f 0 + d)) (M + 1) * 256 + Function.update f 0 (f 0 + d) (M + 1) := rfl
    have h2 : be_value f (M + 1 + 1) = be_value f (M + 1) * 256 + f (M + 1) := rfl
    have hne : M + 1 ≠ 0 := by omega
    rw [h1, h2, ih, Function.update_noteq hne, pow_succ]
    ring

/-- The leading byte decides whether a big-endian value reaches the sign bit. -/
theorem be_value_sign (a : Nat → Nat) (ha : ByteMem a) (M : Nat) :
    be_value a (M + 1) < 256 * 256 ^ M ∧ (a 0 < 128 → be_value a (M + 1) < 128 * 256 ^ M) ∧
      (128 ≤ a 0 → 128 * 256 ^ M ≤ be_value a (M + 1)) := by
  have h := be_value_add a 1 M
  have hr : be_value (fun i => a (1 + i)) M < 256 ^ M := be_value_lt _ _ (fun j _ => ha _)
  have h1 : be_value a 1 = a 0 := by simp [be_value]
  rw [Nat.add_comm 1 M, h1] at h
  have h0 := ha 0
  refine ⟨?_, ?_, ?_⟩
  · have : a 0 * 256 ^ M ≤ 255 * 256 ^ M := Nat.mul_le_mul_right _ (by omega)
    omega
  · intro h2
    have : a 0 * 256 ^ M ≤ 127 * 256 ^ M := Nat.mul_le_mul_right _ (by omega)
    omega
  · intro h2
    have : 128 * 256 ^ M ≤ a 0 * 256 ^ M := Nat.mul_le_mul_right _ h2
    omega

theorem signed_right_shift_byte_array_eq (n : Nat) (hn0 : 0 < n) (hn : n ≤ 8) (a : Nat → Nat)
    (ha : ByteMem a) (M : Nat) :
    signed_right_shift_byte_array a (M + 1) n =
      if 128 ≤ a 0 then
        Function.update (shr_byte n a (M + 1)) 0 (shr_byte n a (M + 1) 0 + (256 - 2 ^ (8 - n)))
      else shr_byte n a (M + 1) := by
  simp only [signed_right_shift_byte_array, unsigned_right_shift_byte_array_eq n hn0 hn a ha,
    is_signed_iff (a 0) (ha 0), start_bits_mask_eq n (by omega) hn0]
  have h0 := ha 0
  have hz : shr_byte n a (M + 1) 0 = a 0 / 2 ^ n := by simp [shr_byte]
  have hor : shr_byte n a (M + 1) 0 ||| (256 - 2 ^ (8 - n)) = shr_byte n a (M + 1) 0 + (256 - 2 ^ (8 - n)) := by
    rw [Nat.lor_comm, Nat.add_comm (shr_byte n a (M + 1) 0)]
    apply or_eq_add_of_low (8 - n)
    · interval_cases n <;> simp
    · rw [hz]
      interval_cases n <;> simp <;> omega
  rw [hor]

theorem pow_sign_bit (M : Nat) : 2 ^ (8 * (M + 1) - 1) = 128 * 256 ^ M := by
  have h : 8 * (M + 1) - 1 = 7 + 8 * M := by omega
  rw [h, pow_add, pow_mul]; norm_num

theorem pow_all_bits (M : Nat) : 2 ^ (8 * (M + 1)) = 256 * 256 ^ M := by
  have h : 8 * (M + 1) = 8 + 8 * M := by omega
  rw [h, pow_add, pow_mul]; norm_num

theorem signed_right_shift_bytes (n : Nat) (hn0 : 0 < n) (hn : n ≤ 8) (a : Nat → Nat)
    (ha : ByteMem a) (M : Nat) : ByteMem (signed_right_shift_byte_array a (M + 1) n) := by
  rw [signed_right_shift_byte_array_eq n hn0 hn a ha M]
  have hs := shr_byte_lt n hn0 hn a ha (M + 1)
  split_ifs with h
  · intro j
    by_cases hj : j = 0
    · subst hj
      have h0 := ha 0
      have hz : shr_byte n a (M + 1) 0 = a 0 / 2 ^ n := by simp [shr_byte]
      rw [Function.update_same, hz]
      interval_cases n <;> simp <;> omega
    · rw [Function.update_noteq hj]; exact hs j
  · exact hs

/-- A signed right shift by `n` is the floor division by `2 ^ n` of the two's-complement value. -/
theorem signed_right_shift_value (n : Nat) (hn0 : 0 < n) (hn : n ≤ 8) (a : Nat → Nat)
    (ha : ByteMem a) (M : Nat) :
    to_signed (8 * (M + 1)) (be_value (signed_right_shift_byte_array a (M + 1) n) (M + 1))
      = to_signed (8 * (M + 1)) (be_value a (M + 1)) / 2 ^ n := by
  rw [signed_right_shift_byte_array_eq n hn0 hn a ha M]
  obtain ⟨hlt, hneg, hpos⟩ := be_value_sign a ha M
  have hshr := be_value_shr n hn0 hn a ha (M + 1)
  have hI : (2 : Int) ^ (8 * (M + 1)) = 256 * ((256 ^ M : Nat) : Int) := by
    exact_mod_cast pow_all_bits M
  simp only [to_signed, pow_sign_bit, pow_all_bits, hI]
  by_cases h : 128 ≤ a 0
  · have h2 := hpos h
    rw [if_pos h, be_value_update_zero, hshr]
    generalize be_value a (M + 1) = V at *
    generalize 256 ^ M = P at *
    push_cast
    interval_cases n <;> simp <;> split_ifs <;> omega
  · have h2 := hneg (by omega)
    rw [if_neg h, hshr]
    generalize be_value a (M + 1) = V at *
    generalize 256 ^ M = P at *
    push_cast
    interval_cases n <;> simp <;> split_ifs <;> omega

/-- Arithmetic shift, then reinterpretation at the narrower width. -/
theorem asr_to_signed (w k A : Nat) (hw : 1 ≤ w) (hA : A < 2 ^ (w + k)) :
    to_signed (w + k) A / 2 ^ k = to_signed w (A / 2 ^ k) := by
  obtain ⟨v, rfl⟩ : ∃ v, w = v + 1 := ⟨w - 1, by omega⟩
  have hk : 0 < 2 ^ k := by positivity
  have e1 : 2 ^ (v + 1 + k - 1) = 2 ^ v * 2 ^ k := by
    have : v + 1 + k - 1 = v + k := by omega
    rw [this, pow_add]
  have e2 : (2 : Int) ^ (v + 1 + k) = 2 ^ (v + 1) * 2 ^ k := by rw [pow_add]
  have e3 : v + 1 - 1 = v := by omega
  simp only [to_signed, e1, e3]
  have hdiv : A / 2 ^ k < 2 ^ v ↔ A < 2 ^ v * 2 ^ k := Nat.div_lt_iff_lt_mul hk
  by_cases h : A < 2 ^ v * 2 ^ k
  · rw [if_pos h, if_pos (hdiv.mpr h)]
    push_cast
    rfl
  · rw [if_neg h, if_neg (fun h2 => h (hdiv.mp h2)), e2]
    have : ((A : Int) - 2 ^ (v + 1) * 2 ^ k) = (A : Int) + (-(2 ^ (v + 1))) * 2 ^ k := by ring
    rw [this, Int.add_mul_ediv_right _ _ (by positivity)]
    push_cast
    ring

/-- The top `w` bits of a byte run do not depend on how many bytes of it are read. -/
theorem be_value_top_bits (f : Nat → Nat) (hf : ByteMem f) (w m k : Nat) (hw : w ≤ 8 * m) (hmk : m ≤ k) :
    be_value f k / 2 ^ (8 * k - w) = be_value f m / 2 ^ (8 * m - w) := by
  obtain ⟨d, rfl⟩ : ∃ d, k = m + d := ⟨k - m, by omega⟩
  have hG : be_value (fun i => f (m + i)) d < 256 ^ d := be_value_lt _ _ (fun j _ => hf _)
  have e : 8 * (m + d) - w = 8 * d + (8 * m - w) := by omega
  rw [be_value_add, e, pow_add, ← Nat.div_div_eq_div_mul, pow_mul]
  norm_num
  rw [Nat.add_comm, Nat.add_mul_div_right _ _ (by positivity), Nat.div_eq_of_lt hG]
  simp

/-! ## Memory facts -/

theorem malloc_bytes (uninit : Nat → Nat) : ByteMem (malloc uninit) := by
  intro i
  simp only [malloc, uchar]
  omega

theorem RSTRING_PTR_bytes (s : List Nat) (hs : IsBytes s) : ByteMem (RSTRING_PTR s) := by
  intro i
  simp only [RSTRING_PTR, List.getD_eq_getElem?_getD]
  by_cases h : i < s.length
  · rw [List.getElem?_eq_getElem h]
    exact hs _ (List.getElem_mem h)
  · rw [List.getElem?_eq_none (by omega)]
    simp

theorem memcpy_bytes (dest src : Nat → Nat) (n : Nat) (hd : ByteMem dest) (hs : ByteMem src) :
    ByteMem (memcpy dest src n) := by
  intro i
  simp only [memcpy]
  split_ifs
  · exact hs i
  · exact hd i

theorem update_bytes (f : Nat → Nat) (i v : Nat) (hf : ByteMem f) (hv : v < 256) :
    ByteMem (Function.update f i v) := by
  intro j
  by_cases h : j = i
  · subst h; rw [Function.update_same]; exact hv
  · rw [Function.update_noteq h]; exact hf j

theorem reverse_bytes_bytes (a : Nat → Nat) (L : Nat) (ha : ByteMem a) : ByteMem (reverse_bytes a L) := by
  intro j
  rw [reverse_bytes_eq]
  simp only []
  split_ifs
  · exact ha _
  · exact ha _

/-- Masking the last byte with `0xFF << e` clears the low `e` bits of the big-endian value. -/
theorem be_value_mask_last (f : Nat → Nat) (M e : Nat) (he : e < 8) :
    be_value (Function.update f M (f M / 2 ^ e * 2 ^ e)) (M + 1) = be_value f (M + 1) / 2 ^ e * 2 ^ e := by
  have hc : be_value (Function.update f M (f M / 2 ^ e * 2 ^ e)) M = be_value f M := by
    apply be_value_congr
    intro j hj
    rw [Function.update_noteq (by omega)]
  simp only [be_value, hc, Function.update_same]
  generalize be_value f M = X
  generalize f M = y
  interval_cases e <;> simp <;> omega

/-! ## Iterated byte shifts -/

theorem int_ediv_ediv (x b c : Int) (hb : 0 < b) (hc : 0 < c) : x / b / c = x / (b * c) := by
  have hbc : 0 < b * c := Int.mul_pos hb hc
  have h1 := Int.emod_add_ediv x (b * c)
  have hr0 : 0 ≤ x % (b * c) := Int.emod_nonneg _ (ne_of_gt hbc)
  have hr1 : x % (b * c) < b * c := Int.emod_lt_of_pos _ hbc
  generalize x % (b * c) = r at *
  generalize x / (b * c) = q at *
  subst h1
  have h2 : (r + b * c * q) / b = r / b + c * q := by
    rw [show r + b * c * q = r + b * (c * q) by ring, Int.add_mul_ediv_left _ _ (ne_of_gt hb)]
  rw [h2, Int.add_mul_ediv_left _ _ (ne_of_gt hc)]
  have h3 : r / b / c = 0 :=
    Int.ediv_eq_zero_of_lt (Int.ediv_nonneg hr0 hb.le)
      (Int.ediv_lt_of_lt_mul hb (by rw [Int.mul_comm]; exact hr1))
  rw [h3]; simp

theorem iterate_unsigned_shift (L : Nat) (a : Nat → Nat) (ha : ByteMem a) (c : Nat) :
    ByteMem ((fun a => unsigned_right_shift_byte_array a L 8)^[c] a) ∧
      be_value ((fun a => unsigned_right_shift_byte_array a L 8)^[c] a) L = be_value a L / 256 ^ c := by
  induction c with
  | zero => exact ⟨ha, by simp⟩
  | succ c ih =>
    obtain ⟨hb, hv⟩ := ih
    rw [Function.iterate_succ_apply']
    simp only [unsigned_right_shift_byte_array_eq 8 (by norm_num) (by norm_num) _ hb]
    refine ⟨shr_byte_lt 8 (by norm_num) (by norm_num) _ hb L, ?_⟩
    rw [be_value_shr 8 (by norm_num) (by norm_num) _ hb, hv, Nat.div_div_eq_div_mul, pow_succ 256 c]
    norm_num

theorem iterate_signed_shift (M : Nat) (a : Nat → Nat) (ha : ByteMem a) (c : Nat) :
    ByteMem ((fun a => signed_right_shift_byte_array a (M + 1) 8)^[c] a) ∧
      to_signed (8 * (M + 1)) (be_value ((fun a => signed_right_shift_byte_array a (M + 1) 8)^[c] a) (M + 1))
        = to_signed (8 * (M + 1)) (be_value a (M + 1)) / 256 ^ c := by
  induction c with
  | zero => exact ⟨ha, by simp⟩
  | succ c ih =>
    obtain ⟨hb, hv⟩ := ih
    rw [Function.iterate_succ_apply']
    refine ⟨signed_right_shift_bytes 8 (by norm_num) (by norm_num) _ hb M, ?_⟩
    rw [signed_right_shift_value 8 (by norm_num) (by norm_num) _ hb, hv,
      int_ediv_ediv _ _ _ (by positivity) (by positivity), pow_succ 256 c]
    norm_num

/-! ## Word reversal and word assembly -/

theorem reverse_words_eq (m : Nat → Nat) (nw : Nat) :
    reverse_words m nw = fun j => if j < 4 * nw then m (4 * (j / 4) + (3 - j % 4)) else m j := by
  induction nw with
  | zero =>
    funext j
    simp [reverse_words]
  | succ nw ih =>
    have hstep : reverse_words m (nw + 1)
        = at_offset (4 * nw) (fun p => reverse_bytes p 4) (reverse_words m nw) := by
      simp only [reverse_words, List.range_succ, List.foldl_append, List.foldl_cons, List.foldl_nil]
    rw [hstep, ih]
    funext j
    simp only [at_offset, reverse_bytes_eq]
    by_cases h1 : 4 * nw ≤ j
    · by_cases h2 : j - 4 * nw < 4
      · have h3 : ¬ (4 * nw + (4 - 1 - (j - 4 * nw)) < 4 * nw) := by omega
        have h4 : j < 4 * (nw + 1) := by omega
        simp only [h1, h2, h3, h4, if_true, if_false]
        congr 1
        omega
      · have h3 : ¬ (4 * nw + (j - 4 * nw) < 4 * nw) := by omega
        have h4 : ¬ (j < 4 * (nw + 1)) := by omega
        simp only [h1, h2, h3, h4, if_true, if_false]
        congr 1
        omega
    · have h3 : j < 4 * nw := by omega
      have h4 : j < 4 * (nw + 1) := by omega
      simp only [h1, h3, h4, if_true, if_false]

/-- After the host byte-order fix-up, a word read in host order is the big-endian word of the array. -/
theorem host_word (host : Endianness) (m : Nat → Nat) (nw k : Nat) (hk : k < nw) :
    host_uint host (fun i => (if host = Endianness.LITTLE_ENDIAN then reverse_words m nw else m) (4 * k + i)) 4
      = be_value (fun i => m (4 * k + i)) 4 := by
  cases host with
  | BIG_ENDIAN => simp [host_uint]
  | LITTLE_ENDIAN =>
    simp only [host_uint, if_true, reverse_words_eq, le_value, be_value]
    have e0 : (4 * k + 0) / 4 = k := by omega
    have e1 : (4 * k + 1) / 4 = k := by omega
    have e2 : (4 * k + 2) / 4 = k := by omega
    have e3 : (4 * k + 3) / 4 = k := by omega
    have m0 : (4 * k + 0) % 4 = 0 := by omega
    have m1 : (4 * k + 1) % 4 = 1 := by omega
    have m2 : (4 * k + 2) % 4 = 2 := by omega
    have m3 : (4 * k + 3) % 4 = 3 := by omega
    have l0 : 4 * k + 0 < 4 * nw := by omega
    have l1 : 4 * k + 1 < 4 * nw := by omega
    have l2 : 4 * k + 2 < 4 * nw := by omega
    have l3 : 4 * k + 3 < 4 * nw := by omega
    simp only [e0, e1, e2, e3, m0, m1, m2, m3, l0, l1, l2, l3, if_true]
    norm_num
    ring

theorem host_word_zero (host : Endianness) (m : Nat → Nat) (nw : Nat) (hk : 0 < nw) :
    host_uint host (if host = Endianness.LITTLE_ENDIAN then reverse_words m nw else m) 4 = be_value m 4 := by
  have h := host_word host m nw 0 hk
  simpa using h

theorem assemble_words_unsigned (host : Endianness) (m : Nat → Nat) (nw : Nat) (t : Nat) (ht : t + 1 ≤ nw) :
    (List.range t).foldl
      (fun (return_value : Int) k => return_value * 2 ^ 32 + (host_uint host
        (fun i => (if host = Endianness.LITTLE_ENDIAN then reverse_words m nw else m) (4 * (k + 1) + i)) 4 : Int))
      (be_value m 4 : Int) = (be_value m (4 * (t + 1)) : Int) := by
  induction t with
  | zero => simp
  | succ t ih =>
    rw [List.range_succ, List.foldl_append, ih (by omega)]
    simp only [List.foldl_cons, List.foldl_nil]
    rw [host_word host m nw (t + 1) (by omega)]
    have h := be_value_add m (4 * (t + 1)) 4
    have e : 4 * (t + 1 + 1) = 4 * (t + 1) + 4 := by ring
    rw [e, h]
    push_cast
    norm_num

theorem to_signed_extend (b X W : Nat) (hb : 1 ≤ b) (hX : X < 2 ^ b) (hW : W < 2 ^ 32) :
    to_signed b X * 2 ^ 32 + (W : Int) = to_signed (b + 32) (X * 2 ^ 32 + W) := by
  obtain ⟨v, rfl⟩ : ∃ v, b = v + 1 := ⟨b - 1, by omega⟩
  have e1 : v + 1 - 1 = v := by omega
  have e2 : v + 1 + 32 - 1 = v + 32 := by omega
  simp only [to_signed, e1, e2]
  have hp : (2 : Nat) ^ (v + 32) = 2 ^ v * 2 ^ 32 := by rw [pow_add]
  have hq : (2 : Int) ^ (v + 1 + 32) = 2 ^ (v + 1) * 2 ^ 32 := by rw [pow_add]
  by_cases h : X < 2 ^ v
  · have h2 : X * 2 ^ 32 + W < 2 ^ (v + 32) := by
      rw [hp]
      have : (X + 1) * 2 ^ 32 ≤ 2 ^ v * 2 ^ 32 := Nat.mul_le_mul_right _ h
      omega
    rw [if_pos h, if_pos h2]
    push_cast
    ring
  · have h2 : ¬ (X * 2 ^ 32 + W < 2 ^ (v + 32)) := by
      rw [hp]
      have : 2 ^ v * 2 ^ 32 ≤ X * 2 ^ 32 := Nat.mul_le_mul_right _ (by omega)
      omega
    rw [if_neg h, if_neg h2, hq]
    push_cast
    ring

theorem assemble_words_signed (host : Endianness) (m : Nat → Nat) (hm : ByteMem m) (nw : Nat) (t : Nat)
    (ht : t + 1 ≤ nw) :
    (List.range t).foldl
      (fun (return_value : Int) k => return_value * 2 ^ 32 + (host_uint host
        (fun i => (if host = Endianness.LITTLE_ENDIAN then reverse_words m nw else m) (4 * (k + 1) + i)) 4 : Int))
      (to_signed (8 * 4) (be_value m 4)) = to_signed (8 * (4 * (t + 1))) (be_value m (4 * (t + 1))) := by
  induction t with
  | zero => simp
  | succ t ih =>
    rw [List.range_succ, List.foldl_append, ih (by omega)]
    simp only [List.foldl_cons, List.foldl_nil]
    rw [host_word host m nw (t + 1) (by omega)]
    have h := be_value_add m (4 * (t + 1)) 4
    have e : 4 * (t + 1 + 1) = 4 * (t + 1) + 4 := by ring
    have hX : be_value m (4 * (t + 1)) < 2 ^ (8 * (4 * (t + 1))) := by
      rw [pow_mul]; exact be_value_lt _ _ (fun j _ => hm j)
    have hW : be_value (fun i => m (4 * (t + 1) + i)) 4 < 2 ^ 32 := by
      have := be_value_lt (fun i => m (4 * (t + 1) + i)) 4 (fun j _ => hm _)
      norm_num at this ⊢
      exact this
    rw [to_signed_extend _ _ _ (by omega) hX hW, e, h]
    have e3 : 8 * (4 * (t + 1) + 4) = 8 * (4 * (t + 1)) + 32 := by ring
    rw [e3]
    norm_num

/-! ## The bitfield reader -/

theorem pow_256 (L : Nat) : 256 ^ L = 2 ^ (8 * L) := by
  rw [pow_mul]; norm_num

/-- After the mask and the left shift the field occupies the top `w` bits of the run. -/
theorem bitfield_tail_value (num s w : Nat) (m : Nat → Nat) (hm : ByteMem m) (hs : s < 8)
    (hfit : s + w ≤ 8 * num) (he : 8 * num - s - w < 8) (hnum : 1 ≤ num) :
    ByteMem (bitfield_tail num s w m) ∧
      be_value (bitfield_tail num s w m) num
        = (be_value m num / 2 ^ (8 * num - s - w)) % 2 ^ w * 2 ^ (8 * num - w) := by
  obtain ⟨M, rfl⟩ : ∃ M, num = M + 1 := ⟨num - 1, by omega⟩
  generalize he' : 8 * (M + 1) - s - w = e at he
  have hmask : m M &&& uchar (0xFF <<< e) = m M / 2 ^ e * 2 ^ e := end_mask_eq e he (m M) (hm M)
  have hb1 : ByteMem (Function.update m M (m M / 2 ^ e * 2 ^ e)) := by
    apply update_bytes _ _ _ hm
    have := hm M
    calc m M / 2 ^ e * 2 ^ e ≤ m M := Nat.div_mul_le_self _ _
      _ < 256 := this
  have hv1 := be_value_mask_last m M e he
  have hlt1 : be_value (Function.update m M (m M / 2 ^ e * 2 ^ e)) (M + 1) < 256 ^ (M + 1) :=
    be_value_lt _ _ (fun j _ => hb1 j)
  have key : (be_value m (M + 1) / 2 ^ e * 2 ^ e * 2 ^ s) % 256 ^ (M + 1)
      = (be_value m (M + 1) / 2 ^ e) % 2 ^ w * 2 ^ (8 * (M + 1) - w) := by
    have e1 : 8 * (M + 1) - w = e + s := by omega
    have e2 : 256 ^ (M + 1) = 2 ^ w * 2 ^ (e + s) := by
      rw [pow_256, ← pow_add]; congr 1; omega
    rw [e1, e2, Nat.mul_assoc, ← pow_add, Nat.mul_mod_mul_right]
  simp only [bitfield_tail, he', Nat.add_sub_cancel, hmask]
  by_cases hs0 : s = 0
  · subst hs0
    have hu : unsigned_shift_byte_array (Function.update m M (m M / 2 ^ e * 2 ^ e)) (M + 1) (-((0 : Nat) : Int))
        = Function.update m M (m M / 2 ^ e * 2 ^ e) := by
      simp [unsigned_shift_byte_array]
    rw [hu]
    refine ⟨hb1, ?_⟩
    rw [← key, hv1]
    simp only [pow_zero, Nat.mul_one]
    rw [← hv1]
    exact (Nat.mod_eq_of_lt hlt1).symm
  · have hu : unsigned_shift_byte_array (Function.update m M (m M / 2 ^ e * 2 ^ e)) (M + 1) (-(s : Int))
        = shl_byte s (Function.update m M (m M / 2 ^ e * 2 ^ e)) (M + 1) := by
      have h1 : (-(s : Int)) < 0 := by omega
      have h2 : (- -(s : Int)).toNat = s := by simp
      simp only [unsigned_shift_byte_array, h1, if_true, h2]
      exact left_shift_byte_array_eq s (by omega) hs _ hb1 _
    rw [hu]
    refine ⟨shl_byte_lt s (by omega) hs _ hb1 _, ?_⟩
    rw [be_value_shl s (by omega) hs _ hb1, hv1, key]

/-! ## The accessor after `read_bitfield` -/

theorem read_uint_bitfield_ok (host : Endianness) (uninit : Nat → Nat) (lower upper o : Int) (w : Nat)
    (hw : 1 ≤ w) (e : Endianness) (buffer m : Nat → Nat)
    (hrb : read_bitfield lower upper o w e buffer (malloc uninit) = Except.ok m) (hm : ByteMem m) :
    read_uint_bitfield host uninit lower upper o w e buffer
      = Except.ok (Value.Integer
          ((be_value m (4 * field_words w) / 2 ^ (8 * (4 * field_words w) - w) : Nat) : Int)) := by
  have hsl : ((w : Int) - 1).tdiv 8 + 1 = (((w - 1) / 8 + 1 : Nat) : Int) := by
    rw [Int.tdiv_eq_ediv (by omega) (by norm_num)]; omega
  have hnw : ((((w - 1) / 8 + 1 : Nat) : Int) - 1).tdiv 4 + 1 = ((field_words w : Nat) : Int) := by
    rw [Int.tdiv_eq_ediv (by omega) (by norm_num)]; simp only [field_words]; omega
  have hfw : 1 ≤ field_words w := by simp [field_words]
  have hfit : w ≤ 8 * (4 * field_words w) := by simp only [field_words]; omega
  have hk : ((field_words w : Nat) : Int) * 4 * 8 - (w : Int) = ((8 * (4 * field_words w) - w : Nat) : Int) := by
    omega
  have hcount : (((8 * (4 * field_words w) - w : Nat) : Int)).tdiv 8
      = (((8 * (4 * field_words w) - w) / 8 : Nat) : Int) := by
    rw [Int.tdiv_eq_ediv (by omega) (by norm_num)]; omega
  have hneed : (((8 * (4 * field_words w) - w : Nat) : Int)).tmod 8
      = (((8 * (4 * field_words w) - w) % 8 : Nat) : Int) := by
    rw [Int.tmod_eq_emod (by omega) (by norm_num)]; omega
  have hnb : (((field_words w : Nat) : Int) * 4).toNat = 4 * field_words w := by omega
  simp only [read_uint_bitfield, hrb, hsl, hnw, hk, hcount, hneed, hnb, Int.toNat_ofNat]
  generalize hK : 8 * (4 * field_words w) - w = K
  obtain ⟨hb1, hv1⟩ := iterate_unsigned_shift (4 * field_words w) m hm (K / 8)
  generalize (fun a => unsigned_right_shift_byte_array a (4 * field_words w) 8)^[K / 8] m = a1 at hb1 hv1 ⊢
  -- the final sub-byte shift
  have hstep : ∃ a2, (if ((K % 8 : Nat) : Int) > 0 then
        unsigned_right_shift_byte_array a1 (4 * field_words w) (K % 8) else a1) = a2 ∧ ByteMem a2 ∧
      be_value a2 (4 * field_words w) = be_value m (4 * field_words w) / 2 ^ K := by
    by_cases hz : K % 8 = 0
    · refine ⟨a1, by simp [hz], hb1, ?_⟩
      rw [hv1, pow_256]
      congr 2
      omega
    · have hpos : ((K % 8 : Nat) : Int) > 0 := by omega
      refine ⟨_, rfl, ?_, ?_⟩
      · rw [if_pos hpos, unsigned_right_shift_byte_array_eq _ (by omega) (by omega) _ hb1]
        exact shr_byte_lt _ (by omega) (by omega) _ hb1 _
      · rw [if_pos hpos, unsigned_right_shift_byte_array_eq _ (by omega) (by omega) _ hb1,
          be_value_shr _ (by omega) (by omega) _ hb1, hv1, Nat.div_div_eq_div_mul, pow_256, ← pow_add]
        congr 2
        omega
  obtain ⟨a2, ha2, hb2, hv2⟩ := hstep
  rw [ha2]
  have hF : be_value a2 (4 * field_words w) < 2 ^ w := by
    rw [hv2, Nat.div_lt_iff_lt_mul (by positivity), ← pow_add]
    have : w + K = 8 * (4 * field_words w) := by omega
    rw [this, ← pow_256]
    exact be_value_lt _ _ (fun j _ => hm j)
  rw [← hv2]
  by_cases h30 : (w : Int) ≤ 30
  · have hfw1 : field_words w = 1 := by simp only [field_words]; omega
    rw [if_pos h30]
    simp only [host_int, host_word_zero host a2 (field_words w) hfw]
    rw [hfw1] at hF ⊢
    have : be_value a2 (4 * 1) < 2 ^ (8 * 4 - 1) := by
      calc be_value a2 (4 * 1) < 2 ^ w := hF
        _ ≤ 2 ^ (8 * 4 - 1) := Nat.pow_le_pow_right (by norm_num) (by omega)
    norm_num at this
    simp [to_signed, this]
  · rw [if_neg h30]
    by_cases h32 : (w : Int) ≤ 32
    · have hfw1 : field_words w = 1 := by simp only [field_words]; omega
      rw [if_pos h32]
      simp only [host_word_zero host a2 (field_words w) hfw]
      rw [hfw1]
    · rw [if_neg h32]
      simp only [host_word_zero host a2 (field_words w) hfw, assemble_words, Int.toNat_ofNat]
      rw [assemble_words_unsigned host a2 (field_words w) (field_words w - 1) (by omega)]
      have : field_words w - 1 + 1 = field_words w := by omega
      rw [this]

theorem read_int_bitfield_ok (host : Endianness) (uninit : Nat → Nat) (lower upper o : Int) (w : Nat)
    (hw : 1 ≤ w) (e : Endianness) (buffer m : Nat → Nat)
    (hrb : read_bitfield lower upper o w e buffer (malloc uninit) = Except.ok m) (hm : ByteMem m) :
    read_int_bitfield host uninit lower upper o w e buffer
      = Except.ok (Value.Integer
          (if 1 < w then to_signed w (be_value m (4 * field_words w) / 2 ^ (8 * (4 * field_words w) - w))
           else ((be_value m (4 * field_words w) / 2 ^ (8 * (4 * field_words w) - w) : Nat) : Int))) := by
  have hsl : ((w : Int) - 1).tdiv 8 + 1 = (((w - 1) / 8 + 1 : Nat) : Int) := by
    rw [Int.tdiv_eq_ediv (by omega) (by norm_num)]; omega
  have hnw : ((((w - 1) / 8 + 1 : Nat) : Int) - 1).tdiv 4 + 1 = ((field_words w : Nat) : Int) := by
    rw [Int.tdiv_eq_ediv (by omega) (by norm_num)]; simp only [field_words]; omega
  have hfw : 1 ≤ field_words w := by simp [field_words]
  have hfit : w ≤ 8 * (4 * field_words w) := by simp only [field_words]; omega
  have hk : ((field_words w : Nat) : Int) * 4 * 8 - (w : Int) = ((8 * (4 * field_words w) - w : Nat) : Int) := by
    omega
  have hcount : (((8 * (4 * field_words w) - w : Nat) : Int)).tdiv 8
      = (((8 * (4 * field_words w) - w) / 8 : Nat) : Int) := by
    rw [Int.tdiv_eq_ediv (by omega) (by norm_num)]; omega
  have hneed : (((8 * (4 * field_words w) - w : Nat) : Int)).tmod 8
      = (((8 * (4 * field_words w) - w) % 8 : Nat) : Int) := by
    rw [Int.tmod_eq_emod (by omega) (by norm_num)]; omega
  have hnb : (((field_words w : Nat) : Int) * 4).toNat = 4 * field_words w := by omega
  simp only [read_int_bitfield, hrb, hsl, hnw, hk, hcount, hneed, hnb, Int.toNat_ofNat]
  generalize hK : 8 * (4 * field_words w) - w = K
  obtain ⟨M, hM⟩ : ∃ M, 4 * field_words w = M + 1 := ⟨4 * field_words w - 1, by omega⟩
  have hA : be_value m (4 * field_words w) < 2 ^ (w + K) := by
    have : w + K = 8 * (4 * field_words w) := by omega
    rw [this, ← pow_256]
    exact be_value_lt _ _ (fun j _ => hm j)
  by_cases h1 : 1 < w
  · have h1' : (w : Int) > 1 := by omega
    rw [if_pos h1', if_pos h1]
    have h8 : 8 * (M + 1) = w + K := by omega
    rw [hM] at hA
    rw [hM]
    obtain ⟨hb1, hv1⟩ := iterate_signed_shift M m hm (K / 8)
    generalize (fun a => signed_right_shift_byte_array a (M + 1) 8)^[K / 8] m = a1 at hb1 hv1 ⊢
    have hstep : ∃ a2, (if ((K % 8 : Nat) : Int) > 0 then
          signed_right_shift_byte_array a1 (M + 1) (K % 8) else a1) = a2 ∧ ByteMem a2 ∧
        to_signed (8 * (M + 1)) (be_value a2 (M + 1)) = to_signed (8 * (M + 1)) (be_value m (M + 1)) / 2 ^ K := by
      by_cases hz : K % 8 = 0
      · refine ⟨a1, by simp [hz], hb1, ?_⟩
        rw [hv1]
        have : (256 : Int) ^ (K / 8) = 2 ^ K := by
          have h8 : (256 : Int) = 2 ^ 8 := by norm_num
          rw [h8, ← pow_mul]
          congr 1
          omega
        rw [this]
      · have hpos : ((K % 8 : Nat) : Int) > 0 := by omega
        refine ⟨_, rfl, ?_, ?_⟩
        · rw [if_pos hpos]
          exact signed_right_shift_bytes _ (by omega) (by omega) _ hb1 _
        · rw [if_pos hpos, signed_right_shift_value _ (by omega) (by omega) _ hb1, hv1,
            int_ediv_ediv _ _ _ (by positivity) (by positivity)]
          have : (256 : Int) ^ (K / 8) * 2 ^ (K % 8) = 2 ^ K := by
            have h8 : (256 : Int) = 2 ^ 8 := by norm_num
            rw [h8, ← pow_mul, ← pow_add]
            congr 1
            omega
          rw [this]
    obtain ⟨a2, ha2, hb2, hv2⟩ := hstep
    rw [ha2]
    rw [h8, asr_to_signed w K _ hw hA] at hv2
    rw [← hv2]
    by_cases h31 : (w : Int) ≤ 31
    · have hfw1 : field_words w = 1 := by simp only [field_words]; omega
      rw [if_pos h31]
      simp only [host_int, host_word_zero host a2 (field_words w) hfw]
      have hM3 : M = 3 := by omega
      subst hM3
      have : w + K = 8 * 4 := by omega
      rw [this]
    · rw [if_neg h31]
      by_cases h32 : (w : Int) = 32
      · have hfw1 : field_words w = 1 := by simp only [field_words]; omega
        rw [if_pos h32]
        simp only [host_int, host_word_zero host a2 (field_words w) hfw]
        have hM3 : M = 3 := by omega
        subst hM3
        have : w + K = 8 * 4 := by omega
        rw [this]
      · rw [if_neg h32]
        simp only [host_int, host_word_zero host a2 (field_words w) hfw, assemble_words, Int.toNat_ofNat]
        rw [assemble_words_signed host a2 hb2 (field_words w) (field_words w - 1) (by omega)]
        have : field_words w - 1 + 1 = field_words w := by omega
        rw [this, hM, h8]
  · have hw1 : w = 1 := by omega
    subst hw1
    have hu := read_uint_bitfield_ok host uninit lower upper o 1 hw e buffer m hrb hm
    simp only [read_uint_bitfield, hrb, hsl, hnw, hk, hcount, hneed, hnb, Int.toNat_ofNat] at hu
    have hfw1 : field_words 1 = 1 := by simp [field_words]
    simp only [hfw1] at *
    norm_num at hu ⊢
    simp only [host_int] at hu ⊢
    subst hK
    exact hu

theorem tdiv_cast (a b : Nat) : (a : Int).tdiv (b : Int) = ((a / b : Nat) : Int) := (Int.ofNat_tdiv a b).symm

theorem tmod_cast (a b : Nat) : (a : Int).tmod (b : Int) = ((a % b : Nat) : Int) := by
  rw [Int.tmod_eq_emod (by omega) (by omega)]; omega

/-- The big-endian branch of `read_bitfield`. -/
theorem read_bitfield_big (o w : Nat) (hw : 1 ≤ w) (buffer mem : Nat → Nat) :
    read_bitfield ((o / 8 : Nat) : Int) (((o + w - 1) / 8 : Nat) : Int) o w Endianness.BIG_ENDIAN buffer mem
      = Except.ok (bitfield_tail ((o + w - 1) / 8 - o / 8 + 1) (o % 8) w
          (memcpy mem (fun i => buffer (o / 8 + i)) ((o + w - 1) / 8 - o / 8 + 1))) := by
  have h3 : (o : Int).tmod 8 = ((o % 8 : Nat) : Int) := tmod_cast o 8
  have ha : ((((o + w - 1) / 8 : Nat) : Int) - ((o / 8 : Nat) : Int) + 1).toNat
      = (o + w - 1) / 8 - o / 8 + 1 := by omega
  have hb : ((((o + w - 1) / 8 : Nat) : Int) - ((o / 8 : Nat) : Int)).toNat
      = (o + w - 1) / 8 - o / 8 := by omega
  have hc : ((((((o + w - 1) / 8 : Nat) : Int) - ((o / 8 : Nat) : Int)) + 1) * 8
      - ((o % 8 : Nat) : Int) - (w : Int)).toNat = 8 * ((o + w - 1) / 8 - o / 8 + 1) - o % 8 - w := by omega
  simp only [read_bitfield, reduceCtorEq, ↓reduceIte, h3, ha, hb, hc, Int.toNat_ofNat, bitfield_tail,
    Nat.add_sub_cancel]

/-- The little-endian branch of `read_bitfield`. -/
theorem read_bitfield_little (lower upper : Int) (o w : Nat) (hw : 1 ≤ w) (buffer mem : Nat → Nat) :
    read_bitfield lower upper o w Endianness.LITTLE_ENDIAN buffer mem
      = if o / 8 + 1 < (o % 8 + w - 1) / 8 + 1 then
          Except.error (ReadError.ArgError ArgReason.LittleEndianBitfieldInvalid)
        else
          Except.ok (bitfield_tail ((o % 8 + w - 1) / 8 + 1) (o % 8) w
            (reverse_bytes (memcpy mem (fun i => buffer (o / 8 + 1 - ((o % 8 + w - 1) / 8 + 1) + i))
              ((o % 8 + w - 1) / 8 + 1)) ((o % 8 + w - 1) / 8 + 1))) := by
  have h3 : (o : Int).tmod 8 = ((o % 8 : Nat) : Int) := tmod_cast o 8
  have h5 : (o : Int).tdiv 8 = ((o / 8 : Nat) : Int) := tdiv_cast o 8
  have h6 : (((o % 8 : Nat) : Int) + (w : Int) - 1).tdiv 8 + 1 = (((o % 8 + w - 1) / 8 + 1 : Nat) : Int) := by
    rw [Int.tdiv_eq_ediv (by omega) (by norm_num)]; omega
  simp only [read_bitfield, ↓reduceIte, h3, h5, h6]
  by_cases hlow : o / 8 + 1 < (o % 8 + w - 1) / 8 + 1
  · have : ((o / 8 : Nat) : Int) - (((o % 8 + w - 1) / 8 + 1 : Nat) : Int) + 1 < 0 := by omega
    simp only [this, ↓reduceIte, hlow]
  · have hn : ¬ (((o / 8 : Nat) : Int) - (((o % 8 + w - 1) / 8 + 1 : Nat) : Int) + 1 < 0) := by omega
    have h7 : (((o / 8 : Nat) : Int) - (((o % 8 + w - 1) / 8 + 1 : Nat) : Int) + 1).toNat
        = o / 8 + 1 - ((o % 8 + w - 1) / 8 + 1) := by omega
    have h8 : (((o / 8 : Nat) : Int) - (((o / 8 : Nat) : Int) - (((o % 8 + w - 1) / 8 + 1 : Nat) : Int) + 1)).toNat
        = (o % 8 + w - 1) / 8 + 1 - 1 := by omega
    have h9 : ((((o / 8 : Nat) : Int) - (((o / 8 : Nat) : Int) - (((o % 8 + w - 1) / 8 + 1 : Nat) : Int) + 1) + 1) * 8
        - ((o % 8 : Nat) : Int) - (w : Int)).toNat = 8 * ((o % 8 + w - 1) / 8 + 1) - o % 8 - w := by omega
    simp only [hn, hlow, ↓reduceIte, h7, h8, h9, Int.toNat_ofNat, bitfield_tail]

theorem field_words_fit (w : Nat) (hw : 1 ≤ w) : w ≤ 8 * (4 * field_words w) := by
  simp only [field_words]; omega

/-- The integer decoded from the run left by `read_bitfield`: the field of `w` bits that follows
the `s` leading bits of the `num` copied bytes. -/
theorem field_of_tail (num s w : Nat) (m : Nat → Nat) (hm : ByteMem m) (hs : s < 8)
    (hfit : s + w ≤ 8 * num) (he : 8 * num - s - w < 8) (hw : 1 ≤ w) :
    be_value (bitfield_tail num s w m) (4 * field_words w) / 2 ^ (8 * (4 * field_words w) - w)
      = (be_value m num / 2 ^ (8 * num - s - w)) % 2 ^ w := by
  have hnum : 1 ≤ num := by omega
  obtain ⟨hb, hv⟩ := bitfield_tail_value num s w m hm hs hfit he hnum
  have hfw := field_words_fit w hw
  have htop : be_value (bitfield_tail num s w m) (4 * field_words w) / 2 ^ (8 * (4 * field_words w) - w)
      = be_value (bitfield_tail num s w m) num / 2 ^ (8 * num - w) := by
    by_cases h : num ≤ 4 * field_words w
    · exact be_value_top_bits _ hb w num _ (by omega) h
    · exact (be_value_top_bits _ hb w (4 * field_words w) num hfw (by omega)).symm
  rw [htop, hv, Nat.mul_div_cancel _ (by positivity)]

/-- The bytes `lower .. lower + num - 1` of an `N`-byte buffer, as a slice of its big-endian value. -/
theorem be_value_slice (p : Nat → Nat) (hp : ByteMem p) (lower num rest e w : Nat) (hew : e + w ≤ 8 * num) :
    (be_value p (lower + num + rest) / 2 ^ (8 * rest + e)) % 2 ^ w
      = (be_value (fun i => p (lower + i)) num / 2 ^ e) % 2 ^ w := by
  have hR : be_value (fun i => p (lower + num + i)) rest < 256 ^ rest := be_value_lt _ _ (fun j _ => hp _)
  rw [be_value_add p (lower + num) rest, be_value_add p lower num, pow_add, ← Nat.div_div_eq_div_mul,
    ← pow_256, Nat.add_comm _ (be_value (fun i => p (lower + num + i)) rest),
    Nat.add_mul_div_right _ _ (by positivity), Nat.div_eq_of_lt hR, Nat.zero_add]
  obtain ⟨d, hd⟩ : ∃ d, 8 * num = e + w + d := ⟨8 * num - e - w, by omega⟩
  have h256 : 256 ^ num = 2 ^ d * 2 ^ w * 2 ^ e := by
    rw [pow_256, hd, pow_add, pow_add]; ring
  rw [h256, ← Nat.mul_assoc, Nat.add_comm, Nat.add_mul_div_right _ _ (by positivity),
    ← Nat.mul_assoc, Nat.add_mul_mod_self_right]

/-! ## The aligned readers -/

theorem read_uint_aligned_eq (host e : Endianness) (o w : Nat) (p : Nat → Nat) (ho : o % 8 = 0)
    (hw : w = 8 ∨ w = 16 ∨ w = 32 ∨ w = 64) :
    read_uint_aligned host ((o / 8 : Nat) : Int) (((o + w - 1) / 8 : Nat) : Int) w e p
      = Value.Integer (wire_value e (fun i => p (o / 8 + i)) (w / 8)) := by
  rcases hw with rfl | rfl | rfl | rfl
  · generalize o / 8 = l
    simp only [read_uint_aligned, Int.toNat_ofNat, Nat.cast_ofNat, ↓reduceIte]
    simp [wire_value, be_value, le_value]
  · have hu : (o + 16 - 1) / 8 = o / 8 + 1 := by omega
    rw [hu]
    generalize o / 8 = l
    simp only [read_uint_aligned, Int.toNat_ofNat, Nat.cast_ofNat, Int.reduceEq, ↓reduceIte]
    cases host <;> cases e <;>
      simp [read_aligned_16, wire_value, host_uint, be_value, le_value, Function.update] <;> ring
  · have hu : (o + 32 - 1) / 8 = o / 8 + 3 := by omega
    rw [hu]
    generalize o / 8 = l
    simp only [read_uint_aligned, Int.toNat_ofNat, Nat.cast_ofNat, Int.reduceEq, ↓reduceIte]
    cases host <;> cases e <;>
      simp [read_aligned_32, wire_value, host_uint, be_value, le_value, Function.update] <;> ring
  · have hu : (o + 64 - 1) / 8 = o / 8 + 7 := by omega
    rw [hu]
    generalize o / 8 = l
    simp only [read_uint_aligned, Int.toNat_ofNat, Nat.cast_ofNat, Int.reduceEq, ↓reduceIte]
    cases host <;> cases e <;>
      simp [read_aligned_64, wire_value, host_uint, be_value, le_value, Function.update] <;> ring

theorem read_int_aligned_eq (host e : Endianness) (o w : Nat) (p : Nat → Nat) (ho : o % 8 = 0)
    (hw : w = 8 ∨ w = 16 ∨ w = 32 ∨ w = 64) :
    read_int_aligned host ((o / 8 : Nat) : Int) (((o + w - 1) / 8 : Nat) : Int) w e p
      = Value.Integer (to_signed w (wire_value e (fun i => p (o / 8 + i)) (w / 8))) := by
  rcases hw with rfl | rfl | rfl | rfl
  · generalize o / 8 = l
    simp only [read_int_aligned, Int.toNat_ofNat, Nat.cast_ofNat, ↓reduceIte]
    simp [wire_value, be_value, le_value]
  · have hu : (o + 16 - 1) / 8 = o / 8 + 1 := by omega
    rw [hu]
    generalize o / 8 = l
    simp only [read_int_aligned, Int.toNat_ofNat, Nat.cast_ofNat, Int.reduceEq, ↓reduceIte]
    cases host <;> cases e <;>
      simp [read_aligned_16, wire_value, host_int, host_uint, be_value, le_value, Function.update] <;>
      congr 1 <;> ring
  · have hu : (o + 32 - 1) / 8 = o / 8 + 3 := by omega
    rw [hu]
    generalize o / 8 = l
    simp only [read_int_aligned, Int.toNat_ofNat, Nat.cast_ofNat, Int.reduceEq, ↓reduceIte]
    cases host <;> cases e <;>
      simp [read_aligned_32, wire_value, host_int, host_uint, be_value, le_value, Function.update] <;>
      congr 1 <;> ring
  · have hu : (o + 64 - 1) / 8 = o / 8 + 7 := by omega
    rw [hu]
    generalize o / 8 = l
    simp only [read_int_aligned, Int.toNat_ofNat, Nat.cast_ofNat, Int.reduceEq, ↓reduceIte]
    cases host <;> cases e <;>
      simp [read_aligned_64, wire_value, host_int, host_uint, be_value, le_value, Function.update] <;>
      congr 1 <;> ring

/-! ## The accessor on a resolved request -/

theorem aligned_width_iff (o w : Nat) :
    aligned_width (o : Int) (w : Int) = true ↔ o % 8 = 0 ∧ (w = 8 ∨ w = 16 ∨ w = 32 ∨ w = 64) := by
  have h3 : (o : Int).tmod 8 = ((o % 8 : Nat) : Int) := tmod_cast o 8
  simp only [aligned_width, h3, Bool.and_eq_true, Bool.or_eq_true, decide_eq_true_eq]
  constructor
  · rintro ⟨h1, h2⟩
    refine ⟨by omega, ?_⟩
    rcases h2 with ((h | h) | h) | h
    · left; omega
    · right; left; omega
    · right; right; left; omega
    · right; right; right; omega
  · rintro ⟨h1, h2⟩
    refine ⟨by omega, ?_⟩
    rcases h2 with h | h | h | h
    · left; left; left; omega
    · left; left; right; omega
    · left; right; omega
    · right; omega

/-- With a non-negative offset and a positive size nothing is resolved: the read is the bounds
check followed by the dispatch on the data type. -/
theorem read_resolved (host : Endianness) (uninit : Nat → Nat) (o w : Nat) (hw : 1 ≤ w) (dt : DataType)
    (buffer : List Nat) (e : Endianness) :
    binary_accessor_read host uninit o w dt buffer e =
      if buffer_too_short (RSTRING_LEN buffer) ((o / 8 : Nat) : Int) (((o + w - 1) / 8 : Nat) : Int) o w dt e
          = true then
        Except.error ReadError.BufferError
      else if dt = DataType.STRING ∨ dt = DataType.BLOCK then
        read_string uninit ((o / 8 : Nat) : Int) (((o + w - 1) / 8 : Nat) : Int) o dt (RSTRING_PTR buffer)
      else if dt = DataType.INT then
        if aligned_width o w = true then
          Except.ok (read_int_aligned host ((o / 8 : Nat) : Int) (((o + w - 1) / 8 : Nat) : Int) w e
            (RSTRING_PTR buffer))
        else
          read_int_bitfield host uninit ((o / 8 : Nat) : Int) (((o + w - 1) / 8 : Nat) : Int) o w e
            (RSTRING_PTR buffer)
      else if dt = DataType.UINT then
        if aligned_width o w = true then
          Except.ok (read_uint_aligned host ((o / 8 : Nat) : Int) (((o + w - 1) / 8 : Nat) : Int) w e
            (RSTRING_PTR buffer))
        else
          read_uint_bitfield host uninit ((o / 8 : Nat) : Int) (((o + w - 1) / 8 : Nat) : Int) o w e
            (RSTRING_PTR buffer)
      else if dt = DataType.FLOAT then
        read_float host ((o / 8 : Nat) : Int) (((o + w - 1) / 8 : Nat) : Int) o w e (RSTRING_PTR buffer)
      else
        Except.error (ReadError.ArgError ArgReason.NotRecognized) := by
  have h1 : ¬ ((o : Int) < 0) := by omega
  have h2 : ¬ ((w : Int) ≤ 0) := by omega
  have h3 : (o : Int).tdiv 8 = ((o / 8 : Nat) : Int) := tdiv_cast o 8
  have h4 : ((o : Int) + (w : Int) - 1).tdiv 8 = (((o + w - 1) / 8 : Nat) : Int) := by
    rw [Int.tdiv_eq_ediv (by omega) (by norm_num)]; omega
  simp only [binary_accessor_read, handle_negative_bit_offset, handle_bit_size, h1, h2, ↓reduceIte, h3, h4]

theorem be_value_memcpy (dest src : Nat → Nat) (n : Nat) : be_value (memcpy dest src n) n = be_value src n := by
  apply be_value_congr
  intro j hj
  simp [memcpy, hj]

theorem buffer_fits (N o w : Nat) (dt : DataType) (e : Endianness) (hw : 1 ≤ w) (hfit : o + w ≤ 8 * N) :
    ¬ (buffer_too_short (N : Int) ((o / 8 : Nat) : Int) (((o + w - 1) / 8 : Nat) : Int) o w dt e = true) := by
  have h : ¬ ((((o + w - 1) / 8 : Nat) : Int) ≥ (N : Int)) := by omega
  simp only [buffer_too_short, h, ↓reduceIte]
  simp

theorem le_value_eq_sum (q : Nat → Nat) (k : Nat) :
    le_value q k = ∑ i in Finset.range k, q i * 256 ^ i := by
  induction k with
  | zero => simp [le_value]
  | succ k ih => rw [Finset.sum_range_succ, ← ih]; rfl

/-- A little-endian integer field that is not a byte-aligned 8/16/32/64-bit field and starts
within the buffer passes the bounds check. -/
theorem buffer_fits_little (N o w : Nat) (dt : DataType) (hdt : dt = DataType.INT ∨ dt = DataType.UINT)
    (hal : ¬ (aligned_width (o : Int) (w : Int) = true)) (hup : o / 8 < N) :
    ¬ (buffer_too_short (N : Int) ((o / 8 : Nat) : Int) (((o + w - 1) / 8 : Nat) : Int) o w dt
        Endianness.LITTLE_ENDIAN = true) := by
  have h : ((o / 8 : Nat) : Int) < (N : Int) := by omega
  have hc : Endianness.LITTLE_ENDIAN = Endianness.LITTLE_ENDIAN ∧ (dt = DataType.INT ∨ dt = DataType.UINT) ∧
      ¬ (aligned_width (o : Int) (w : Int) = true) ∧ ((o / 8 : Nat) : Int) < (N : Int) := ⟨rfl, hdt, hal, h⟩
  unfold buffer_too_short
  rw [if_pos hc]
  split_ifs <;> simp

theorem be_value_reverse_memcpy (dest src : Nat → Nat) (n : Nat) :
    be_value (reverse_bytes (memcpy dest src n) n) n = le_value src n := by
  rw [reverse_bytes_eq, ← be_value_reverse]
  apply be_value_congr
  intro j hj
  have h : n - 1 - j < n := by omega
  simp [memcpy, hj, h]

/-! ## Signed and unsigned reads -/

theorem read_negative_offset (host : Endianness) (uninit : Nat → Nat) (k w : Nat) (hk : 0 < k) (hw : 0 < w)
    (dt : DataType) (buffer : List Nat) (e : Endianness) :
    binary_accessor_read host uninit (-(k : Int)) w dt buffer e =
      if 8 * buffer.length < k then Except.error ReadError.BufferError
      else binary_accessor_read host uninit ((8 * buffer.length - k : Nat) : Int) w dt buffer e := by
  have h1 : (-(k : Int)) < 0 := by omega
  have h2 : ¬ ((w : Int) ≤ 0) := by omega
  by_cases h : 8 * buffer.length < k
  · have h3 : (buffer.length : Int) * 8 + -(k : Int) < 0 := by omega
    simp only [binary_accessor_read, handle_negative_bit_offset, RSTRING_LEN, h1, h2, h3, h, ↓reduceIte]
  · have h3 : ¬ ((buffer.length : Int) * 8 + -(k : Int) < 0) := by omega
    have h4 : ¬ (((8 * buffer.length - k : Nat) : Int) < 0) := by omega
    have h5 : (buffer.length : Int) * 8 + -(k : Int) = ((8 * buffer.length - k : Nat) : Int) := by omega
    simp only [binary_accessor_read, handle_negative_bit_offset, RSTRING_LEN, h1, h2, h3, h4, h, ↓reduceIte, h5]

/-- The run left by `read_bitfield` holds byte values, unless the little-endian span starts before the buffer. -/
theorem read_bitfield_result (o w : Nat) (hw : 1 ≤ w) (e : Endianness) (p : Nat → Nat) (hp : ByteMem p)
    (uninit : Nat → Nat) :
    read_bitfield ((o / 8 : Nat) : Int) (((o + w - 1) / 8 : Nat) : Int) o w e p (malloc uninit)
        = Except.error (ReadError.ArgError ArgReason.LittleEndianBitfieldInvalid) ∨
      ∃ m, read_bitfield ((o / 8 : Nat) : Int) (((o + w - 1) / 8 : Nat) : Int) o w e p (malloc uninit)
        = Except.ok m ∧ ByteMem m := by
  cases e with
  | BIG_ENDIAN =>
    right
    refine ⟨_, read_bitfield_big o w hw p (malloc uninit), ?_⟩
    have hm0 : ByteMem (memcpy (malloc uninit) (fun i => p (o / 8 + i)) ((o + w - 1) / 8 - o / 8 + 1)) :=
      memcpy_bytes _ _ _ (malloc_bytes uninit) (fun i => hp _)
    exact (bitfield_tail_value _ (o % 8) w _ hm0 (by omega) (by omega) (by omega) (by omega)).1
  | LITTLE_ENDIAN =>
    rw [read_bitfield_little _ _ o w hw p (malloc uninit)]
    by_cases h : o / 8 + 1 < (o % 8 + w - 1) / 8 + 1
    · left; rw [if_pos h]
    · right
      rw [if_neg h]
      refine ⟨_, rfl, ?_⟩
      have hm0 : ByteMem (reverse_bytes (memcpy (malloc uninit)
          (fun i => p (o / 8 + 1 - ((o % 8 + w - 1) / 8 + 1) + i)) ((o % 8 + w - 1) / 8 + 1))
          ((o % 8 + w - 1) / 8 + 1)) :=
        reverse_bytes_bytes _ _ (memcpy_bytes _ _ _ (malloc_bytes uninit) (fun i => hp _))
      exact (bitfield_tail_value _ (o % 8) w _ hm0 (by omega) (by omega) (by omega) (by omega)).1

theorem buffer_too_short_int_uint (N l u o w : Int) (e : Endianness) :
    buffer_too_short N l u o w DataType.INT e = buffer_too_short N l u o w DataType.UINT e := by
  simp [buffer_too_short]

theorem wire_value_lt (e : Endianness) (q : Nat → Nat) (hq : ByteMem q) (k : Nat) :
    wire_value e q k < 2 ^ (8 * k) := by
  rw [← pow_256]
  cases e with
  | BIG_ENDIAN => simpa [wire_value] using be_value_lt q k (fun j _ => hq j)
  | LITTLE_ENDIAN =>
    have h : le_value q k = be_value (fun j => q (k - 1 - j)) k := (be_value_reverse q k).symm
    simp only [wire_value, ↓reduceIte, h]
    exact be_value_lt _ k (fun j _ => hq _)

/-- On a resolved request the signed read fails exactly as the unsigned read does, and otherwise
returns the unsigned result reinterpreted (for a 1-bit field: unchanged). -/
theorem int_uint_resolved (host : Endianness) (uninit : Nat → Nat) (buffer : List Nat) (hb : IsBytes buffer)
    (e : Endianness) (o w : Nat) (hw : 1 ≤ w) :
    (∃ err, binary_accessor_read host uninit o w DataType.UINT buffer e = Except.error err ∧
        binary_accessor_read host uninit o w DataType.INT buffer e = Except.error err) ∨
      ∃ u : Nat, u < 2 ^ w ∧
        binary_accessor_read host uninit o w DataType.UINT buffer e = Except.ok (Value.Integer u) ∧
        binary_accessor_read host uninit o w DataType.INT buffer e
          = Except.ok (Value.Integer (if 1 < w then to_signed w u else (u : Int))) := by
  have hp := RSTRING_PTR_bytes buffer hb
  rw [read_resolved host uninit o w hw, read_resolved host uninit o w hw, buffer_too_short_int_uint]
  simp only [reduceCtorEq, ↓reduceIte, or_self]
  by_cases hshort : buffer_too_short (RSTRING_LEN buffer) ((o / 8 : Nat) : Int) (((o + w - 1) / 8 : Nat) : Int)
      o w DataType.UINT e = true
  · left
    exact ⟨ReadError.BufferError, by rw [if_pos hshort], by rw [if_pos hshort]⟩
  · rw [if_neg hshort, if_neg hshort]
    by_cases hal : aligned_width (o : Int) (w : Int) = true
    · right
      obtain ⟨ho, hw8⟩ := (aligned_width_iff o w).mp hal
      refine ⟨wire_value e (fun i => RSTRING_PTR buffer (o / 8 + i)) (w / 8), ?_, ?_, ?_⟩
      · have := wire_value_lt e (fun i => RSTRING_PTR buffer (o / 8 + i)) (fun i => hp _) (w / 8)
        have h8 : 8 * (w / 8) = w := by omega
        rwa [h8] at this
      · rw [if_pos hal, read_uint_aligned_eq host e o w _ ho hw8]
      · rw [if_pos hal, read_int_aligned_eq host e o w _ ho hw8, if_pos (by omega)]
    · rw [if_neg hal, if_neg hal]
      rcases read_bitfield_result o w hw e _ hp uninit with herr | ⟨m, hm, hbm⟩
      · left
        refine ⟨ReadError.ArgError ArgReason.LittleEndianBitfieldInvalid, ?_, ?_⟩
        · simp only [read_uint_bitfield, herr]
        · simp only [read_int_bitfield, herr]
      · right
        refine ⟨be_value m (4 * field_words w) / 2 ^ (8 * (4 * field_words w) - w), ?_, ?_, ?_⟩
        · rw [Nat.div_lt_iff_lt_mul (by positivity), ← pow_add]
          have hf := field_words_fit w hw
          have : w + (8 * (4 * field_words w) - w) = 8 * (4 * field_words w) := by omega
          rw [this, ← pow_256]
          exact be_value_lt _ _ (fun j _ => hbm j)
        · exact read_uint_bitfield_ok host uninit _ _ _ w hw e _ m hm hbm
        · exact read_int_bitfield_ok host uninit _ _ _ w hw e _ m hm hbm

/-- For any bit offset, negative ones included, the signed read fails exactly as the unsigned read
does, and otherwise returns the unsigned result reinterpreted (for a 1-bit field: unchanged). -/
theorem int_uint_any (host : Endianness) (uninit : Nat → Nat) (buffer : List Nat) (hb : IsBytes buffer)
    (e : Endianness) (bit_offset : Int) (w : Nat) (hw : 1 ≤ w) :
    (∃ err, binary_accessor_read host uninit bit_offset w DataType.UINT buffer e = Except.error err ∧
        binary_accessor_read host uninit bit_offset w DataType.INT buffer e = Except.error err) ∨
      ∃ u : Nat, u < 2 ^ w ∧
        binary_accessor_read host uninit bit_offset w DataType.UINT buffer e = Except.ok (Value.Integer u) ∧
        binary_accessor_read host uninit bit_offset w DataType.INT buffer e
          = Except.ok (Value.Integer (if 1 < w then to_signed w u else (u : Int))) := by
  by_cases h0 : 0 ≤ bit_offset
  · obtain ⟨o, rfl⟩ := Int.eq_ofNat_of_zero_le h0
    exact int_uint_resolved host uninit buffer hb e o w hw
  · obtain ⟨k, hk⟩ : ∃ k : Nat, bit_offset = -(k : Int) := ⟨(-bit_offset).toNat, by omega⟩
    subst hk
    have hk0 : 0 < k := by omega
    rw [read_negative_offset host uninit k w hk0 (by omega), read_negative_offset host uninit k w hk0 (by omega)]
    by_cases hlong : 8 * buffer.length < k
    · left
      exact ⟨ReadError.BufferError, by rw [if_pos hlong], by rw [if_pos hlong]⟩
    · rw [if_neg hlong, if_neg hlong]
      exact int_uint_resolved host uninit buffer hb e _ w hw

/-! ## Strings, blocks and the bounds check -/

theorem takeWhile_append_stop (f : Nat → Bool) (l : List Nat) (z : Nat) (hz : f z = false) :
    (l ++ [z]).takeWhile f = l.takeWhile f := by
  induction l with
  | nil => simp [List.takeWhile, hz]
  | cons a l ih =>
    simp only [List.cons_append, List.takeWhile_cons]
    split_ifs
    · rw [ih]
    · rfl

theorem range_map_getD (buffer : List Nat) (l len : Nat) (h : l + len ≤ buffer.length) :
    (List.range len).map (fun idx => buffer.getD (l + idx) 0) = (buffer.drop l).take len := by
  apply List.ext_getElem
  · simp; omega
  · intro n h1 h2
    simp only [List.length_map, List.length_range] at h1
    simp only [List.getElem_map, List.getElem_range, List.getElem_take, List.getElem_drop]
    rw [List.getD_eq_getElem _ _ (by omega)]

/-- The two results of `read_string`: the byte span for `:BLOCK`, its part before the first zero
byte for `:STRING`. -/
theorem read_string_relation (uninit : Nat → Nat) (l u o : Int) (p : Nat → Nat) :
    (read_string uninit l u o DataType.BLOCK p = Except.error (ReadError.ArgError ArgReason.NotByteAligned) ∧
      read_string uninit l u o DataType.STRING p = Except.error (ReadError.ArgError ArgReason.NotByteAligned)) ∨
    (read_string uninit l u o DataType.BLOCK p
        = Except.ok (Value.Str ((List.range (u - l + 1).toNat).map (fun idx => p (l.toNat + idx)))) ∧
      read_string uninit l u o DataType.STRING p
        = Except.ok (Value.Str
            (((List.range (u - l + 1).toNat).map (fun idx => p (l.toNat + idx))).takeWhile (fun b => b ≠ 0)))) := by
  by_cases hal : o.tmod 8 = 0
  · right
    have hcongr : (List.range (u - l + 1).toNat).map
        (Function.update (memcpy (malloc uninit) (fun i => p (l.toNat + i)) (u - l + 1).toNat) (u - l + 1).toNat 0)
        = (List.range (u - l + 1).toNat).map (fun idx => p (l.toNat + idx)) := by
      apply List.map_congr_left
      intro idx hidx
      have hlt : idx < (u - l + 1).toNat := List.mem_range.mp hidx
      rw [Function.update_noteq (by omega)]
      simp [memcpy, hlt]
    constructor
    · simp only [read_string, hal, ↓reduceIte, reduceCtorEq]
      rw [hcongr]
    · simp only [read_string, hal, ↓reduceIte]
      rw [List.range_succ, List.map_append, hcongr]
      simp only [List.map_cons, List.map_nil, Function.update_same]
      rw [takeWhile_append_stop _ _ 0 (by simp)]
  · left
    simp [read_string, hal]

theorem handle_bit_size_string_block (N o s : Int) :
    handle_bit_size N o s DataType.STRING = handle_bit_size N o s DataType.BLOCK := by
  simp [handle_bit_size]

theorem buffer_too_short_string_block (N l u o w : Int) (e : Endianness) :
    buffer_too_short N l u o w DataType.STRING e = buffer_too_short N l u o w DataType.BLOCK e := by
  simp [buffer_too_short]

/-- The branches of the dispatch raise argument errors only. -/
theorem read_bitfield_error (l u o w : Int) (e : Endianness) (p m : Nat → Nat) (x : ReadError)
    (h : read_bitfield l u o w e p m = Except.error x) :
    x = ReadError.ArgError ArgReason.LittleEndianBitfieldInvalid := by
  cases e with
  | BIG_ENDIAN =>
    simp only [read_bitfield, reduceCtorEq, ↓reduceIte] at h
  | LITTLE_ENDIAN =>
    by_cases hl : o.tdiv 8 - ((o.tmod 8 + w - 1).tdiv 8 + 1) + 1 < 0
    · simp only [read_bitfield, ↓reduceIte, hl] at h
      injection h with h
      exact h.symm
    · simp only [read_bitfield, ↓reduceIte, hl] at h
      exact absurd h (by simp)

theorem read_uint_bitfield_error (host : Endianness) (uninit : Nat → Nat) (l u o w : Int) (e : Endianness)
    (p : Nat → Nat) (x : ReadError) (h : read_uint_bitfield host uninit l u o w e p = Except.error x) :
    x = ReadError.ArgError ArgReason.LittleEndianBitfieldInvalid := by
  cases hrb : read_bitfield l u o w e p (malloc uninit) with
  | error err =>
    simp only [read_uint_bitfield, hrb] at h
    injection h with h
    rw [← h]
    exact read_bitfield_error _ _ _ _ _ _ _ _ hrb
  | ok m =>
    simp only [read_uint_bitfield, hrb] at h
    split_ifs at h

theorem read_int_bitfield_error (host : Endianness) (uninit : Nat → Nat) (l u o w : Int) (e : Endianness)
    (p : Nat → Nat) (x : ReadError) (h : read_int_bitfield host uninit l u o w e p = Except.error x) :
    x = ReadError.ArgError ArgReason.LittleEndianBitfieldInvalid := by
  cases hrb : read_bitfield l u o w e p (malloc uninit) with
  | error err =>
    simp only [read_int_bitfield, hrb] at h
    injection h with h
    rw [← h]
    exact read_bitfield_error _ _ _ _ _ _ _ _ hrb
  | ok m =>
    simp only [read_int_bitfield, hrb] at h
    split_ifs at h

/-- A non-positive size on `:STRING` or `:BLOCK` at a non-negative offset is resolved against the
end of the buffer. -/
theorem read_nonpositive_size (host : Endianness) (uninit : Nat → Nat) (o : Nat) (s : Int) (hs : s ≤ 0)
    (dt : DataType) (hdt : dt = DataType.STRING ∨ dt = DataType.BLOCK) (buffer : List Nat) (e : Endianness) :
    binary_accessor_read host uninit o s dt buffer e =
      if (buffer.length : Int) * 8 - o + s = 0 then Except.ok (Value.Str [])
      else if (buffer.length : Int) * 8 - o + s < 0 then Except.error ReadError.BufferError
      else binary_accessor_read host uninit o ((buffer.length : Int) * 8 - o + s) dt buffer e := by
  have h1 : ¬ ((o : Int) < 0) := by omega
  by_cases hz : (buffer.length : Int) * 8 - o + s = 0
  · simp only [binary_accessor_read, handle_negative_bit_offset, handle_bit_size, RSTRING_LEN, h1, hs, hdt, hz,
      ↓reduceIte]
  · by_cases hn : (buffer.length : Int) * 8 - o + s < 0
    · simp only [binary_accessor_read, handle_negative_bit_offset, handle_bit_size, RSTRING_LEN, h1, hs, hdt, hz,
        hn, ↓reduceIte]
    · have hp : ¬ ((buffer.length : Int) * 8 - o + s ≤ 0) := by omega
      simp only [binary_accessor_read, handle_negative_bit_offset, handle_bit_size, RSTRING_LEN, h1, hs, hdt, hz,
        hn, hp, ↓reduceIte]

theorem buffer_too_short_iff (N o w : Nat) (dt : DataType) (e : Endianness) :
    buffer_too_short (N : Int) ((o / 8 : Nat) : Int) (((o + w - 1) / 8 : Nat) : Int) o w dt e = true ↔
      (N ≤ (o + w - 1) / 8 ∧
        ¬ (e = Endianness.LITTLE_ENDIAN ∧ (dt = DataType.INT ∨ dt = DataType.UINT) ∧
            ¬ (o % 8 = 0 ∧ (w = 8 ∨ w = 16 ∨ w = 32 ∨ w = 64)) ∧ o / 8 < N)) := by
  have h1 : ((((o + w - 1) / 8 : Nat) : Int) ≥ (N : Int)) ↔ N ≤ (o + w - 1) / 8 := by omega
  have h2 : (((o / 8 : Nat) : Int) < (N : Int)) ↔ o / 8 < N := by omega
  simp only [buffer_too_short, aligned_width_iff, h1, h2]
  by_cases hu : N ≤ (o + w - 1) / 8
  · by_cases hc : e = Endianness.LITTLE_ENDIAN ∧ (dt = DataType.INT ∨ dt = DataType.UINT) ∧
        ¬ (o % 8 = 0 ∧ (w = 8 ∨ w = 16 ∨ w = 32 ∨ w = 64)) ∧ o / 8 < N
    · simp only [hu, hc, ↓reduceIte]
      simp
    · simp only [hu, hc, ↓reduceIte]
      simp
  · simp only [hu, ↓reduceIte]
    simp

/-! ## Argument errors of the accessor -/

theorem read_negative_nonpositive (host : Endianness) (uninit : Nat → Nat) (bit_offset bit_size : Int)
    (hneg : bit_offset < 0) (hs : bit_size ≤ 0) (dt : DataType) (buffer : List Nat) (e : Endianness) :
    binary_accessor_read host uninit bit_offset bit_size dt buffer e
      = Except.error (ReadError.ArgError ArgReason.NegativeOffsetNonPositiveSize) := by
  simp only [binary_accessor_read, handle_negative_bit_offset, hneg, hs, ↓reduceIte]

theorem read_nonpositive_other (host : Endianness) (uninit : Nat → Nat) (bit_offset bit_size : Int)
    (hpos : 0 ≤ bit_offset) (hs : bit_size ≤ 0) (dt : DataType) (h1 : dt ≠ DataType.STRING)
    (h2 : dt ≠ DataType.BLOCK) (buffer : List Nat) (e : Endianness) :
    binary_accessor_read host uninit bit_offset bit_size dt buffer e
      = Except.error (ReadError.ArgError ArgReason.NonPositiveSize) := by
  have hn : ¬ (bit_offset < 0) := by omega
  simp only [binary_accessor_read, handle_negative_bit_offset, handle_bit_size, hn, hs, h1, h2, or_self,
    ↓reduceIte]

/-- A resolved read of `:STRING`, `:BLOCK` or `:FLOAT` at an offset that is not byte aligned:
the bounds check comes first, the alignment check second. -/
theorem read_unaligned_resolved (host : Endianness) (uninit : Nat → Nat) (o w : Nat) (hw : 1 ≤ w)
    (ho : o % 8 ≠ 0) (dt : DataType)
    (hdt : dt = DataType.STRING ∨ dt = DataType.BLOCK ∨ dt = DataType.FLOAT) (buffer : List Nat)
    (e : Endianness) :
    binary_accessor_read host uninit o w dt buffer e =
      if buffer.length ≤ (o + w - 1) / 8 then Except.error ReadError.BufferError
      else Except.error (ReadError.ArgError ArgReason.NotByteAligned) := by
  have hal : ¬ ((o : Int).tmod 8 = 0) := by
    rw [Int.tmod_eq_emod (by omega) (by norm_num)]; omega
  have hshort := buffer_too_short_iff buffer.length o w dt e
  rw [read_resolved host uninit o w hw]
  simp only [RSTRING_LEN]
  by_cases hu : buffer.length ≤ (o + w - 1) / 8
  · have hs : buffer_too_short (buffer.length : Int) ((o / 8 : Nat) : Int) (((o + w - 1) / 8 : Nat) : Int)
        o w dt e = true := by
      rw [hshort]
      refine ⟨hu, ?_⟩
      rintro ⟨-, h, -⟩
      rcases hdt with rfl | rfl | rfl <;> rcases h with h | h <;> exact absurd h (by decide)
    rw [if_pos hs, if_pos hu]
  · have hs : ¬ (buffer_too_short (buffer.length : Int) ((o / 8 : Nat) : Int) (((o + w - 1) / 8 : Nat) : Int)
        o w dt e = true) := by
      rw [hshort]
      exact fun h => hu h.1
    rw [if_neg hs, if_neg hu]
    rcases hdt with rfl | rfl | rfl
    · simp only [true_or, ↓reduceIte, read_string, hal]
    · simp only [or_true, ↓reduceIte, read_string, hal]
    · simp only [reduceCtorEq, or_self, ↓reduceIte, read_float, hal]

/-- A resolved read with a data type that is not recognized: the bounds check comes first. -/
theorem read_unrecognized_resolved (host : Endianness) (uninit : Nat → Nat) (o w : Nat) (hw : 1 ≤ w)
    (dt : DataType) (h1 : dt ≠ DataType.INT) (h2 : dt ≠ DataType.UINT) (h3 : dt ≠ DataType.FLOAT)
    (h4 : dt ≠ DataType.STRING) (h5 : dt ≠ DataType.BLOCK) (buffer : List Nat) (e : Endianness) :
    binary_accessor_read host uninit o w dt buffer e =
      if buffer.length ≤ (o + w - 1) / 8 then Except.error ReadError.BufferError
      else Except.error (ReadError.ArgError ArgReason.NotRecognized) := by
  have hshort := buffer_too_short_iff buffer.length o w dt e
  rw [read_resolved host uninit o w hw]
  simp only [RSTRING_LEN]
  by_cases hu : buffer.length ≤ (o + w - 1) / 8
  · have hs : buffer_too_short (buffer.length : Int) ((o / 8 : Nat) : Int) (((o + w - 1) / 8 : Nat) : Int)
        o w dt e = true := by
      rw [hshort]
      refine ⟨hu, ?_⟩
      rintro ⟨-, h, -⟩
      rcases h with h | h
      · exact h1 h
      · exact h2 h
    rw [if_pos hs, if_pos hu]
  · have hs : ¬ (buffer_too_short (buffer.length : Int) ((o / 8 : Nat) : Int) (((o + w - 1) / 8 : Nat) : Int)
        o w dt e = true) := by
      rw [hshort]
      exact fun h => hu h.1
    rw [if_neg hs, if_neg hu]
    simp only [h1, h2, h3, h4, h5, or_self, ↓reduceIte]

/-! ## The item comparator -/

/-- When `structure_item_spaceship` does not put its first argument after the second. -/
theorem spaceship_nonpos (a b : StructureItem) :
    structure_item_spaceship a b ≤ 0 ↔
      (a.bit_offset = 0 ∧ b.bit_offset = 0 ∧ a.bit_size ≤ b.bit_size) ∨
        (¬ (a.bit_offset = 0 ∧ b.bit_offset = 0) ∧
          ((0 ≤ a.bit_offset ∧ 0 ≤ b.bit_offset ∧ a.bit_offset ≤ b.bit_offset) ∨
            (a.bit_offset < 0 ∧ b.bit_offset < 0 ∧ a.bit_offset ≤ b.bit_offset) ∨
            (0 ≤ a.bit_offset ∧ b.bit_offset < 0))) := by
  simp only [structure_item_spaceship]
  split_ifs <;> constructor <;> intro h <;> omega

/-! ## The structure: buffer growth and item reads -/

theorem rb_str_times_zero_string (n : Int) : rb_str_times ZERO_STRING n = List.replicate n.toNat 0 := by
  simp only [rb_str_times, ZERO_STRING]
  induction n.toNat with
  | zero => rfl
  | succ k ih => simp [List.replicate_succ, ih]

/-- The effect of `resize_buffer` on a structure with a bound buffer `b`. -/
theorem resize_buffer_some (self : Structure) (b : List Nat) (hb : self.buffer = some b) :
    resize_buffer self =
      { self with buffer := some (b ++ List.replicate (self.defined_length.toNat - b.length) 0) } := by
  simp only [resize_buffer, hb, RSTRING_LEN, rb_str_times_zero_string]
  by_cases h : (b.length : Int) < self.defined_length
  · rw [if_pos h]
    have : (self.defined_length - (b.length : Int)).toNat = self.defined_length.toNat - b.length := by omega
    rw [this]
  · rw [if_neg h]
    have : self.defined_length.toNat - b.length = 0 := by omega
    rw [this]
    cases self with
    | mk buffer defined_length =>
      simp only [List.replicate_zero, List.append_nil] at hb ⊢
      rw [hb]

/-! ## The shift helpers on their own -/

/-- Bytes at or after index `L` are not touched by a left shift of the first `L` bytes. -/
theorem shl_byte_outside (n : Nat) (a : Nat → Nat) (L j : Nat) (hj : L ≤ j) : shl_byte n a L j = a j := by
  simp only [shl_byte]
  rw [if_neg (by omega), if_neg (by omega)]

/-- Bytes at or after index `L` are not touched by a right shift of the first `L` bytes. -/
theorem shr_byte_outside (n : Nat) (a : Nat → Nat) (L j : Nat) (hj : L ≤ j) : shr_byte n a L j = a j := by
  simp only [shr_byte]
  rw [if_neg (by omega)]

/-- A left shift followed by an unsigned right shift by the same amount, byte by byte. -/
theorem shr_shl_byte (n : Nat) (hn0 : 0 < n) (hn : n < 8) (a : Nat → Nat) (ha : ByteMem a) (L j : Nat) :
    shr_byte n (shl_byte n a L) L j = if j = 0 ∧ 0 < L then a 0 % 2 ^ (8 - n) else a j := by
  have h0 := ha j
  have h1 := ha (j - 1)
  have h2 := ha (j + 1)
  by_cases hjL : j < L
  · rcases Nat.eq_zero_or_pos j with hj | hj
    · subst hj
      simp only [shr_byte, shl_byte, hjL, lt_self_iff_false, ↓reduceIte, true_and]
      by_cases h1L : 0 + 1 < L
      · rw [if_pos h1L]
        simp only [Nat.zero_add] at h2 ⊢
        interval_cases n <;> simp only [Nat.reducePow, Nat.reduceSub] <;> omega
      · rw [if_neg h1L]
        interval_cases n <;> simp only [Nat.reducePow, Nat.reduceSub] <;> omega
    · have hj1 : j - 1 + 1 < L := by omega
      have hj2 : j - 1 + 1 = j := by omega
      have hne : ¬ (j = 0 ∧ 0 < L) := by omega
      simp only [shr_byte, shl_byte, hjL, hj, hj1, hj2, hne, ↓reduceIte]
      by_cases h1L : j + 1 < L
      · rw [if_pos h1L]
        interval_cases n <;> simp only [Nat.reducePow, Nat.reduceSub] <;> omega
      · rw [if_neg h1L]
        interval_cases n <;> simp only [Nat.reducePow, Nat.reduceSub] <;> omega
  · have hne : ¬ (j = 0 ∧ 0 < L) := by omega
    rw [shr_byte_outside n _ L j (by omega), shl_byte_outside n a L j (by omega), if_neg hne]

/-! ## The scratch array: what the allocator left there does not matter -/

/-- The run returned by `read_bitfield`, shifted down by the accessor, is the field: the bytes of
the scratch array that were never written are shifted out. -/
theorem read_bitfield_field (o w : Nat) (hw : 1 ≤ w) (e : Endianness) (p : Nat → Nat) (hp : ByteMem p)
    (uninit : Nat → Nat) :
    read_bitfield ((o / 8 : Nat) : Int) (((o + w - 1) / 8 : Nat) : Int) o w e p (malloc uninit)
        = Except.error (ReadError.ArgError ArgReason.LittleEndianBitfieldInvalid) ∧
        (e = Endianness.LITTLE_ENDIAN ∧ o / 8 + 1 < (o % 8 + w - 1) / 8 + 1) ∨
      ¬ (e = Endianness.LITTLE_ENDIAN ∧ o / 8 + 1 < (o % 8 + w - 1) / 8 + 1) ∧
      ∃ m, read_bitfield ((o / 8 : Nat) : Int) (((o + w - 1) / 8 : Nat) : Int) o w e p (malloc uninit)
          = Except.ok m ∧ ByteMem m ∧
        be_value m (4 * field_words w) / 2 ^ (8 * (4 * field_words w) - w) = field_value e p o w := by
  have hnum : (o + w - 1) / 8 - o / 8 + 1 = (o % 8 + w - 1) / 8 + 1 := by omega
  simp only [field_value]
  set num := (o % 8 + w - 1) / 8 + 1 with hnum_def
  have hs : o % 8 < 8 := by omega
  have hfit : o % 8 + w ≤ 8 * num := by omega
  have he : 8 * num - o % 8 - w < 8 := by omega
  cases e with
  | BIG_ENDIAN =>
    right
    have hrb := read_bitfield_big o w hw p (malloc uninit)
    rw [hnum] at hrb
    have hm0 : ByteMem (memcpy (malloc uninit) (fun i => p (o / 8 + i)) num) :=
      memcpy_bytes _ _ _ (malloc_bytes uninit) (fun i => hp _)
    obtain ⟨hbt, -⟩ := bitfield_tail_value num (o % 8) w _ hm0 hs hfit he (by omega)
    refine ⟨by simp, _, hrb, hbt, ?_⟩
    rw [field_of_tail num (o % 8) w _ hm0 hs hfit he hw, be_value_memcpy]
    simp only [wire_value, reduceCtorEq, ↓reduceIte]
  | LITTLE_ENDIAN =>
    have hrb := read_bitfield_little ((o / 8 : Nat) : Int) (((o + w - 1) / 8 : Nat) : Int) o w hw p
      (malloc uninit)
    by_cases hlow : o / 8 + 1 < num
    · left
      rw [if_pos hlow] at hrb
      exact ⟨hrb, rfl, hlow⟩
    · right
      rw [if_neg hlow] at hrb
      have hm0 : ByteMem (reverse_bytes (memcpy (malloc uninit) (fun i => p (o / 8 + 1 - num + i)) num) num) :=
        reverse_bytes_bytes _ _ (memcpy_bytes _ _ _ (malloc_bytes uninit) (fun i => hp _))
      obtain ⟨hbt, -⟩ := bitfield_tail_value num (o % 8) w _ hm0 hs hfit he (by omega)
      refine ⟨fun h => hlow h.2, _, hrb, hbt, ?_⟩
      rw [field_of_tail num (o % 8) w _ hm0 hs hfit he hw, be_value_reverse_memcpy]
      simp only [wire_value, ↓reduceIte]

/-- The unsigned bitfield read in terms of the buffer alone. -/
theorem read_uint_bitfield_value (host : Endianness) (uninit : Nat → Nat) (o w : Nat) (hw : 1 ≤ w)
    (e : Endianness) (p : Nat → Nat) (hp : ByteMem p) :
    read_uint_bitfield host uninit ((o / 8 : Nat) : Int) (((o + w - 1) / 8 : Nat) : Int) o w e p
      = if e = Endianness.LITTLE_ENDIAN ∧ o / 8 + 1 < (o % 8 + w - 1) / 8 + 1 then
          Except.error (ReadError.ArgError ArgReason.LittleEndianBitfieldInvalid)
        else Except.ok (Value.Integer ((field_value e p o w : Nat) : Int)) := by
  rcases read_bitfield_field o w hw e p hp uninit with ⟨herr, hc⟩ | ⟨hc, m, hm, hbm, hv⟩
  · rw [if_pos hc]
    simp only [read_uint_bitfield, herr]
  · rw [if_neg hc, read_uint_bitfield_ok host uninit _ _ _ w hw e p m hm hbm, hv]

/-- The signed bitfield read in terms of the buffer alone. -/
theorem read_int_bitfield_value (host : Endianness) (uninit : Nat → Nat) (o w : Nat) (hw : 1 ≤ w)
    (e : Endianness) (p : Nat → Nat) (hp : ByteMem p) :
    read_int_bitfield host uninit ((o / 8 : Nat) : Int) (((o + w - 1) / 8 : Nat) : Int) o w e p
      = if e = Endianness.LITTLE_ENDIAN ∧ o / 8 + 1 < (o % 8 + w - 1) / 8 + 1 then
          Except.error (ReadError.ArgError ArgReason.LittleEndianBitfieldInvalid)
        else Except.ok (Value.Integer
          (if 1 < w then to_signed w (field_value e p o w) else ((field_value e p o w : Nat) : Int))) := by
  rcases read_bitfield_field o w hw e p hp uninit with ⟨herr, hc⟩ | ⟨hc, m, hm, hbm, hv⟩
  · rw [if_pos hc]
    simp only [read_int_bitfield, herr]
  · rw [if_neg hc, read_int_bitfield_ok host uninit _ _ _ w hw e p m hm hbm, hv]

/-- The string copy does not depend on the initial contents of its scratch string. -/
theorem read_string_scratch (uninit1 uninit2 : Nat → Nat) (l u o : Int) (dt : DataType) (p : Nat → Nat) :
    read_string uninit1 l u o dt p = read_string uninit2 l u o dt p := by
  have hcopy : ∀ (uninit : Nat → Nat) (n i : Nat), i ≤ n →
      Function.update (memcpy (malloc uninit) (fun i => p (l.toNat + i)) n) n 0 i
        = if i < n then p (l.toNat + i) else 0 := by
    intro uninit n i hi
    by_cases h : i < n
    · have hne : i ≠ n := by omega
      simp [Function.update, memcpy, h, hne]
    · have heq : i = n := by omega
      simp [Function.update, heq]
  have hmap : ∀ (n k : Nat), k ≤ n + 1 →
      (List.range k).map (Function.update (memcpy (malloc uninit1) (fun i => p (l.toNat + i)) n) n 0)
        = (List.range k).map (Function.update (memcpy (malloc uninit2) (fun i => p (l.toNat + i)) n) n 0) := by
    intro n k hk
    apply List.map_congr_left
    intro i hi
    have hi2 : i < k := List.mem_range.mp hi
    rw [hcopy uninit1 n i (by omega), hcopy uninit2 n i (by omega)]
  simp only [read_string]
  rw [hmap _ _ (le_refl _), hmap _ _ (Nat.le_succ _)]

/-- A resolved bit offset is not negative. -/
theorem handle_negative_bit_offset_ok (N o s r : Int)
    (h : handle_negative_bit_offset N o s = Except.ok r) : 0 ≤ r := by
  simp only [handle_negative_bit_offset] at h
  by_cases h1 : o < 0
  · by_cases h2 : s ≤ 0
    · simp only [h1, h2, ↓reduceIte, reduceCtorEq] at h
    · by_cases h3 : N * 8 + o < 0
      · simp only [h1, h2, h3, ↓reduceIte, reduceCtorEq] at h
      · simp only [h1, h2, h3, ↓reduceIte, Except.ok.injEq] at h
        omega
  · simp only [h1, ↓reduceIte, Except.ok.injEq] at h
    omega

/-- A resolved bit size is positive. -/
theorem handle_bit_size_ok (N o s r : Int) (dt : DataType)
    (h : handle_bit_size N o s dt = Except.ok (some r)) : 0 < r := by
  simp only [handle_bit_size] at h
  by_cases h1 : s ≤ 0
  · by_cases h2 : dt = DataType.STRING ∨ dt = DataType.BLOCK
    · by_cases h3 : N * 8 - o + s = 0
      · simp only [h1, h2, h3, ↓reduceIte, Except.ok.injEq, reduceCtorEq] at h
      · by_cases h4 : N * 8 - o + s < 0
        · simp only [h1, h2, h3, h4, ↓reduceIte, reduceCtorEq] at h
        · simp only [h1, h2, h3, h4, ↓reduceIte, Except.ok.injEq, Option.some.injEq] at h
          omega
    · simp only [h1, h2, ↓reduceIte, reduceCtorEq] at h
  · simp only [h1, ↓reduceIte, Except.ok.injEq, Option.some.injEq] at h
    omega

/-- The result of a read does not depend on the initial contents of the allocated scratch memory. -/
theorem read_scratch_independent (host : Endianness) (uninit1 uninit2 : Nat → Nat) (bit_offset bit_size : Int)
    (dt : DataType) (buffer : List Nat) (hb : IsBytes buffer) (e : Endianness) :
    binary_accessor_read host uninit1 bit_offset bit_size dt buffer e
      = binary_accessor_read host uninit2 bit_offset bit_size dt buffer e := by
  have hp := RSTRING_PTR_bytes buffer hb
  cases hoff : handle_negative_bit_offset (RSTRING_LEN buffer) bit_offset bit_size with
  | error x => simp only [binary_accessor_read, hoff]
  | ok o' =>
    have ho' := handle_negative_bit_offset_ok _ _ _ _ hoff
    cases hsz : handle_bit_size (RSTRING_LEN buffer) o' bit_size dt with
    | error x => simp only [binary_accessor_read, hoff, hsz]
    | ok r =>
      cases r with
      | none => simp only [binary_accessor_read, hoff, hsz]
      | some w' =>
        have hw' := handle_bit_size_ok _ _ _ _ _ hsz
        obtain ⟨o, rfl⟩ := Int.eq_ofNat_of_zero_le ho'
        obtain ⟨w, rfl⟩ := Int.eq_ofNat_of_zero_le (le_of_lt hw')
        have hw : 1 ≤ w := by omega
        have h3 : (o : Int).tdiv 8 = ((o / 8 : Nat) : Int) := tdiv_cast o 8
        have h4 : ((o : Int) + (w : Int) - 1).tdiv 8 = (((o + w - 1) / 8 : Nat) : Int) := by
          rw [Int.tdiv_eq_ediv (by omega) (by norm_num)]; omega
        simp only [binary_accessor_read, hoff, hsz, h3, h4]
        rw [read_string_scratch uninit1 uninit2,
          read_uint_bitfield_value host uninit1 o w hw e _ hp,
          read_uint_bitfield_value host uninit2 o w hw e _ hp,
          read_int_bitfield_value host uninit1 o w hw e _ hp,
          read_int_bitfield_value host uninit2 o w hw e _ hp]

/-! ## The memory accesses: bounds of the helpers -/

theorem to_int_of_fits (x : Int) (h1 : -2 ^ 31 ≤ x) (h2 : x < 2 ^ 31) : to_int x = x := by
  unfold to_int
  omega

theorem int_add_of_fits (x y : Int) (h1 : -2 ^ 31 ≤ x + y) (h2 : x + y < 2 ^ 31) : int_add x y = x + y :=
  to_int_of_fits _ h1 h2

theorem int_sub_of_fits (x y : Int) (h1 : -2 ^ 31 ≤ x - y) (h2 : x - y < 2 ^ 31) : int_sub x y = x - y :=
  to_int_of_fits _ h1 h2

theorem int_mul_of_fits (x y : Int) (h1 : -2 ^ 31 ≤ x * y) (h2 : x * y < 2 ^ 31) : int_mul x y = x * y :=
  to_int_of_fits _ h1 h2

theorem to_size_t_le (x : Int) (h : 0 ≤ x) : ((to_size_t x : Nat) : Int) ≤ x := by
  unfold to_size_t
  omega

theorem allInBounds_nil (N A : Int) : AllInBounds N A [] := by
  intro a ha
  cases ha

theorem allInBounds_append (N A : Int) (s t : List Access) :
    AllInBounds N A (s ++ t) ↔ AllInBounds N A s ∧ AllInBounds N A t := by
  simp only [AllInBounds, List.mem_append]
  constructor
  · intro h
    exact ⟨fun a ha => h a (Or.inl ha), fun a ha => h a (Or.inr ha)⟩
  · rintro ⟨h1, h2⟩ a (ha | ha)
    · exact h1 a ha
    · exact h2 a ha

theorem allInBounds_flatten (N A : Int) (ls : List (List Access)) (h : ∀ l ∈ ls, AllInBounds N A l) :
    AllInBounds N A ls.flatten := by
  intro a ha
  obtain ⟨l, hl, hal⟩ := List.mem_flatten.mp ha
  exact h l hl a hal

theorem allInBounds_scratch (N A : Int) (l : List Int) (h : ∀ x ∈ l, 0 ≤ x ∧ x < A) :
    AllInBounds N A (l.map Access.Scratch) := by
  intro a ha
  obtain ⟨x, hx, rfl⟩ := List.mem_map.mp ha
  have := h x hx
  simp [in_bounds, this.1, this.2]

theorem allInBounds_buffer (N A : Int) (l : List Int) (h : ∀ x ∈ l, 0 ≤ x ∧ x < N) :
    AllInBounds N A (l.map Access.Buffer) := by
  intro a ha
  obtain ⟨x, hx, rfl⟩ := List.mem_map.mp ha
  have := h x hx
  simp [in_bounds, this.1, this.2]

theorem allInBounds_scratch_offset (N A index : Int) (l : List Int) (h : ∀ x ∈ l, 0 ≤ index + x ∧ index + x < A) :
    AllInBounds N A (l.map (fun i => Access.Scratch (index + i))) := by
  intro a ha
  obtain ⟨x, hx, rfl⟩ := List.mem_map.mp ha
  have := h x hx
  simp [in_bounds, this.1, this.2]

/-- The loop of `left_shift_byte_array` stays within the array. -/
theorem left_shift_accesses_fold (L : Int) (xs : List Nat) (hxs : ∀ c ∈ xs, (c : Int) < L) :
    ∀ st : List Int × Int, (∀ t ∈ st.1, 0 ≤ t ∧ t < L) → (0 ≤ st.2 ∧ st.2 < L) →
      ∀ t ∈ (xs.foldl left_shift_accesses_step st).1, 0 ≤ t ∧ t < L := by
  induction xs with
  | nil => intro st h1 _; simpa using h1
  | cons c cs ih =>
    intro st h1 h2
    rw [List.foldl_cons]
    have hc : (c : Int) < L := hxs c (List.mem_cons_self _ _)
    apply ih (fun d hd => hxs d (List.mem_cons_of_mem _ hd))
    · intro t ht
      simp only [left_shift_accesses_step] at ht
      split_ifs at ht
      · simp only [List.append_assoc, List.mem_append, List.mem_singleton] at ht
        rcases ht with ht | ht | ht | ht
        · exact h1 t ht
        · omega
        · omega
        · omega
      · simp only [List.append_assoc, List.mem_append, List.mem_singleton] at ht
        rcases ht with ht | ht | ht
        · exact h1 t ht
        · omega
        · omega
    · simp only [left_shift_accesses_step]
      omega

theorem left_shift_accesses_bound (L : Int) :
    ∀ t ∈ left_shift_byte_array_accesses L, 0 ≤ t ∧ t < L := by
  by_cases hL : 0 < L
  · apply left_shift_accesses_fold L _ _ ([], 0)
    · intro t ht; cases ht
    · exact ⟨le_refl _, hL⟩
    · intro c hc
      have := List.mem_range.mp hc
      omega
  · have h0 : L.toNat = 0 := by omega
    intro t ht
    simp [left_shift_byte_array_accesses, h0] at ht

/-- The loop of `unsigned_right_shift_byte_array` stays within the array. -/
theorem unsigned_right_shift_accesses_fold (L : Int) (xs : List Nat) (hxs : ∀ c ∈ xs, (c : Int) < L) :
    ∀ st : List Int × Int, (∀ t ∈ st.1, 0 ≤ t ∧ t < L) → (0 ≤ st.2 ∧ st.2 < L) →
      ∀ t ∈ (xs.foldl (unsigned_right_shift_accesses_step L) st).1, 0 ≤ t ∧ t < L := by
  induction xs with
  | nil => intro st h1 _; simpa using h1
  | cons c cs ih =>
    intro st h1 h2
    rw [List.foldl_cons]
    have hc : (c : Int) < L := hxs c (List.mem_cons_self _ _)
    apply ih (fun d hd => hxs d (List.mem_cons_of_mem _ hd))
    · intro t ht
      simp only [unsigned_right_shift_accesses_step] at ht
      split_ifs at ht
      · simp only [List.append_assoc, List.mem_append, List.mem_singleton] at ht
        rcases ht with ht | ht | ht | ht
        · exact h1 t ht
        · omega
        · omega
        · omega
      · simp only [List.append_assoc, List.mem_append, List.mem_singleton] at ht
        rcases ht with ht | ht | ht
        · exact h1 t ht
        · omega
        · omega
    · simp only [unsigned_right_shift_accesses_step]
      omega

theorem unsigned_right_shift_accesses_bound (L : Int) (hL : 0 < L) (hL2 : L < 2 ^ 31) :
    ∀ t ∈ unsigned_right_shift_byte_array_accesses L, 0 ≤ t ∧ t < L := by
  have hsub : int_sub L 1 = L - 1 := int_sub_of_fits _ _ (by omega) (by omega)
  apply unsigned_right_shift_accesses_fold L _ _ ([], 0)
  · intro t ht; cases ht
  · exact ⟨le_refl _, hL⟩
  · intro c hc
    have := List.mem_range.mp (List.mem_reverse.mp hc)
    rw [hsub] at this
    omega

theorem signed_right_shift_accesses_bound (L : Int) (hL : 0 < L) (hL2 : L < 2 ^ 31) :
    ∀ t ∈ signed_right_shift_byte_array_accesses L, 0 ≤ t ∧ t < L := by
  intro t ht
  simp only [signed_right_shift_byte_array_accesses, List.mem_append, List.mem_singleton] at ht
  rcases ht with (ht | ht) | ht
  · omega
  · exact unsigned_right_shift_accesses_bound L hL hL2 t ht
  · omega

theorem unsigned_shift_accesses_bound (L shift : Int) (hL : 0 < L) (hL2 : L < 2 ^ 31) :
    ∀ t ∈ unsigned_shift_byte_array_accesses L shift, 0 ≤ t ∧ t < L := by
  intro t ht
  simp only [unsigned_shift_byte_array_accesses] at ht
  split_ifs at ht
  · exact left_shift_accesses_bound L t ht
  · exact unsigned_right_shift_accesses_bound L hL hL2 t ht
  · cases ht

theorem reverse_bytes_accesses_bound (L : Int) (hL : 0 ≤ L) (hL2 : L < 2 ^ 31) :
    ∀ t ∈ reverse_bytes_accesses L, 0 ≤ t ∧ t < L := by
  intro t ht
  simp only [reverse_bytes_accesses, List.mem_flatten, List.mem_map, List.mem_range] at ht
  obtain ⟨l, ⟨c, hc, rfl⟩, ht⟩ := ht
  have hdiv : L.tdiv 2 = L / 2 := Int.tdiv_eq_ediv hL (by norm_num)
  rw [hdiv] at hc
  have h1 : int_sub L 1 = L - 1 := int_sub_of_fits _ _ (by omega) (by omega)
  have h2 : int_sub (L - 1) (c : Int) = L - 1 - c := int_sub_of_fits _ _ (by omega) (by omega)
  simp only [h1, h2, List.mem_cons, List.mem_singleton, List.not_mem_nil, or_false] at ht
  omega

/-- The index values of a word loop over `m` whole words starting at `start`. -/
theorem word_loop_mem (start : Int) (m : Int) (hm : 0 ≤ m) :
    ∀ x ∈ word_loop start (start + 4 * m), start ≤ x ∧ x + 4 ≤ start + 4 * m := by
  intro x hx
  simp only [word_loop, List.mem_map, List.mem_range] at hx
  obtain ⟨k, hk, rfl⟩ := hx
  have h : (start + 4 * m - start + 3).tdiv 4 = (4 * m + 3) / 4 := by
    rw [Int.tdiv_eq_ediv (by omega) (by norm_num)]
    congr 1
    omega
  rw [h] at hk
  omega

theorem word_accesses_bound (N A index : Int) (h0 : 0 ≤ index) (h1 : index + 4 ≤ A) :
    AllInBounds N A (word_accesses index) := by
  intro a ha
  simp only [word_accesses, List.mem_cons, List.mem_singleton, List.not_mem_nil, or_false] at ha
  rcases ha with rfl | rfl | rfl | rfl <;> simp [in_bounds] <;> omega

theorem reverse_words_accesses_bound (N A : Int) (m : Int) (hm : 0 ≤ m) (hA : 4 * m ≤ A) :
    AllInBounds N A (reverse_words_accesses (4 * m)) := by
  apply allInBounds_flatten
  intro l hl
  obtain ⟨index, hindex, rfl⟩ := List.mem_map.mp hl
  have hw := word_loop_mem 0 m hm index (by simpa using hindex)
  apply allInBounds_scratch_offset
  intro x hx
  have := reverse_bytes_accesses_bound 4 (by norm_num) (by norm_num) x hx
  omega

theorem memcpy_accesses_bound (N A lower num : Int) (hlow : 0 ≤ lower) (hnum : 0 ≤ num)
    (hN : lower + num ≤ N) (hA : num ≤ A) : AllInBounds N A (memcpy_accesses lower num) := by
  apply allInBounds_flatten
  intro l hl
  obtain ⟨i, hi, rfl⟩ := List.mem_map.mp hl
  have hi2 := List.mem_range.mp hi
  have hle := to_size_t_le num hnum
  intro a ha
  simp only [List.mem_cons, List.mem_singleton, List.not_mem_nil, or_false] at ha
  rcases ha with rfl | rfl <;> simp [in_bounds] <;> omega

/-! ## The memory accesses: the bitfield reader and the accessor -/

theorem allInBounds_singleton_scratch (N A i : Int) (h0 : 0 ≤ i) (h1 : i < A) :
    AllInBounds N A [Access.Scratch i] := by
  intro a ha
  simp only [List.mem_singleton] at ha
  subst ha
  simp [in_bounds, h0, h1]

theorem allInBounds_scratch_mono (N A B : Int) (l : List Int) (h : ∀ x ∈ l, 0 ≤ x ∧ x < B) (hAB : B ≤ A) :
    AllInBounds N A (l.map Access.Scratch) :=
  allInBounds_scratch N A l (fun x hx => ⟨(h x hx).1, lt_of_lt_of_le (h x hx).2 hAB⟩)

/-- The accesses of `read_bitfield` on a resolved request whose span the bounds check accepted. -/
theorem read_bitfield_accesses_bound (N o w : Int) (e : Endianness) (ho : 0 ≤ o) (ho2 : o < 2 ^ 30)
    (hw : 1 ≤ w) (hw2 : w < 2 ^ 30)
    (hfit : (o + w - 1) / 8 < N ∨ (e = Endianness.LITTLE_ENDIAN ∧ o / 8 < N))
    (trace : List Access)
    (h : read_bitfield_accesses (o / 8) ((o + w - 1) / 8) o w e = Except.ok trace) :
    AllInBounds N ((w - 1) / 8 + 5) trace := by
  have hm : o.tmod 8 = o % 8 := Int.tmod_eq_emod ho (by norm_num)
  have h1 : int_add (o % 8) w = o % 8 + w := int_add_of_fits _ _ (by omega) (by omega)
  have h2 : int_sub (o % 8 + w) 1 = o % 8 + w - 1 := int_sub_of_fits _ _ (by omega) (by omega)
  have h3 : (o % 8 + w - 1).tdiv 8 = (o % 8 + w - 1) / 8 := Int.tdiv_eq_ediv (by omega) (by norm_num)
  have h4 : int_add ((o % 8 + w - 1) / 8) 1 = (o % 8 + w - 1) / 8 + 1 :=
    int_add_of_fits _ _ (by omega) (by omega)
  have h5 : o.tdiv 8 = o / 8 := Int.tdiv_eq_ediv ho (by norm_num)
  have h6 : int_sub (o / 8) ((o % 8 + w - 1) / 8 + 1) = o / 8 - ((o % 8 + w - 1) / 8 + 1) :=
    int_sub_of_fits _ _ (by omega) (by omega)
  have h7 : int_add (o / 8 - ((o % 8 + w - 1) / 8 + 1)) 1 = o / 8 - ((o % 8 + w - 1) / 8 + 1) + 1 :=
    int_add_of_fits _ _ (by omega) (by omega)
  have h8 : int_sub ((o + w - 1) / 8) (o / 8) = (o + w - 1) / 8 - o / 8 :=
    int_sub_of_fits _ _ (by omega) (by omega)
  have h9 : int_add ((o + w - 1) / 8 - o / 8) 1 = (o + w - 1) / 8 - o / 8 + 1 :=
    int_add_of_fits _ _ (by omega) (by omega)
  have h10 : int_sub (o / 8) (o / 8 - ((o % 8 + w - 1) / 8 + 1) + 1)
      = o / 8 - (o / 8 - ((o % 8 + w - 1) / 8 + 1) + 1) := int_sub_of_fits _ _ (by omega) (by omega)
  have h11 : int_sub 0 (o % 8) = 0 - o % 8 := int_sub_of_fits _ _ (by omega) (by omega)
  simp only [read_bitfield_accesses, hm, h1, h2, h3, h4, h5, h6, h7, h8, h9, h10, h11] at h
  cases e with
  | BIG_ENDIAN =>
    have hup : (o + w - 1) / 8 < N := by
      rcases hfit with hf | ⟨hf, -⟩
      · exact hf
      · cases hf
    simp only [reduceCtorEq, ↓reduceIte, Except.ok.injEq] at h
    subst h
    rw [allInBounds_append, allInBounds_append]
    refine ⟨⟨?_, ?_⟩, ?_⟩
    · exact memcpy_accesses_bound _ _ _ _ (by omega) (by omega) (by omega) (by omega)
    · exact allInBounds_singleton_scratch _ _ _ (by omega) (by omega)
    · exact allInBounds_scratch_mono _ _ _ _
        (unsigned_shift_accesses_bound _ _ (by omega) (by omega)) (by omega)
  | LITTLE_ENDIAN =>
    have hup : o / 8 < N := by
      rcases hfit with hf | ⟨-, hf⟩
      · omega
      · exact hf
    by_cases hlow : o / 8 - ((o % 8 + w - 1) / 8 + 1) + 1 < 0
    · simp only [↓reduceIte, hlow, reduceCtorEq] at h
    · simp only [↓reduceIte, hlow, Except.ok.injEq] at h
      subst h
      rw [allInBounds_append, allInBounds_append, allInBounds_append]
      refine ⟨⟨⟨?_, ?_⟩, ?_⟩, ?_⟩
      · exact memcpy_accesses_bound _ _ _ _ (by omega) (by omega) (by omega) (by omega)
      · exact allInBounds_scratch_mono _ _ _ _
          (reverse_bytes_accesses_bound _ (by omega) (by omega)) (by omega)
      · exact allInBounds_singleton_scratch _ _ _ (by omega) (by omega)
      · exact allInBounds_scratch_mono _ _ _ _
          (unsigned_shift_accesses_bound _ _ (by omega) (by omega)) (by omega)

theorem mem_replicate_flatten (k : Nat) (l : List Int) : ∀ x ∈ (List.replicate k l).flatten, x ∈ l := by
  intro x hx
  obtain ⟨l2, hl2, hx2⟩ := List.mem_flatten.mp hx
  rw [List.eq_of_mem_replicate hl2] at hx2
  exact hx2

/-- The accesses of the accessor after `read_bitfield`, over the `m` words (`num_bytes = m * 4`) of
the scratch array: the byte shifts, the word reversal and the word reads. -/
theorem accessor_pieces_bound (N A m : Int) (hm : 1 ≤ m) (hm2 : m < 2 ^ 28) (hA : 4 * m ≤ A) (k : Nat) :
    AllInBounds N A (((List.replicate k (unsigned_right_shift_byte_array_accesses (m * 4))).flatten).map
        Access.Scratch) ∧
      AllInBounds N A ((unsigned_right_shift_byte_array_accesses (m * 4)).map Access.Scratch) ∧
      AllInBounds N A (((List.replicate k (signed_right_shift_byte_array_accesses (m * 4))).flatten).map
        Access.Scratch) ∧
      AllInBounds N A ((signed_right_shift_byte_array_accesses (m * 4)).map Access.Scratch) ∧
      AllInBounds N A (reverse_words_accesses (m * 4)) ∧
      AllInBounds N A (word_accesses 0) ∧
      AllInBounds N A ((word_loop 4 (m * 4)).map word_accesses).flatten := by
  have hu := unsigned_right_shift_accesses_bound (m * 4) (by omega) (by omega)
  have hs := signed_right_shift_accesses_bound (m * 4) (by omega) (by omega)
  refine ⟨?_, ?_, ?_, ?_, ?_, ?_, ?_⟩
  · exact allInBounds_scratch_mono _ _ _ _ (fun x hx => hu x (mem_replicate_flatten k _ x hx)) (by omega)
  · exact allInBounds_scratch_mono _ _ _ _ hu (by omega)
  · exact allInBounds_scratch_mono _ _ _ _ (fun x hx => hs x (mem_replicate_flatten k _ x hx)) (by omega)
  · exact allInBounds_scratch_mono _ _ _ _ hs (by omega)
  · have h4 : m * 4 = 4 * m := by ring
    rw [h4]
    exact reverse_words_accesses_bound N A m (by omega) hA
  · exact word_accesses_bound N A 0 (le_refl _) (by omega)
  · apply allInBounds_flatten
    intro l hl
    obtain ⟨index, hindex, rfl⟩ := List.mem_map.mp hl
    have h4 : m * 4 = 4 + 4 * (m - 1) := by ring
    rw [h4] at hindex
    have := word_loop_mem 4 (m - 1) (by omega) index hindex
    exact word_accesses_bound N A index (by omega) (by omega)

/-- The accesses of the `:UINT` bitfield path on a resolved request that passed the bounds check. -/
theorem read_uint_bitfield_accesses_bound (host : Endianness) (N o w : Int) (e : Endianness) (ho : 0 ≤ o)
    (ho2 : o < 2 ^ 30) (hw : 1 ≤ w) (hw2 : w < 2 ^ 30)
    (hfit : (o + w - 1) / 8 < N ∨ (e = Endianness.LITTLE_ENDIAN ∧ o / 8 < N))
    (trace : List Access)
    (h : read_uint_bitfield_accesses host (o / 8) ((o + w - 1) / 8) o w e = Except.ok trace) :
    AllInBounds N ((w - 1) / 8 + 5) trace := by
  have a1 : int_sub w 1 = w - 1 := int_sub_of_fits _ _ (by omega) (by omega)
  have a2 : (w - 1).tdiv 8 = (w - 1) / 8 := Int.tdiv_eq_ediv (by omega) (by norm_num)
  have a3 : int_add ((w - 1) / 8) 1 = (w - 1) / 8 + 1 := int_add_of_fits _ _ (by omega) (by omega)
  have a4 : int_sub ((w - 1) / 8 + 1) 1 = (w - 1) / 8 := by
    rw [int_sub_of_fits _ _ (by omega) (by omega)]; omega
  have a5 : ((w - 1) / 8).tdiv 4 = (w - 1) / 8 / 4 := Int.tdiv_eq_ediv (by omega) (by norm_num)
  have a6 : int_add ((w - 1) / 8 / 4) 1 = (w - 1) / 8 / 4 + 1 := int_add_of_fits _ _ (by omega) (by omega)
  have a7 : int_mul ((w - 1) / 8 / 4 + 1) 4 = ((w - 1) / 8 / 4 + 1) * 4 :=
    int_mul_of_fits _ _ (by omega) (by omega)
  obtain ⟨m, hmdef⟩ : ∃ m, m = (w - 1) / 8 / 4 + 1 := ⟨_, rfl⟩
  rw [← hmdef] at a6 a7
  simp only [read_uint_bitfield_accesses, a1, a2, a3, a4, a5, a6, a7] at h
  cases hrb : read_bitfield_accesses (o / 8) ((o + w - 1) / 8) o w e with
  | error x => simp only [hrb, reduceCtorEq] at h
  | ok t0 =>
    have hb0 := read_bitfield_accesses_bound N o w e ho ho2 hw hw2 hfit t0 hrb
    simp only [hrb] at h
    generalize ((int_sub (int_mul (m * 4) 8) w).tdiv 8).toNat = k at h
    obtain ⟨p1, p2, -, -, p5, p6, p7⟩ :=
      accessor_pieces_bound N ((w - 1) / 8 + 5) m (by omega) (by omega) (by omega) k
    split_ifs at h <;> simp only [Except.ok.injEq] at h <;> subst h <;>
      simp only [allInBounds_append, hb0, p1, p2, p5, p6, p7, and_self]

/-- The accesses of the `:INT` bitfield path on a resolved request that passed the bounds check. -/
theorem read_int_bitfield_accesses_bound (host : Endianness) (N o w : Int) (e : Endianness) (ho : 0 ≤ o)
    (ho2 : o < 2 ^ 30) (hw : 1 ≤ w) (hw2 : w < 2 ^ 30)
    (hfit : (o + w - 1) / 8 < N ∨ (e = Endianness.LITTLE_ENDIAN ∧ o / 8 < N))
    (trace : List Access)
    (h : read_int_bitfield_accesses host (o / 8) ((o + w - 1) / 8) o w e = Except.ok trace) :
    AllInBounds N ((w - 1) / 8 + 5) trace := by
  have a1 : int_sub w 1 = w - 1 := int_sub_of_fits _ _ (by omega) (by omega)
  have a2 : (w - 1).tdiv 8 = (w - 1) / 8 := Int.tdiv_eq_ediv (by omega) (by norm_num)
  have a3 : int_add ((w - 1) / 8) 1 = (w - 1) / 8 + 1 := int_add_of_fits _ _ (by omega) (by omega)
  have a4 : int_sub ((w - 1) / 8 + 1) 1 = (w - 1) / 8 := by
    rw [int_sub_of_fits _ _ (by omega) (by omega)]; omega
  have a5 : ((w - 1) / 8).tdiv 4 = (w - 1) / 8 / 4 := Int.tdiv_eq_ediv (by omega) (by norm_num)
  have a6 : int_add ((w - 1) / 8 / 4) 1 = (w - 1) / 8 / 4 + 1 := int_add_of_fits _ _ (by omega) (by omega)
  have a7 : int_mul ((w - 1) / 8 / 4 + 1) 4 = ((w - 1) / 8 / 4 + 1) * 4 :=
    int_mul_of_fits _ _ (by omega) (by omega)
  obtain ⟨m, hmdef⟩ : ∃ m, m = (w - 1) / 8 / 4 + 1 := ⟨_, rfl⟩
  rw [← hmdef] at a6 a7
  simp only [read_int_bitfield_accesses, a1, a2, a3, a4, a5, a6, a7] at h
  cases hrb : read_bitfield_accesses (o / 8) ((o + w - 1) / 8) o w e with
  | error x => simp only [hrb, reduceCtorEq] at h
  | ok t0 =>
    have hb0 := read_bitfield_accesses_bound N o w e ho ho2 hw hw2 hfit t0 hrb
    simp only [hrb] at h
    generalize ((int_sub (int_mul (m * 4) 8) w).tdiv 8).toNat = k at h
    obtain ⟨p1, p2, p3, p4, p5, p6, p7⟩ :=
      accessor_pieces_bound N ((w - 1) / 8 + 5) m (by omega) (by omega) (by omega) k
    split_ifs at h <;> simp only [Except.ok.injEq] at h <;> subst h <;>
      simp only [allInBounds_append, hb0, p1, p2, p3, p4, p5, p6, p7, and_self]

/-! ## The memory accesses: the whole read -/

theorem allInBounds_mono (N A B : Int) (trace : List Access) (h : AllInBounds N B trace) (hAB : B ≤ A) :
    AllInBounds N A trace := by
  intro a ha
  have hb := h a ha
  cases a with
  | Buffer i => simpa [in_bounds] using hb
  | Scratch i =>
    simp only [in_bounds, Bool.and_eq_true, decide_eq_true_eq] at hb ⊢
    omega

/-- What passing the sanity check of the buffer size means. -/
theorem buffer_too_short_false (N l u o w : Int) (dt : DataType) (e : Endianness)
    (h : ¬ (buffer_too_short N l u o w dt e = true)) :
    u < N ∨ (e = Endianness.LITTLE_ENDIAN ∧ (dt = DataType.INT ∨ dt = DataType.UINT) ∧
      ¬ (aligned_width o w = true) ∧ l < N) := by
  by_cases hu : u < N
  · exact Or.inl hu
  · right
    by_contra hc
    apply h
    have hge : u ≥ N := by omega
    simp only [buffer_too_short, hge, ↓reduceIte, hc]

theorem aligned_width_true (o w : Int) (h : aligned_width o w = true) :
    o.tmod 8 = 0 ∧ (w = 8 ∨ w = 16 ∨ w = 32 ∨ w = 64) := by
  simpa [aligned_width, or_assoc] using h

theorem read_aligned_32_accesses_bound (N A l u : Int) (hl : 0 ≤ l) (hlu : l + 3 = u) (hu : u < N)
    (h31 : u < 2 ^ 31) : AllInBounds N A ((read_aligned_32_accesses l u).map Access.Buffer) := by
  apply allInBounds_buffer
  intro x hx
  have e1 : int_sub u 1 = u - 1 := int_sub_of_fits _ _ (by omega) (by omega)
  have e2 : int_add l 1 = l + 1 := int_add_of_fits _ _ (by omega) (by omega)
  simp only [read_aligned_32_accesses, e1, e2, List.mem_cons, List.mem_singleton, List.not_mem_nil,
    or_false] at hx
  omega

theorem read_aligned_64_accesses_bound (N A l u : Int) (hl : 0 ≤ l) (hlu : l + 7 = u) (hu : u < N)
    (h31 : u < 2 ^ 31) : AllInBounds N A ((read_aligned_64_accesses l u).map Access.Buffer) := by
  apply allInBounds_buffer
  intro x hx
  have e1 : int_sub u 1 = u - 1 := int_sub_of_fits _ _ (by omega) (by omega)
  have e2 : int_sub u 2 = u - 2 := int_sub_of_fits _ _ (by omega) (by omega)
  have e3 : int_sub u 3 = u - 3 := int_sub_of_fits _ _ (by omega) (by omega)
  have e4 : int_add l 1 = l + 1 := int_add_of_fits _ _ (by omega) (by omega)
  have e5 : int_add l 2 = l + 2 := int_add_of_fits _ _ (by omega) (by omega)
  have e6 : int_add l 3 = l + 3 := int_add_of_fits _ _ (by omega) (by omega)
  simp only [read_aligned_64_accesses, e1, e2, e3, e4, e5, e6, List.mem_cons, List.mem_singleton,
    List.not_mem_nil, or_false] at hx
  omega

/-- The aligned readers stay within the buffer. -/
theorem read_aligned_accesses_bound (N A o w : Int) (ho : 0 ≤ o) (ho2 : o < 2 ^ 30) (hal : o % 8 = 0)
    (hw8 : w = 8 ∨ w = 16 ∨ w = 32 ∨ w = 64) (hup : (o + w - 1) / 8 < N) :
    AllInBounds N A (read_aligned_accesses (o / 8) ((o + w - 1) / 8) w) := by
  rcases hw8 with rfl | rfl | rfl | rfl
  · simp only [read_aligned_accesses, ↓reduceIte]
    intro a ha
    simp only [List.mem_singleton] at ha
    subst ha
    simp only [in_bounds, Bool.and_eq_true, decide_eq_true_eq]
    omega
  · simp only [read_aligned_accesses, ↓reduceIte, Int.reduceEq]
    apply allInBounds_buffer
    intro x hx
    simp only [read_aligned_16_accesses, List.mem_cons, List.mem_singleton, List.not_mem_nil,
      or_false] at hx
    omega
  · simp only [read_aligned_accesses, ↓reduceIte, Int.reduceEq]
    exact read_aligned_32_accesses_bound N A _ _ (by omega) (by omega) hup (by omega)
  · simp only [read_aligned_accesses, ↓reduceIte, Int.reduceEq]
    exact read_aligned_64_accesses_bound N A _ _ (by omega) (by omega) hup (by omega)

/-- The accesses of the dispatch on a resolved request. -/
theorem dispatch_accesses_bound (host : Endianness) (N A o w : Int) (dt : DataType) (e : Endianness)
    (ho : 0 ≤ o) (ho2 : o < 2 ^ 30) (hw : 1 ≤ w) (hw2 : w < 2 ^ 30)
    (hA : dt = DataType.INT ∨ dt = DataType.UINT → (w - 1) / 8 + 5 ≤ A) (trace : List Access)
    (h : dispatch_accesses host N o w dt e = Except.ok trace) : AllInBounds N A trace := by
  have d1 : o.tdiv 8 = o / 8 := Int.tdiv_eq_ediv ho (by norm_num)
  have d2 : int_add o w = o + w := int_add_of_fits _ _ (by omega) (by omega)
  have d3 : int_sub (o + w) 1 = o + w - 1 := int_sub_of_fits _ _ (by omega) (by omega)
  have d4 : (o + w - 1).tdiv 8 = (o + w - 1) / 8 := Int.tdiv_eq_ediv (by omega) (by norm_num)
  have d5 : o.tmod 8 = o % 8 := Int.tmod_eq_emod ho (by norm_num)
  have d6 : int_sub ((o + w - 1) / 8) (o / 8) = (o + w - 1) / 8 - o / 8 :=
    int_sub_of_fits _ _ (by omega) (by omega)
  have d7 : int_add ((o + w - 1) / 8 - o / 8) 1 = (o + w - 1) / 8 - o / 8 + 1 :=
    int_add_of_fits _ _ (by omega) (by omega)
  simp only [dispatch_accesses, d1, d2, d3, d4, d5, d6, d7] at h
  by_cases hshort : buffer_too_short N (o / 8) ((o + w - 1) / 8) o w dt e = true
  · simp only [hshort, ↓reduceIte, reduceCtorEq] at h
  · have hfit := buffer_too_short_false _ _ _ _ _ _ _ hshort
    simp only [hshort, Bool.false_eq_true, ↓reduceIte] at h
    by_cases hstr : dt = DataType.STRING ∨ dt = DataType.BLOCK
    · have hup : (o + w - 1) / 8 < N := by
        rcases hfit with hf | ⟨-, hdt, -, -⟩
        · exact hf
        · rcases hstr with rfl | rfl <;> rcases hdt with hdt | hdt <;> cases hdt
      simp only [hstr, ↓reduceIte] at h
      by_cases hal : o % 8 = 0
      · simp only [hal, ↓reduceIte, Except.ok.injEq] at h
        subst h
        intro a ha
        obtain ⟨i, hi, rfl⟩ := List.mem_map.mp ha
        have hi2 := List.mem_range.mp hi
        have hle := to_size_t_le ((o + w - 1) / 8 - o / 8 + 1) (by omega)
        simp only [in_bounds, Bool.and_eq_true, decide_eq_true_eq]
        omega
      · simp only [hal, ↓reduceIte, reduceCtorEq] at h
    · simp only [hstr, ↓reduceIte] at h
      have hfit2 : (o + w - 1) / 8 < N ∨ (e = Endianness.LITTLE_ENDIAN ∧ o / 8 < N) := by
        rcases hfit with hf | ⟨he, -, -, hl⟩
        · exact Or.inl hf
        · exact Or.inr ⟨he, hl⟩
      have hupal : aligned_width o w = true → (o + w - 1) / 8 < N := by
        intro hal
        rcases hfit with hf | ⟨-, -, hna, -⟩
        · exact hf
        · exact absurd hal hna
      by_cases hint : dt = DataType.INT
      · simp only [hint, ↓reduceIte] at h
        by_cases hal : aligned_width o w = true
        · simp only [hal, ↓reduceIte, Except.ok.injEq] at h
          subst h
          obtain ⟨h8, hw8⟩ := aligned_width_true o w hal
          rw [d5] at h8
          exact read_aligned_accesses_bound N A o w ho ho2 h8 hw8 (hupal hal)
        · simp only [hal, Bool.false_eq_true, ↓reduceIte] at h
          exact allInBounds_mono _ _ _ _
            (read_int_bitfield_accesses_bound host N o w e ho ho2 hw hw2 hfit2 trace h) (hA (Or.inl hint))
      · simp only [hint, ↓reduceIte] at h
        by_cases huint : dt = DataType.UINT
        · simp only [huint, ↓reduceIte] at h
          by_cases hal : aligned_width o w = true
          · simp only [hal, ↓reduceIte, Except.ok.injEq] at h
            subst h
            obtain ⟨h8, hw8⟩ := aligned_width_true o w hal
            rw [d5] at h8
            exact read_aligned_accesses_bound N A o w ho ho2 h8 hw8 (hupal hal)
          · simp only [hal, Bool.false_eq_true, ↓reduceIte] at h
            exact allInBounds_mono _ _ _ _
              (read_uint_bitfield_accesses_bound host N o w e ho ho2 hw hw2 hfit2 trace h)
              (hA (Or.inr huint))
        · simp only [huint, ↓reduceIte] at h
          have hup : (o + w - 1) / 8 < N := by
            rcases hfit with hf | ⟨-, hdt, -, -⟩
            · exact hf
            · rcases hdt with hdt | hdt
              · exact absurd hdt hint
              · exact absurd hdt huint
          by_cases hfl : dt = DataType.FLOAT
          · simp only [hfl, ↓reduceIte] at h
            by_cases hal : o % 8 = 0
            · simp only [hal, ↓reduceIte] at h
              by_cases h32 : w = 32
              · subst h32
                simp only [↓reduceIte, Except.ok.injEq] at h
                subst h
                exact read_aligned_32_accesses_bound N A _ _ (by omega) (by omega) hup (by omega)
              · simp only [h32, ↓reduceIte] at h
                by_cases h64 : w = 64
                · subst h64
                  simp only [↓reduceIte, Except.ok.injEq] at h
                  subst h
                  exact read_aligned_64_accesses_bound N A _ _ (by omega) (by omega) hup (by omega)
                · simp only [h64, ↓reduceIte, reduceCtorEq] at h
            · simp only [hal, ↓reduceIte, reduceCtorEq] at h
          · simp only [hfl, ↓reduceIte, reduceCtorEq] at h

/-- Within the `int` range the resolution of a negative bit offset is the exact one. -/
theorem handle_negative_bit_offset_int_eq (N o s : Int) (hN : 0 ≤ N) (hN2 : N < 2 ^ 27)
    (ho1 : -2 ^ 30 ≤ o) (ho2 : o < 2 ^ 30) :
    handle_negative_bit_offset_int N o s = handle_negative_bit_offset N o s := by
  have t1 : to_int N = N := to_int_of_fits _ (by omega) (by omega)
  have t2 : int_mul N 8 = N * 8 := int_mul_of_fits _ _ (by omega) (by omega)
  have t3 : int_add (N * 8) o = N * 8 + o := int_add_of_fits _ _ (by omega) (by omega)
  simp only [handle_negative_bit_offset_int, handle_negative_bit_offset, t1, t2, t3]

/-- Within the `int` range the resolution of a non-positive bit size is the exact one. -/
theorem handle_bit_size_int_eq (N o s : Int) (dt : DataType) (hN : 0 ≤ N) (hN2 : N < 2 ^ 27)
    (ho1 : 0 ≤ o) (ho2 : o < 2 ^ 30) (hs1 : -2 ^ 30 ≤ s) (hs2 : s < 2 ^ 30) :
    handle_bit_size_int N o s dt = handle_bit_size N o s dt := by
  have t1 : to_int N = N := to_int_of_fits _ (by omega) (by omega)
  have t2 : int_mul N 8 = N * 8 := int_mul_of_fits _ _ (by omega) (by omega)
  have t3 : int_sub (N * 8) o = N * 8 - o := int_sub_of_fits _ _ (by omega) (by omega)
  have t4 : int_add (N * 8 - o) s = N * 8 - o + s := int_add_of_fits _ _ (by omega) (by omega)
  simp only [handle_bit_size_int, handle_bit_size, t1, t2, t3, t4]

theorem handle_negative_bit_offset_range (N o s r : Int) (hN2 : N < 2 ^ 27) (ho2 : o < 2 ^ 30)
    (h : handle_negative_bit_offset N o s = Except.ok r) : 0 ≤ r ∧ r < 2 ^ 30 := by
  refine ⟨handle_negative_bit_offset_ok N o s r h, ?_⟩
  simp only [handle_negative_bit_offset] at h
  by_cases h1 : o < 0
  · by_cases h2 : s ≤ 0
    · simp only [h1, h2, ↓reduceIte, reduceCtorEq] at h
    · by_cases h3 : N * 8 + o < 0
      · simp only [h1, h2, h3, ↓reduceIte, reduceCtorEq] at h
      · simp only [h1, h2, h3, ↓reduceIte, Except.ok.injEq] at h
        omega
  · simp only [h1, ↓reduceIte, Except.ok.injEq] at h
    omega

theorem handle_bit_size_range (N o s r : Int) (dt : DataType) (hN2 : N < 2 ^ 27) (ho1 : 0 ≤ o)
    (hs2 : s < 2 ^ 30) (h : handle_bit_size N o s dt = Except.ok (some r)) :
    1 ≤ r ∧ r < 2 ^ 30 ∧ (dt = DataType.INT ∨ dt = DataType.UINT → r = s) := by
  have hpos := handle_bit_size_ok N o s r dt h
  simp only [handle_bit_size] at h
  by_cases h1 : s ≤ 0
  · by_cases h2 : dt = DataType.STRING ∨ dt = DataType.BLOCK
    · by_cases h3 : N * 8 - o + s = 0
      · simp only [h1, h2, h3, ↓reduceIte, Except.ok.injEq, reduceCtorEq] at h
      · by_cases h4 : N * 8 - o + s < 0
        · simp only [h1, h2, h3, h4, ↓reduceIte, reduceCtorEq] at h
        · simp only [h1, h2, h3, h4, ↓reduceIte, Except.ok.injEq, Option.some.injEq] at h
          refine ⟨by omega, by omega, ?_⟩
          intro hdt
          rcases h2 with rfl | rfl <;> rcases hdt with hdt | hdt <;> cases hdt
    · simp only [h1, h2, ↓reduceIte, reduceCtorEq] at h
  · simp only [h1, ↓reduceIte, Except.ok.injEq, Option.some.injEq] at h
    exact ⟨by omega, by omega, fun _ => h.symm⟩

theorem scratch_array_length_eq (s : Int) (h1 : 1 ≤ s) (h2 : s < 2 ^ 30) :
    scratch_array_length s = (s - 1) / 8 + 5 := by
  have a1 : int_sub s 1 = s - 1 := int_sub_of_fits _ _ (by omega) (by omega)
  have a2 : (s - 1).tdiv 8 = (s - 1) / 8 := Int.tdiv_eq_ediv (by omega) (by norm_num)
  have a3 : int_add ((s - 1) / 8) 1 = (s - 1) / 8 + 1 := int_add_of_fits _ _ (by omega) (by omega)
  have a4 : int_add ((s - 1) / 8 + 1) 4 = (s - 1) / 8 + 1 + 4 := int_add_of_fits _ _ (by omega) (by omega)
  simp only [scratch_array_length, a1, a2, a3, a4]
  omega

/-- Absent `int` overflow, a read stays within its buffer and within its scratch array: for a
buffer shorter than 2^27 bytes and a bit offset and bit size of magnitude below 2^30, every access
of a read that raises no error is within `[0, buffer length)` or within `[0, string_length + 4)`. -/
theorem accesses_in_bounds (host : Endianness) (o s : Int) (dt : DataType) (buffer : List Nat)
    (e : Endianness) (hlen : (buffer.length : Int) < 2 ^ 27) (ho1 : -2 ^ 30 ≤ o) (ho2 : o < 2 ^ 30)
    (hs1 : -2 ^ 30 ≤ s) (hs2 : s < 2 ^ 30) (trace : List Access)
    (h : binary_accessor_read_accesses host o s dt buffer e = Except.ok trace) :
    AllInBounds (RSTRING_LEN buffer) (scratch_array_length s) trace := by
  have hN : (0 : Int) ≤ RSTRING_LEN buffer := by simp [RSTRING_LEN]
  have hN2 : RSTRING_LEN buffer < 2 ^ 27 := hlen
  simp only [binary_accessor_read_accesses,
    handle_negative_bit_offset_int_eq _ o s hN hN2 ho1 ho2] at h
  cases hoff : handle_negative_bit_offset (RSTRING_LEN buffer) o s with
  | error x => simp only [hoff, reduceCtorEq] at h
  | ok o' =>
    obtain ⟨ho'1, ho'2⟩ := handle_negative_bit_offset_range _ _ _ _ hN2 ho2 hoff
    simp only [hoff, handle_bit_size_int_eq _ o' s dt hN hN2 ho'1 ho'2 hs1 hs2] at h
    cases hsz : handle_bit_size (RSTRING_LEN buffer) o' s dt with
    | error x => simp only [hsz, reduceCtorEq] at h
    | ok r =>
      cases r with
      | none =>
        simp only [hsz, Except.ok.injEq] at h
        subst h
        exact allInBounds_nil _ _
      | some w =>
        obtain ⟨hw1, hw2, hws⟩ := handle_bit_size_range _ _ _ _ _ hN2 ho'1 hs2 hsz
        simp only [hsz] at h
        apply dispatch_accesses_bound host _ _ o' w dt e ho'1 ho'2 hw1 hw2 _ trace h
        intro hdt
        have hsw := hws hdt
        subst hsw
        rw [scratch_array_length_eq w hw1 hw2]

/-- The accesses of an in-range read, for example the 12-bit field at bit offset 4 of a three-byte
buffer: there are accesses, to the buffer and to the scratch array, and all are in bounds. -/
theorem accesses_in_bounds_example :
    ∃ trace, binary_accessor_read_accesses Endianness.LITTLE_ENDIAN 4 12 DataType.INT [0x12, 0x34, 0x56]
        Endianness.BIG_ENDIAN = Except.ok trace ∧
      Access.Buffer 1 ∈ trace ∧ Access.Scratch 3 ∈ trace ∧
      AllInBounds (RSTRING_LEN [0x12, 0x34, 0x56]) (scratch_array_length 12) trace := by
  refine ⟨_, rfl, by decide, by decide, ?_⟩
  exact accesses_in_bounds Endianness.LITTLE_ENDIAN 4 12 DataType.INT [0x12, 0x34, 0x56]
    Endianness.BIG_ENDIAN (by decide) (by decide) (by decide) (by decide) (by decide) _ rfl

/-! ## The memory accesses and the result of a read

Absent `int` overflow the list of accesses follows the control flow of the read itself: a read
raises an error exactly when its list of accesses is that error. -/

theorem read_bitfield_outcome (l u o w : Int) (e : Endianness) (p m : Nat → Nat) (ho : 0 ≤ o)
    (ho2 : o < 2 ^ 30) (hw : 1 ≤ w) (hw2 : w < 2 ^ 30) :
    outcome (read_bitfield_accesses l u o w e) = outcome (read_bitfield l u o w e p m) := by
  have hm : o.tmod 8 = o % 8 := Int.tmod_eq_emod ho (by norm_num)
  have h1 : int_add (o % 8) w = o % 8 + w := int_add_of_fits _ _ (by omega) (by omega)
  have h2 : int_sub (o % 8 + w) 1 = o % 8 + w - 1 := int_sub_of_fits _ _ (by omega) (by omega)
  have h3 : (o % 8 + w - 1).tdiv 8 = (o % 8 + w - 1) / 8 := Int.tdiv_eq_ediv (by omega) (by norm_num)
  have h4 : int_add ((o % 8 + w - 1) / 8) 1 = (o % 8 + w - 1) / 8 + 1 :=
    int_add_of_fits _ _ (by omega) (by omega)
  have h5 : o.tdiv 8 = o / 8 := Int.tdiv_eq_ediv ho (by norm_num)
  have h6 : int_sub (o / 8) ((o % 8 + w - 1) / 8 + 1) = o / 8 - ((o % 8 + w - 1) / 8 + 1) :=
    int_sub_of_fits _ _ (by omega) (by omega)
  have h7 : int_add (o / 8 - ((o % 8 + w - 1) / 8 + 1)) 1 = o / 8 - ((o % 8 + w - 1) / 8 + 1) + 1 :=
    int_add_of_fits _ _ (by omega) (by omega)
  simp only [read_bitfield_accesses, read_bitfield, hm, h1, h2, h3, h4, h5, h6, h7]
  cases e with
  | BIG_ENDIAN => simp only [reduceCtorEq, ↓reduceIte, outcome]
  | LITTLE_ENDIAN =>
    by_cases hlow : o / 8 - ((o % 8 + w - 1) / 8 + 1) + 1 < 0
    · simp only [↓reduceIte, hlow, outcome]
    · simp only [↓reduceIte, hlow, outcome]

theorem read_uint_bitfield_outcome (host : Endianness) (uninit : Nat → Nat) (l u o w : Int) (e : Endianness)
    (p : Nat → Nat) (ho : 0 ≤ o) (ho2 : o < 2 ^ 30) (hw : 1 ≤ w) (hw2 : w < 2 ^ 30) :
    outcome (read_uint_bitfield_accesses host l u o w e) = outcome (read_uint_bitfield host uninit l u o w e p) := by
  have hrb := read_bitfield_outcome l u o w e p (malloc uninit) ho ho2 hw hw2
  simp only [read_uint_bitfield_accesses, read_uint_bitfield]
  cases ha : read_bitfield_accesses l u o w e with
  | error x =>
    cases hv : read_bitfield l u o w e p (malloc uninit) with
    | error y => simp only [ha, hv, outcome] at hrb ⊢; exact hrb
    | ok m => simp only [ha, hv, outcome, reduceCtorEq] at hrb
  | ok t =>
    cases hv : read_bitfield l u o w e p (malloc uninit) with
    | error y => simp only [ha, hv, outcome, reduceCtorEq] at hrb
    | ok m => simp only []; split_ifs <;> rfl

theorem read_int_bitfield_outcome (host : Endianness) (uninit : Nat → Nat) (l u o w : Int) (e : Endianness)
    (p : Nat → Nat) (ho : 0 ≤ o) (ho2 : o < 2 ^ 30) (hw : 1 ≤ w) (hw2 : w < 2 ^ 30) :
    outcome (read_int_bitfield_accesses host l u o w e) = outcome (read_int_bitfield host uninit l u o w e p) := by
  have hrb := read_bitfield_outcome l u o w e p (malloc uninit) ho ho2 hw hw2
  simp only [read_int_bitfield_accesses, read_int_bitfield]
  cases ha : read_bitfield_accesses l u o w e with
  | error x =>
    cases hv : read_bitfield l u o w e p (malloc uninit) with
    | error y => simp only [ha, hv, outcome] at hrb ⊢; exact hrb
    | ok m => simp only [ha, hv, outcome, reduceCtorEq] at hrb
  | ok t =>
    cases hv : read_bitfield l u o w e p (malloc uninit) with
    | error y => simp only [ha, hv, outcome, reduceCtorEq] at hrb
    | ok m => simp only []; split_ifs <;> rfl

/-- Absent `int` overflow, a read raises an error exactly when its list of accesses is that error. -/
theorem accesses_outcome (host : Endianness) (uninit : Nat → Nat) (o s : Int) (dt : DataType)
    (buffer : List Nat) (e : Endianness) (hlen : (buffer.length : Int) < 2 ^ 27) (ho1 : -2 ^ 30 ≤ o)
    (ho2 : o < 2 ^ 30) (hs1 : -2 ^ 30 ≤ s) (hs2 : s < 2 ^ 30) :
    outcome (binary_accessor_read_accesses host o s dt buffer e)
      = outcome (binary_accessor_read host uninit o s dt buffer e) := by
  have hN : (0 : Int) ≤ RSTRING_LEN buffer := by simp [RSTRING_LEN]
  have hN2 : RSTRING_LEN buffer < 2 ^ 27 := hlen
  simp only [binary_accessor_read_accesses, binary_accessor_read,
    handle_negative_bit_offset_int_eq _ o s hN hN2 ho1 ho2]
  cases hoff : handle_negative_bit_offset (RSTRING_LEN buffer) o s with
  | error x => rfl
  | ok o' =>
    obtain ⟨ho'1, ho'2⟩ := handle_negative_bit_offset_range _ _ _ _ hN2 ho2 hoff
    simp only [handle_bit_size_int_eq _ o' s dt hN hN2 ho'1 ho'2 hs1 hs2]
    cases hsz : handle_bit_size (RSTRING_LEN buffer) o' s dt with
    | error x => rfl
    | ok r =>
      cases r with
      | none => rfl
      | some w =>
        obtain ⟨hw1, hw2, -⟩ := handle_bit_size_range _ _ _ _ _ hN2 ho'1 hs2 hsz
        have d2 : int_add o' w = o' + w := int_add_of_fits _ _ (by omega) (by omega)
        have d3 : int_sub (o' + w) 1 = o' + w - 1 := int_sub_of_fits _ _ (by omega) (by omega)
        simp only [dispatch_accesses, d2, d3]
        by_cases hshort : buffer_too_short (RSTRING_LEN buffer) (o'.tdiv 8) ((o' + w - 1).tdiv 8) o' w dt e
            = true
        · simp only [hshort, ↓reduceIte, outcome]
        · simp only [hshort, Bool.false_eq_true, ↓reduceIte]
          by_cases hstr : dt = DataType.STRING ∨ dt = DataType.BLOCK
          · simp only [hstr, ↓reduceIte, read_string]
            split_ifs <;> rfl
          · simp only [hstr, ↓reduceIte]
            by_cases hint : dt = DataType.INT
            · simp only [hint, ↓reduceIte]
              by_cases hal : aligned_width o' w = true
              · simp only [hal, ↓reduceIte, outcome]
              · simp only [hal, Bool.false_eq_true, ↓reduceIte]
                exact read_int_bitfield_outcome host uninit _ _ o' w e _ ho'1 ho'2 hw1 hw2
            · simp only [hint, ↓reduceIte]
              by_cases huint : dt = DataType.UINT
              · simp only [huint, ↓reduceIte]
                by_cases hal : aligned_width o' w = true
                · simp only [hal, ↓reduceIte, outcome]
                · simp only [hal, Bool.false_eq_true, ↓reduceIte]
                  exact read_uint_bitfield_outcome host uninit _ _ o' w e _ ho'1 ho'2 hw1 hw2
              · simp only [huint, ↓reduceIte]
                by_cases hfl : dt = DataType.FLOAT
                · simp only [hfl, ↓reduceIte, read_float]
                  split_ifs <;> rfl
                · simp only [hfl, ↓reduceIte, outcome]

/-! ## Requests without `int` overflow

The functions that compute the result of a read use exact integer arithmetic; the code computes
the resolved bit offset (line 329), the resolved bit size (line 339) and `upper_bound` (line 352)
in 32-bit `int`.  The two agree on the requests below, on which no `int` computation of the read
overflows: there the list of accesses, which wraps to 32 bits, takes the same course as the read. -/

theorem in_range_intro (buffer : List Nat) (bit_offset bit_size : Int)
    (h1 : (buffer.length : Int) < 2 ^ 27) (h2 : -2 ^ 30 ≤ bit_offset) (h3 : bit_offset < 2 ^ 30)
    (h4 : -2 ^ 30 ≤ bit_size) (h5 : bit_size < 2 ^ 30) : InRange buffer bit_offset bit_size := by
  unfold InRange
  exact ⟨h1, h2, h3, h4, h5⟩

/-- On a request without `int` overflow the 32-bit computation of the code raises the same error
as the exact computation, or completes as it does. -/
theorem in_range_outcome (host : Endianness) (uninit : Nat → Nat) (o s : Int) (dt : DataType)
    (buffer : List Nat) (e : Endianness) (h : InRange buffer o s) :
    outcome (binary_accessor_read_accesses host o s dt buffer e)
      = outcome (binary_accessor_read host uninit o s dt buffer e) :=
  accesses_outcome host uninit o s dt buffer e h.1 h.2.1 h.2.2.1 h.2.2.2.1 h.2.2.2.2

/-- The accesses of a read depend on the buffer through its length only. -/
theorem accesses_of_length (host : Endianness) (o s : Int) (dt : DataType) (buffer : List Nat)
    (e : Endianness) (N : Nat) (hN : buffer.length = N) :
    binary_accessor_read_accesses host o s dt buffer e
      = match handle_negative_bit_offset_int (N : Int) o s with
        | Except.error x => Except.error x
        | Except.ok bit_offset =>
          match handle_bit_size_int (N : Int) bit_offset s dt with
          | Except.error x => Except.error x
          | Except.ok none => Except.ok []
          | Except.ok (some bit_size) => dispatch_accesses host (N : Int) bit_offset bit_size dt e := by
  subst hN
  rfl

/-! ## Claims -/

/-- Big-endian unsigned reads without `int` overflow: for every buffer of N < 2^27 bytes, every
bit offset `o ≥ 0` and bit size `w ≥ 1` with `o + w ≤ 8 * N`, the big-endian UINT read returns
`(B >> (8 * N - o - w)) mod 2 ^ w`, where `B` is the whole buffer as a big-endian integer; on the
aligned path and on the bitfield path, for either host byte order, for every width and whatever
the allocator left in the scratch array.  The 32-bit computation of the code completes as well. -/
theorem read_uint_big_endian_in_range (host : Endianness) (uninit : Nat → Nat) (buffer : List Nat)
    (hb : IsBytes buffer) (o w : Nat) (hw : 1 ≤ w) (hfit : o + w ≤ 8 * buffer.length)
    (hlen : (buffer.length : Int) < 2 ^ 27) :
    (binary_accessor_read host uninit o w DataType.UINT buffer Endianness.BIG_ENDIAN
      = Except.ok (Value.Integer
          (((be_value (RSTRING_PTR buffer) buffer.length / 2 ^ (8 * buffer.length - o - w)) % 2 ^ w : Nat) : Int))) ∧
      outcome (binary_accessor_read_accesses host o w DataType.UINT buffer Endianness.BIG_ENDIAN)
        = Except.ok () := by
  have hexact : binary_accessor_read host uninit o w DataType.UINT buffer Endianness.BIG_ENDIAN
      = Except.ok (Value.Integer
          (((be_value (RSTRING_PTR buffer) buffer.length / 2 ^ (8 * buffer.length - o - w)) % 2 ^ w : Nat) : Int)) := by
    have hp := RSTRING_PTR_bytes buffer hb
    rw [read_resolved host uninit o w hw]
    simp only [RSTRING_LEN, buffer_fits buffer.length o w _ _ hw hfit, reduceCtorEq, ↓reduceIte, or_self]
    generalize RSTRING_PTR buffer = p at hp ⊢
    generalize buffer.length = N at hfit ⊢
    by_cases hal : aligned_width (o : Int) (w : Int) = true
    · rw [if_pos hal]
      obtain ⟨ho, hw8⟩ := (aligned_width_iff o w).mp hal
      rw [read_uint_aligned_eq host _ o w p ho hw8]
      simp only [wire_value, reduceCtorEq, ↓reduceIte]
      have hN : N = o / 8 + w / 8 + (N - o / 8 - w / 8) := by omega
      have hsl := be_value_slice p hp (o / 8) (w / 8) (N - o / 8 - w / 8) 0 w (by omega)
      rw [← hN] at hsl
      have he : 8 * (N - o / 8 - w / 8) + 0 = 8 * N - o - w := by omega
      have hlt : be_value (fun i => p (o / 8 + i)) (w / 8) < 2 ^ w := by
        have := be_value_lt (fun i => p (o / 8 + i)) (w / 8) (fun j _ => hp _)
        rw [pow_256] at this
        have h8 : 8 * (w / 8) = w := by omega
        rwa [h8] at this
      rw [he, pow_zero, Nat.div_one, Nat.mod_eq_of_lt hlt] at hsl
      rw [hsl]
    · rw [if_neg hal]
      set num := (o + w - 1) / 8 - o / 8 + 1 with hnum
      have hrb := read_bitfield_big o w hw p (malloc uninit)
      have hs : o % 8 < 8 := by omega
      have hfit2 : o % 8 + w ≤ 8 * num := by omega
      have he : 8 * num - o % 8 - w < 8 := by omega
      have hm0 : ByteMem (memcpy (malloc uninit) (fun i => p (o / 8 + i)) num) :=
        memcpy_bytes _ _ _ (malloc_bytes uninit) (fun i => hp _)
      obtain ⟨hbt, -⟩ := bitfield_tail_value num (o % 8) w _ hm0 hs hfit2 he (by omega)
      rw [read_uint_bitfield_ok host uninit _ _ _ w hw _ p _ hrb hbt,
        field_of_tail num (o % 8) w _ hm0 hs hfit2 he hw, be_value_memcpy]
      have hN : N = o / 8 + num + (N - o / 8 - num) := by omega
      have hsl := be_value_slice p hp (o / 8) num (N - o / 8 - num) (8 * num - o % 8 - w) w (by omega)
      rw [← hN] at hsl
      have he2 : 8 * (N - o / 8 - num) + (8 * num - o % 8 - w) = 8 * N - o - w := by omega
      rw [he2] at hsl
      rw [hsl]
  refine ⟨hexact, ?_⟩
  rw [in_range_outcome host uninit o w DataType.UINT buffer Endianness.BIG_ENDIAN
    (in_range_intro buffer o w hlen (by omega) (by omega) (by omega) (by omega)), hexact]
  rfl

/-- C1 fails on the code for a buffer of 2^28 + 1 bytes.  The big-endian UINT read of the last 16
bits (bit offset 2147483640, so that `o + w = 8 * N`) should return the last two bytes; instead the
`int` sum `bit_offset + bit_size` of line 352 wraps, `upper_bound` is negative, the check of
line 358 passes and `read_aligned_16` reads `buffer[-268435455]`, outside the buffer. -/
theorem C1_overflow_out_of_bounds :
    (2147483640 : Nat) + 16 ≤ 8 * (List.replicate 268435457 (0xAB : Nat)).length ∧
      binary_accessor_read_accesses Endianness.LITTLE_ENDIAN 2147483640 16 DataType.UINT
          (List.replicate 268435457 0xAB) Endianness.BIG_ENDIAN
        = Except.ok [Access.Buffer (-268435455), Access.Buffer 268435455] ∧
      in_bounds (RSTRING_LEN (List.replicate 268435457 0xAB)) (scratch_array_length 16)
        (Access.Buffer (-268435455)) = false := by
  refine ⟨?_, ?_, ?_⟩
  · rw [List.length_replicate]
  · rw [accesses_of_length _ _ _ _ _ _ 268435457 (List.length_replicate _ _)]
    rfl
  · simp only [RSTRING_LEN, List.length_replicate]
    decide

/-- Little-endian aligned unsigned reads without `int` overflow: for every buffer of N < 2^27
bytes, every width `w` in {8, 16, 32, 64} and every byte-aligned bit offset `o ≥ 0` with
`o + w ≤ 8 * N`, the little-endian UINT read returns the sum over `i < w / 8` of
`buffer[o / 8 + i] * 256 ^ i`, whatever the byte order of the host.  The 32-bit computation of the
code completes as well. -/
theorem read_uint_little_endian_aligned_in_range (host : Endianness) (uninit : Nat → Nat) (buffer : List Nat)
    (o w : Nat) (hw : w = 8 ∨ w = 16 ∨ w = 32 ∨ w = 64) (ho : o % 8 = 0)
    (hfit : o + w ≤ 8 * buffer.length)
    (hlen : (buffer.length : Int) < 2 ^ 27) :
    (binary_accessor_read host uninit o w DataType.UINT buffer Endianness.LITTLE_ENDIAN
      = Except.ok (Value.Integer
          ((∑ i in Finset.range (w / 8), buffer.getD (o / 8 + i) 0 * 256 ^ i : Nat) : Int))) ∧
      outcome (binary_accessor_read_accesses host o w DataType.UINT buffer Endianness.LITTLE_ENDIAN)
        = Except.ok () := by
  have hexact : binary_accessor_read host uninit o w DataType.UINT buffer Endianness.LITTLE_ENDIAN
      = Except.ok (Value.Integer
          ((∑ i in Finset.range (w / 8), buffer.getD (o / 8 + i) 0 * 256 ^ i : Nat) : Int)) := by
    have hw1 : 1 ≤ w := by omega
    rw [read_resolved host uninit o w hw1]
    have hal : aligned_width (o : Int) (w : Int) = true := (aligned_width_iff o w).mpr ⟨ho, hw⟩
    simp only [RSTRING_LEN, buffer_fits buffer.length o w _ _ hw1 hfit, reduceCtorEq, ↓reduceIte, or_self, hal]
    rw [read_uint_aligned_eq host _ o w _ ho hw]
    simp only [wire_value, ↓reduceIte, le_value_eq_sum, RSTRING_PTR]
  refine ⟨hexact, ?_⟩
  rw [in_range_outcome host uninit o w DataType.UINT buffer Endianness.LITTLE_ENDIAN
    (in_range_intro buffer o w hlen (by omega) (by omega) (by omega) (by omega)), hexact]
  rfl

/-- C2 fails on the code for a buffer of 2^28 + 1 bytes.  The little-endian 16-bit UINT read at the
byte-aligned bit offset 2147483640 (`o + w = 8 * N`) should return the little-endian value of the
last two bytes; instead the `int` sum of line 352 wraps, the check of line 358 passes and
`read_aligned_16` reads `buffer[-268435455]`, outside the buffer. -/
theorem C2_overflow_out_of_bounds :
    (2147483640 : Nat) % 8 = 0 ∧
      (2147483640 : Nat) + 16 ≤ 8 * (List.replicate 268435457 (0xAB : Nat)).length ∧
      binary_accessor_read_accesses Endianness.BIG_ENDIAN 2147483640 16 DataType.UINT
          (List.replicate 268435457 0xAB) Endianness.LITTLE_ENDIAN
        = Except.ok [Access.Buffer (-268435455), Access.Buffer 268435455] ∧
      in_bounds (RSTRING_LEN (List.replicate 268435457 0xAB)) (scratch_array_length 16)
        (Access.Buffer (-268435455)) = false := by
  refine ⟨by decide, ?_, ?_, ?_⟩
  · rw [List.length_replicate]
  · rw [accesses_of_length _ _ _ _ _ _ 268435457 (List.length_replicate _ _)]
    rfl
  · simp only [RSTRING_LEN, List.length_replicate]
    decide

/-- C3: for every little-endian UINT bitfield (not a byte-aligned 8/16/32/64-bit field), with
`s = o mod 8`, `upper = o / 8`, `num_bytes = (s + w - 1) / 8 + 1` and `lower = upper - num_bytes + 1`:
whenever `lower ≥ 0` and `upper < N`, the read returns `(V >> (8 * num_bytes - s - w)) mod 2 ^ w`,
where `V` is the little-endian integer of `buffer[lower .. upper]`; the host byte order and the
initial contents of the scratch array do not matter. -/
theorem C3_read_uint_little_endian_bitfield (host : Endianness) (uninit : Nat → Nat) (buffer : List Nat)
    (hb : IsBytes buffer) (o w : Nat) (hw : 1 ≤ w)
    (hna : ¬ (o % 8 = 0 ∧ (w = 8 ∨ w = 16 ∨ w = 32 ∨ w = 64)))
    (hlower : (o % 8 + w - 1) / 8 + 1 ≤ o / 8 + 1) (hupper : o / 8 < buffer.length) :
    binary_accessor_read host uninit o w DataType.UINT buffer Endianness.LITTLE_ENDIAN
      = Except.ok (Value.Integer
          (((le_value (fun i => RSTRING_PTR buffer (o / 8 + 1 - ((o % 8 + w - 1) / 8 + 1) + i))
              ((o % 8 + w - 1) / 8 + 1) / 2 ^ (8 * ((o % 8 + w - 1) / 8 + 1) - o % 8 - w)) % 2 ^ w : Nat) : Int)) := by
  have hp := RSTRING_PTR_bytes buffer hb
  have hal : ¬ (aligned_width (o : Int) (w : Int) = true) := fun h => hna ((aligned_width_iff o w).mp h)
  rw [read_resolved host uninit o w hw]
  simp only [RSTRING_LEN, buffer_fits_little buffer.length o w _ (Or.inr rfl) hal hupper, reduceCtorEq,
    ↓reduceIte, or_self, hal]
  generalize RSTRING_PTR buffer = p at hp ⊢
  set num := (o % 8 + w - 1) / 8 + 1 with hnum
  have hrb := read_bitfield_little ((o / 8 : Nat) : Int) (((o + w - 1) / 8 : Nat) : Int) o w hw p (malloc uninit)
  rw [if_neg (by omega)] at hrb
  have hs : o % 8 < 8 := by omega
  have hfit2 : o % 8 + w ≤ 8 * num := by omega
  have he : 8 * num - o % 8 - w < 8 := by omega
  have hm0 : ByteMem (reverse_bytes (memcpy (malloc uninit) (fun i => p (o / 8 + 1 - num + i)) num) num) :=
    reverse_bytes_bytes _ _ (memcpy_bytes _ _ _ (malloc_bytes uninit) (fun i => hp _))
  obtain ⟨hbt, -⟩ := bitfield_tail_value num (o % 8) w _ hm0 hs hfit2 he (by omega)
  rw [read_uint_bitfield_ok host uninit _ _ _ w hw _ p _ hrb hbt,
    field_of_tail num (o % 8) w _ hm0 hs hfit2 he hw, be_value_reverse_memcpy]

theorem C3_read_uint_little_endian_bitfield_witness :
    IsBytes [0x80, 0x81, 0x82, 0x83, 0x84] ∧ 1 ≤ 13 ∧ ¬ (30 % 8 = 0 ∧ (13 = 8 ∨ 13 = 16 ∨ 13 = 32 ∨ 13 = 64)) ∧
      (30 % 8 + 13 - 1) / 8 + 1 ≤ 30 / 8 + 1 ∧ 30 / 8 < [0x80, 0x81, 0x82, 0x83, 0x84].length ∧
      binary_accessor_read Endianness.LITTLE_ENDIAN (fun _ => 0xFF) 30 13 DataType.UINT
        [0x80, 0x81, 0x82, 0x83, 0x84] Endianness.LITTLE_ENDIAN = Except.ok (Value.Integer 0x1C14) := by
  refine ⟨by decide, by decide, by decide, by decide, by decide, ?_⟩
  have h := C3_read_uint_little_endian_bitfield Endianness.LITTLE_ENDIAN (fun _ => 0xFF)
    [0x80, 0x81, 0x82, 0x83, 0x84] (by decide) 30 13 (by decide) (by decide) (by decide) (by decide)
  simpa [le_value, RSTRING_PTR] using h

/-- C4: for every buffer, endianness, bit offset and bit size `w ≥ 2` (aligned or bitfield, any
width), the INT read succeeds exactly when the UINT read succeeds on the same arguments, and the
INT result is the two's-complement reinterpretation of the UINT result `u` over `w` bits: `u` when
`u < 2 ^ (w - 1)`, and `u - 2 ^ w` otherwise. -/
theorem C4_int_reinterprets_uint (host : Endianness) (uninit : Nat → Nat) (buffer : List Nat)
    (hb : IsBytes buffer) (e : Endianness) (bit_offset : Int) (w : Nat) (hw : 2 ≤ w) :
    ((∃ v, binary_accessor_read host uninit bit_offset w DataType.INT buffer e = Except.ok v) ↔
      (∃ v, binary_accessor_read host uninit bit_offset w DataType.UINT buffer e = Except.ok v)) ∧
    (∀ v, binary_accessor_read host uninit bit_offset w DataType.UINT buffer e = Except.ok v →
      ∃ u : Nat, v = Value.Integer u ∧
        binary_accessor_read host uninit bit_offset w DataType.INT buffer e
          = Except.ok (Value.Integer (if u < 2 ^ (w - 1) then (u : Int) else (u : Int) - 2 ^ w))) := by
  rcases int_uint_any host uninit buffer hb e bit_offset w (by omega) with ⟨err, hu, hi⟩ | ⟨u, -, hu, hi⟩
  · rw [hu, hi]
    simp
  · rw [hu, hi, if_pos (by omega)]
    refine ⟨by simp, ?_⟩
    intro v hv
    refine ⟨u, ?_, rfl⟩
    injection hv with hv
    exact hv.symm

theorem C4_int_reinterprets_uint_witness :
    IsBytes [0x12, 0xF4, 0x56] ∧ 2 ≤ 7 ∧
      binary_accessor_read Endianness.LITTLE_ENDIAN (fun _ => 0) 8 7 DataType.UINT [0x12, 0xF4, 0x56]
        Endianness.BIG_ENDIAN = Except.ok (Value.Integer 122) ∧
      binary_accessor_read Endianness.LITTLE_ENDIAN (fun _ => 0) 8 7 DataType.INT [0x12, 0xF4, 0x56]
        Endianness.BIG_ENDIAN = Except.ok (Value.Integer (-6)) := by
  have hu : binary_accessor_read Endianness.LITTLE_ENDIAN (fun _ => 0) 8 7 DataType.UINT [0x12, 0xF4, 0x56]
      Endianness.BIG_ENDIAN = Except.ok (Value.Integer 122) := by rfl
  refine ⟨by decide, by decide, hu, ?_⟩
  obtain ⟨u, h1, h2⟩ := (C4_int_reinterprets_uint Endianness.LITTLE_ENDIAN (fun _ => 0) [0x12, 0xF4, 0x56]
    (by decide) Endianness.BIG_ENDIAN 8 7 (by decide)).2 _ hu
  have hu122 : u = 122 := by
    injection h1 with h1
    exact_mod_cast h1.symm
  subst hu122
  simpa using h2

/-- C5 fails as stated for a 1-bit field: at bit offset 1 of the buffer `[0x40]` the field's only
bit (its top bit) is set, the UINT read returns 1, and the INT read returns 1 as well, not the
negative value `1 - 2 ^ 1`. -/
theorem C5_counterexample :
    binary_accessor_read Endianness.LITTLE_ENDIAN (fun _ => 0) 1 1 DataType.UINT [0x40] Endianness.BIG_ENDIAN
        = Except.ok (Value.Integer 1) ∧
      binary_accessor_read Endianness.LITTLE_ENDIAN (fun _ => 0) 1 1 DataType.INT [0x40] Endianness.BIG_ENDIAN
        = Except.ok (Value.Integer 1) ∧
      ¬ (binary_accessor_read Endianness.LITTLE_ENDIAN (fun _ => 0) 1 1 DataType.INT [0x40]
          Endianness.BIG_ENDIAN = Except.ok (Value.Integer (1 - 2 ^ 1))) := by
  have hi : binary_accessor_read Endianness.LITTLE_ENDIAN (fun _ => 0) 1 1 DataType.INT [0x40]
      Endianness.BIG_ENDIAN = Except.ok (Value.Integer 1) := by rfl
  refine ⟨by rfl, hi, ?_⟩
  rw [hi]
  intro h
  injection h with h
  injection h with h
  exact absurd h (by decide)

/-- C5, amended: for every width `w` with `1 ≤ w ≤ 64` and every non-byte-aligned bit offset, in
both endiannesses, a UINT read never returns a negative value; for `w ≥ 2` an INT read of a field
whose top bit is set (UINT result at least `2 ^ (w - 1)`) returns the negative value equal to the
UINT result minus `2 ^ w`; for `w = 1` the INT read returns the UINT result (0 or 1). -/
theorem C5_sign_extension (host : Endianness) (uninit : Nat → Nat) (buffer : List Nat)
    (hb : IsBytes buffer) (e : Endianness) (bit_offset : Int) (w : Nat) (hw : 1 ≤ w) (hw64 : w ≤ 64)
    (hna : bit_offset % 8 ≠ 0) (u : Int)
    (hu : binary_accessor_read host uninit bit_offset w DataType.UINT buffer e = Except.ok (Value.Integer u)) :
    0 ≤ u ∧
      (2 ≤ w → 2 ^ (w - 1) ≤ u →
        binary_accessor_read host uninit bit_offset w DataType.INT buffer e
          = Except.ok (Value.Integer (u - 2 ^ w)) ∧ u - 2 ^ w < 0) ∧
      (w = 1 → binary_accessor_read host uninit bit_offset w DataType.INT buffer e
          = Except.ok (Value.Integer u)) := by
  rcases int_uint_any host uninit buffer hb e bit_offset w hw with ⟨err, hu', -⟩ | ⟨n, hn, hu', hi⟩
  · rw [hu] at hu'
    exact absurd hu' (by simp)
  · rw [hu] at hu'
    injection hu' with hu'
    injection hu' with hu'
    subst hu'
    refine ⟨by positivity, ?_, ?_⟩
    · intro h2 htop
      have hlt : ¬ (n < 2 ^ (w - 1)) := by
        intro hc
        have : (n : Int) < 2 ^ (w - 1) := by exact_mod_cast hc
        omega
      have hts : to_signed w n = (n : Int) - 2 ^ w := by simp only [to_signed, hlt, ↓reduceIte]
      rw [hi, if_pos (by omega), hts]
      refine ⟨rfl, ?_⟩
      have : (n : Int) < 2 ^ w := by exact_mod_cast hn
      omega
    · intro h1
      rw [hi, if_neg (by omega)]

theorem C5_sign_extension_witness :
    IsBytes [0x12, 0xF4, 0x56] ∧ 1 ≤ 7 ∧ 7 ≤ 64 ∧ (9 : Int) % 8 ≠ 0 ∧
      binary_accessor_read Endianness.BIG_ENDIAN (fun _ => 0) 9 7 DataType.UINT [0x12, 0xF4, 0x56]
        Endianness.BIG_ENDIAN = Except.ok (Value.Integer 116) ∧
      binary_accessor_read Endianness.BIG_ENDIAN (fun _ => 0) 9 7 DataType.INT [0x12, 0xF4, 0x56]
        Endianness.BIG_ENDIAN = Except.ok (Value.Integer (116 - 2 ^ 7)) := by
  have hu : binary_accessor_read Endianness.BIG_ENDIAN (fun _ => 0) 9 7 DataType.UINT [0x12, 0xF4, 0x56]
      Endianness.BIG_ENDIAN = Except.ok (Value.Integer 116) := by rfl
  refine ⟨by decide, by decide, by decide, by decide, hu, ?_⟩
  exact ((C5_sign_extension Endianness.BIG_ENDIAN (fun _ => 0) [0x12, 0xF4, 0x56] (by decide)
    Endianness.BIG_ENDIAN 9 7 (by decide) (by decide) (by decide) 116 hu).2.1 (by decide) (by decide)).1

/-- Negative bit offsets without `int` overflow: for every buffer of N < 2^27 bytes, data type,
endianness, bit size `0 < w < 2^30` and `k > 0` with `8 * N - k ≥ 0`, the reads at `-k` and at
`8 * N - k` have the same outcome (the same value or the same error).  In particular, for `N ≥ 1`,
the read of `(-8, 8)` has the outcome of the read of `((N - 1) * 8, 8)`, and as UINT it returns the
last byte of the buffer.  The 32-bit computation of the code has the same outcome. -/
theorem negative_offset_from_end_in_range (host : Endianness) (uninit : Nat → Nat) (buffer : List Nat)
    (dt : DataType) (e : Endianness) (w k : Nat) (hw : 0 < w) (hk : 0 < k) (hkN : k ≤ 8 * buffer.length)
    (hlen : (buffer.length : Int) < 2 ^ 27) (hw2 : w < 2 ^ 30) :
    (binary_accessor_read host uninit (-(k : Int)) w dt buffer e
        = binary_accessor_read host uninit (8 * (buffer.length : Int) - k) w dt buffer e ∧
      (1 ≤ buffer.length →
        binary_accessor_read host uninit (-8) 8 dt buffer e
            = binary_accessor_read host uninit (((buffer.length : Int) - 1) * 8) 8 dt buffer e ∧
          binary_accessor_read host uninit (-8) 8 DataType.UINT buffer e
            = Except.ok (Value.Integer (buffer.getD (buffer.length - 1) 0)))) ∧
      outcome (binary_accessor_read_accesses host (-(k : Int)) w dt buffer e)
        = outcome (binary_accessor_read host uninit (-(k : Int)) w dt buffer e) := by
  have hexact : binary_accessor_read host uninit (-(k : Int)) w dt buffer e
        = binary_accessor_read host uninit (8 * (buffer.length : Int) - k) w dt buffer e ∧
      (1 ≤ buffer.length →
        binary_accessor_read host uninit (-8) 8 dt buffer e
            = binary_accessor_read host uninit (((buffer.length : Int) - 1) * 8) 8 dt buffer e ∧
          binary_accessor_read host uninit (-8) 8 DataType.UINT buffer e
            = Except.ok (Value.Integer (buffer.getD (buffer.length - 1) 0))) := by
    constructor
    · rw [read_negative_offset host uninit k w hk hw, if_neg (by omega)]
      congr 1
      omega
    · intro hN
      have h8 : ∀ dt', binary_accessor_read host uninit (-8) 8 dt' buffer e
          = binary_accessor_read host uninit ((8 * buffer.length - 8 : Nat) : Int) ((8 : Nat) : Int) dt' buffer e := by
        intro dt'
        have h := read_negative_offset host uninit 8 8 (by norm_num) (by norm_num) dt' buffer e
        rw [if_neg (by omega)] at h
        exact h
      constructor
      · rw [h8]
        congr 1
        omega
      · rw [h8, read_resolved host uninit _ 8 (by norm_num)]
        have hal : aligned_width ((8 * buffer.length - 8 : Nat) : Int) ((8 : Nat) : Int) = true :=
          (aligned_width_iff _ 8).mpr ⟨by omega, Or.inl rfl⟩
        have hfit := buffer_fits buffer.length (8 * buffer.length - 8) 8 DataType.UINT e (by norm_num) (by omega)
        simp only [RSTRING_LEN, hfit, reduceCtorEq, ↓reduceIte, hal]
        rw [read_uint_aligned_eq host e _ 8 _ (by omega) (Or.inl rfl)]
        have hidx : (8 * buffer.length - 8) / 8 = buffer.length - 1 := by omega
        rw [hidx]
        cases e <;> simp [wire_value, be_value, le_value, RSTRING_PTR]
  exact ⟨hexact, in_range_outcome host uninit (-(k : Int)) w dt buffer e
    (in_range_intro buffer (-(k : Int)) w hlen (by omega) (by omega) (by omega) (by omega))⟩

/-- C6 fails on the code for a buffer of 2^28 + 1 bytes.  The read of `(-8, 8)` should return the
last byte; instead `(int)buffer_length * 8` of line 329 wraps to `-2147483640`, the resolved bit
offset is `-2147483648` and the read raises the buffer error of line 331. -/
theorem C6_overflow_buffer_error :
    1 ≤ (List.replicate 268435457 (0xAB : Nat)).length ∧
      int_mul (to_int ((268435457 : Nat) : Int)) 8 = -2147483640 ∧
      binary_accessor_read_accesses Endianness.LITTLE_ENDIAN (-8) 8 DataType.UINT
          (List.replicate 268435457 0xAB) Endianness.BIG_ENDIAN
        = Except.error ReadError.BufferError := by
  refine ⟨?_, by decide, ?_⟩
  · rw [List.length_replicate]
    decide
  · rw [accesses_of_length _ _ _ _ _ _ 268435457 (List.length_replicate _ _)]
    rfl

/-- Non-positive bit sizes without `int` overflow: for every buffer of N < 2^27 bytes, bit offset
`8 * i` and bit size `-8 * j` with `i + j < N`, the BLOCK read (and the STRING read when the span
contains no zero byte) returns exactly the `N - i - j` bytes `buffer[i .. N - j - 1]`.  The 32-bit
computation of the code has the same outcome. -/
theorem nonpositive_size_to_end_in_range (host : Endianness) (uninit : Nat → Nat) (buffer : List Nat)
    (e : Endianness) (i j : Nat) (hij : i + j < buffer.length)
    (hlen : (buffer.length : Int) < 2 ^ 27) :
    (binary_accessor_read host uninit ((8 * i : Nat) : Int) (-((8 * j : Nat) : Int)) DataType.BLOCK buffer e
        = Except.ok (Value.Str ((buffer.drop i).take (buffer.length - i - j))) ∧
      ((∀ b ∈ (buffer.drop i).take (buffer.length - i - j), b ≠ 0) →
        binary_accessor_read host uninit ((8 * i : Nat) : Int) (-((8 * j : Nat) : Int)) DataType.STRING buffer e
          = Except.ok (Value.Str ((buffer.drop i).take (buffer.length - i - j))))) ∧
      (∀ dt, outcome (binary_accessor_read_accesses host ((8 * i : Nat) : Int) (-((8 * j : Nat) : Int)) dt buffer e)
        = outcome (binary_accessor_read host uninit ((8 * i : Nat) : Int) (-((8 * j : Nat) : Int)) dt buffer e)) := by
  have hexact : binary_accessor_read host uninit ((8 * i : Nat) : Int) (-((8 * j : Nat) : Int)) DataType.BLOCK buffer e
        = Except.ok (Value.Str ((buffer.drop i).take (buffer.length - i - j))) ∧
      ((∀ b ∈ (buffer.drop i).take (buffer.length - i - j), b ≠ 0) →
        binary_accessor_read host uninit ((8 * i : Nat) : Int) (-((8 * j : Nat) : Int)) DataType.STRING buffer e
          = Except.ok (Value.Str ((buffer.drop i).take (buffer.length - i - j)))) := by
    have hres : (buffer.length : Int) * 8 - ((8 * i : Nat) : Int) + -((8 * j : Nat) : Int)
        = ((8 * (buffer.length - i - j) : Nat) : Int) := by omega
    have hsz : 1 ≤ 8 * (buffer.length - i - j) := by omega
    have hl : 8 * i / 8 = i := by omega
    have hu : (8 * i + 8 * (buffer.length - i - j) - 1) / 8 = buffer.length - j - 1 := by omega
    have hspan : (List.range ((((buffer.length - j - 1 : Nat) : Int) - ((i : Nat) : Int) + 1).toNat)).map
        (fun idx => RSTRING_PTR buffer (((i : Nat) : Int).toNat + idx)) = (buffer.drop i).take (buffer.length - i - j) := by
      have h1 : (((buffer.length - j - 1 : Nat) : Int) - ((i : Nat) : Int) + 1).toNat = buffer.length - i - j := by
        omega
      rw [h1, Int.toNat_ofNat]
      exact range_map_getD buffer i _ (by omega)
    have hread : ∀ dt, dt = DataType.STRING ∨ dt = DataType.BLOCK →
        binary_accessor_read host uninit ((8 * i : Nat) : Int) (-((8 * j : Nat) : Int)) dt buffer e
          = read_string uninit ((i : Nat) : Int) ((buffer.length - j - 1 : Nat) : Int) ((8 * i : Nat) : Int) dt
              (RSTRING_PTR buffer) := by
      intro dt hdt
      have hfit := buffer_fits buffer.length (8 * i) (8 * (buffer.length - i - j)) dt e hsz (by omega)
      rw [read_nonpositive_size host uninit (8 * i) _ (by omega) dt hdt, hres, if_neg (by omega), if_neg (by omega),
        read_resolved host uninit (8 * i) _ hsz]
      simp only [RSTRING_LEN]
      rw [if_neg hfit]
      simp only [hdt, ↓reduceIte, hl, hu]
    rcases read_string_relation uninit ((i : Nat) : Int) ((buffer.length - j - 1 : Nat) : Int)
      ((8 * i : Nat) : Int) (RSTRING_PTR buffer) with ⟨hb, -⟩ | ⟨hb, hs⟩
    · exfalso
      have hal : (((8 * i : Nat) : Int)).tmod 8 = 0 := by
        rw [Int.tmod_eq_emod (by omega) (by norm_num)]
        omega
      simp [read_string, hal] at hb
    · rw [hspan] at hb hs
      refine ⟨by rw [hread _ (Or.inr rfl), hb], ?_⟩
      intro hnz
      rw [hread _ (Or.inl rfl), hs]
      congr 2
      rw [List.takeWhile_eq_self_iff]
      intro b hb'
      simpa using hnz b hb'
  exact ⟨hexact, fun dt => in_range_outcome host uninit _ _ dt buffer e
    (in_range_intro buffer _ _ hlen (by omega) (by omega) (by omega) (by omega))⟩

/-- C7 fails on the code for a buffer of 2^28 bytes.  The BLOCK read of `(0, 0)` should return the
whole buffer; instead `(int)buffer_length * 8` of line 339 wraps to `-2147483648`, the resolved bit
size is negative and the read raises the buffer error of line 343. -/
theorem C7_overflow_buffer_error :
    0 + 0 < (List.replicate 268435456 (0x41 : Nat)).length ∧
      int_mul (to_int ((268435456 : Nat) : Int)) 8 = -2147483648 ∧
      binary_accessor_read_accesses Endianness.LITTLE_ENDIAN 0 0 DataType.BLOCK
          (List.replicate 268435456 0x41) Endianness.BIG_ENDIAN
        = Except.error ReadError.BufferError := by
  refine ⟨?_, by decide, ?_⟩
  · rw [List.length_replicate]
    decide
  · rw [accesses_of_length _ _ _ _ _ _ 268435456 (List.length_replicate _ _)]
    rfl

/-- C8: for the data types STRING and BLOCK, every bit offset `o ≥ 0` and bit size `s ≤ 0` whose
resolved size `8 * N - o + s` is exactly 0, the read returns the empty byte string at once: no
buffer error and no argument error, whatever the alignment of `o`. -/
theorem C8_resolved_size_zero_is_empty (host : Endianness) (uninit : Nat → Nat) (buffer : List Nat)
    (e : Endianness) (dt : DataType) (hdt : dt = DataType.STRING ∨ dt = DataType.BLOCK) (o : Nat) (s : Int)
    (hs : s ≤ 0) (hzero : 8 * (buffer.length : Int) - o + s = 0) :
    binary_accessor_read host uninit o s dt buffer e = Except.ok (Value.Str []) := by
  rw [read_nonpositive_size host uninit o s hs dt hdt, if_pos (by omega)]

theorem C8_resolved_size_zero_is_empty_witness :
    (DataType.STRING = DataType.STRING ∨ DataType.STRING = DataType.BLOCK) ∧ (-19 : Int) ≤ 0 ∧
      8 * (([72, 69, 76, 76, 79] : List Nat).length : Int) - (21 : Nat) + (-19) = 0 ∧
      binary_accessor_read Endianness.LITTLE_ENDIAN (fun _ => 0) (21 : Nat) (-19) DataType.STRING
        [72, 69, 76, 76, 79] Endianness.BIG_ENDIAN = Except.ok (Value.Str []) :=
  ⟨by decide, by decide, by decide,
    C8_resolved_size_zero_is_empty Endianness.LITTLE_ENDIAN (fun _ => 0) [72, 69, 76, 76, 79]
      Endianness.BIG_ENDIAN DataType.STRING (by decide) 21 (-19) (by decide) (by decide)⟩

/-- C9: for every buffer, bit offset and bit size on which a BLOCK read succeeds with byte string
`b`, the STRING read with the same arguments succeeds and returns the longest prefix of `b` that
contains no zero byte, while BLOCK returns the full span; hence STRING equals BLOCK exactly when
the span has no zero byte. -/
theorem C9_string_truncates_block (host : Endianness) (uninit : Nat → Nat) (buffer : List Nat)
    (e : Endianness) (bit_offset bit_size : Int) (v : Value)
    (hblock : binary_accessor_read host uninit bit_offset bit_size DataType.BLOCK buffer e = Except.ok v) :
    ∃ b : List Nat, v = Value.Str b ∧
      binary_accessor_read host uninit bit_offset bit_size DataType.STRING buffer e
        = Except.ok (Value.Str (b.takeWhile (fun x => x ≠ 0))) ∧
      (binary_accessor_read host uninit bit_offset bit_size DataType.STRING buffer e
          = binary_accessor_read host uninit bit_offset bit_size DataType.BLOCK buffer e ↔ ∀ x ∈ b, x ≠ 0) := by
  have key : ∃ b : List Nat, v = Value.Str b ∧
      binary_accessor_read host uninit bit_offset bit_size DataType.STRING buffer e
        = Except.ok (Value.Str (b.takeWhile (fun x => x ≠ 0))) := by
    unfold binary_accessor_read at hblock ⊢
    simp only [handle_bit_size_string_block, buffer_too_short_string_block] at hblock ⊢
    cases hoff : handle_negative_bit_offset (RSTRING_LEN buffer) bit_offset bit_size with
    | error err => simp only [hoff] at hblock; exact absurd hblock (by simp)
    | ok o =>
      simp only [hoff] at hblock ⊢
      cases hsz : handle_bit_size (RSTRING_LEN buffer) o bit_size DataType.BLOCK with
      | error err => simp only [hsz] at hblock; exact absurd hblock (by simp)
      | ok r =>
        cases r with
        | none =>
          simp only [hsz] at hblock ⊢
          injection hblock with hblock
          exact ⟨[], hblock.symm, rfl⟩
        | some s =>
          simp only [hsz, reduceCtorEq, or_true, true_or, ↓reduceIte] at hblock ⊢
          by_cases hshort : buffer_too_short (RSTRING_LEN buffer) (o.tdiv 8) ((o + s - 1).tdiv 8) o s
              DataType.BLOCK e = true
          · rw [if_pos hshort] at hblock
            exact absurd hblock (by simp)
          · rw [if_neg hshort] at hblock ⊢
            rcases read_string_relation uninit (o.tdiv 8) ((o + s - 1).tdiv 8) o (RSTRING_PTR buffer)
              with ⟨hb, -⟩ | ⟨hb, hs⟩
            · rw [hb] at hblock
              exact absurd hblock (by simp)
            · rw [hb] at hblock
              injection hblock with hblock
              exact ⟨_, hblock.symm, hs⟩
  obtain ⟨b, hv, hstr⟩ := key
  refine ⟨b, hv, hstr, ?_⟩
  rw [hstr, hblock, hv]
  constructor
  · intro h
    injection h with h
    injection h with h
    have := List.takeWhile_eq_self_iff.mp h
    intro x hx
    simpa using this x hx
  · intro h
    congr 2
    rw [List.takeWhile_eq_self_iff]
    intro x hx
    simpa using h x hx

theorem C9_string_truncates_block_witness :
    binary_accessor_read Endianness.LITTLE_ENDIAN (fun _ => 0) 8 24 DataType.BLOCK [72, 69, 0, 76, 79]
        Endianness.BIG_ENDIAN = Except.ok (Value.Str [69, 0, 76]) ∧
      binary_accessor_read Endianness.LITTLE_ENDIAN (fun _ => 0) 8 24 DataType.STRING [72, 69, 0, 76, 79]
        Endianness.BIG_ENDIAN = Except.ok (Value.Str [69]) := by
  have hb : binary_accessor_read Endianness.LITTLE_ENDIAN (fun _ => 0) 8 24 DataType.BLOCK [72, 69, 0, 76, 79]
      Endianness.BIG_ENDIAN = Except.ok (Value.Str [69, 0, 76]) := by rfl
  refine ⟨hb, ?_⟩
  obtain ⟨b, h1, h2, -⟩ := C9_string_truncates_block Endianness.LITTLE_ENDIAN (fun _ => 0) [72, 69, 0, 76, 79]
    Endianness.BIG_ENDIAN 8 24 _ hb
  injection h1 with h1
  subst h1
  simpa using h2

/-- The bounds check without `int` overflow: for every request with bit offset at least 0 and
bit size above 0 that is in range, with `lower_bound = bit_offset / 8` and
`upper_bound = (bit_offset + bit_size - 1) / 8`, the read fails with a buffer error if and only if
`upper_bound ≥ N` and it is not the case that the endianness is LITTLE_ENDIAN, the data type is INT
or UINT, the field is not a byte-aligned 8/16/32/64-bit width, and `lower_bound < N`; no argument
error of the later dispatch comes first.  The same holds of the 32-bit computation of the code. -/
theorem bounds_check_in_range (host : Endianness) (uninit : Nat → Nat) (buffer : List Nat) (dt : DataType)
    (e : Endianness) (o w : Nat) (hw : 0 < w)
    (hr : InRange buffer o w) :
    (binary_accessor_read host uninit o w dt buffer e = Except.error ReadError.BufferError ↔
      (buffer.length ≤ (o + w - 1) / 8 ∧
        ¬ (e = Endianness.LITTLE_ENDIAN ∧ (dt = DataType.INT ∨ dt = DataType.UINT) ∧
            ¬ (o % 8 = 0 ∧ (w = 8 ∨ w = 16 ∨ w = 32 ∨ w = 64)) ∧ o / 8 < buffer.length))) ∧
      (outcome (binary_accessor_read_accesses host o w dt buffer e) = Except.error ReadError.BufferError ↔
        (buffer.length ≤ (o + w - 1) / 8 ∧
          ¬ (e = Endianness.LITTLE_ENDIAN ∧ (dt = DataType.INT ∨ dt = DataType.UINT) ∧
              ¬ (o % 8 = 0 ∧ (w = 8 ∨ w = 16 ∨ w = 32 ∨ w = 64)) ∧ o / 8 < buffer.length))) := by
  have hexact : binary_accessor_read host uninit o w dt buffer e = Except.error ReadError.BufferError ↔
      (buffer.length ≤ (o + w - 1) / 8 ∧
        ¬ (e = Endianness.LITTLE_ENDIAN ∧ (dt = DataType.INT ∨ dt = DataType.UINT) ∧
            ¬ (o % 8 = 0 ∧ (w = 8 ∨ w = 16 ∨ w = 32 ∨ w = 64)) ∧ o / 8 < buffer.length)) := by
    rw [← buffer_too_short_iff buffer.length o w dt e, read_resolved host uninit o w hw]
    simp only [RSTRING_LEN]
    by_cases hshort : buffer_too_short (buffer.length : Int) ((o / 8 : Nat) : Int) (((o + w - 1) / 8 : Nat) : Int)
        o w dt e = true
    · rw [if_pos hshort]
      exact ⟨fun _ => hshort, fun _ => rfl⟩
    · rw [if_neg hshort]
      refine ⟨fun h => ?_, fun h => absurd h hshort⟩
      exfalso
      split_ifs at h with h1
      all_goals first
        | cases h
        | exact absurd (read_int_bitfield_error _ _ _ _ _ _ _ _ _ h) (by decide)
        | exact absurd (read_uint_bitfield_error _ _ _ _ _ _ _ _ _ h) (by decide)
        | (simp only [read_float] at h
           split_ifs at h <;> cases h)
        | (rcases read_string_relation uninit ((o / 8 : Nat) : Int) (((o + w - 1) / 8 : Nat) : Int) o
             (RSTRING_PTR buffer) with ⟨hb, hs⟩ | ⟨hb, hs⟩ <;>
           rcases h1 with rfl | rfl <;> simp_all)
  refine ⟨hexact, ?_⟩
  rw [← hexact, in_range_outcome host uninit o w dt buffer e hr]
  cases binary_accessor_read host uninit o w dt buffer e with
  | ok v => simp [outcome]
  | error x => simp [outcome]

/-- C10 fails on the code.  The FLOAT read of 16 bits at bit offset 2147483640 of a two-byte buffer
has `upper_bound = 268435456 ≥ 2` and is no little-endian bitfield, so it should fail with a buffer
error; instead the `int` sum `bit_offset + bit_size` of line 352 wraps to `-2147483640`, the check
of line 358 passes and the read raises the argument error about the bit size of a FLOAT. -/
theorem C10_overflow_passes_bounds_check :
    ([0, 0] : List Nat).length ≤ (2147483640 + 16 - 1) / 8 ∧
      int_add 2147483640 16 = -2147483640 ∧
      binary_accessor_read_accesses Endianness.LITTLE_ENDIAN 2147483640 16 DataType.FLOAT [0, 0]
          Endianness.BIG_ENDIAN
        = Except.error (ReadError.ArgError ArgReason.FloatBitSize) :=
  ⟨by decide, by decide, rfl⟩

/-- C11 fails as stated: on the one-byte buffer `[0xFF]` the little-endian 12-bit UINT field at bit
offset 0 has `upper_bound = 1 ≥ 1` and `lower_bound = 0` within the buffer, yet the read does not
succeed: `read_bitfield` raises the argument error for a span that starts before the buffer. -/
theorem C11_counterexample :
    ([0xFF] : List Nat).length ≤ (0 + 12 - 1) / 8 ∧ 0 / 8 < ([0xFF] : List Nat).length ∧
      binary_accessor_read Endianness.LITTLE_ENDIAN (fun _ => 0) 0 12 DataType.UINT [0xFF]
        Endianness.LITTLE_ENDIAN = Except.error (ReadError.ArgError ArgReason.LittleEndianBitfieldInvalid) :=
  ⟨by decide, by decide, by rfl⟩

/-- C11, amended: for every LITTLE_ENDIAN INT or UINT field without `int` overflow that is not a
byte-aligned 8/16/32/64-bit width and whose `upper_bound = (o + w - 1) / 8` is at least the buffer
length `N`:
the read fails with a buffer error when `lower_bound = o / 8` is not within the buffer; when
`lower_bound` is within the buffer it returns the decoded value provided the little-endian span of
`num_bytes = (o mod 8 + w - 1) / 8 + 1` bytes ending at byte `o / 8` does not start before the
buffer, and fails with an argument error when that span starts before the buffer.  The 32-bit
computation of the code has the same outcome. -/
theorem C11_little_endian_tolerance (host : Endianness) (uninit : Nat → Nat) (buffer : List Nat)
    (hb : IsBytes buffer) (o w : Nat) (hw : 1 ≤ w)
    (hna : ¬ (o % 8 = 0 ∧ (w = 8 ∨ w = 16 ∨ w = 32 ∨ w = 64)))
    (hover : buffer.length ≤ (o + w - 1) / 8) (hr : InRange buffer o w) :
    (buffer.length ≤ o / 8 → ∀ dt, dt = DataType.INT ∨ dt = DataType.UINT →
        binary_accessor_read host uninit o w dt buffer Endianness.LITTLE_ENDIAN
          = Except.error ReadError.BufferError) ∧
      (o / 8 < buffer.length → (o % 8 + w - 1) / 8 + 1 ≤ o / 8 + 1 →
        ∃ u : Nat,
          u = (le_value (fun i => RSTRING_PTR buffer (o / 8 + 1 - ((o % 8 + w - 1) / 8 + 1) + i))
                ((o % 8 + w - 1) / 8 + 1) / 2 ^ (8 * ((o % 8 + w - 1) / 8 + 1) - o % 8 - w)) % 2 ^ w ∧
          binary_accessor_read host uninit o w DataType.UINT buffer Endianness.LITTLE_ENDIAN
            = Except.ok (Value.Integer u) ∧
          binary_accessor_read host uninit o w DataType.INT buffer Endianness.LITTLE_ENDIAN
            = Except.ok (Value.Integer (if 1 < w then to_signed w u else (u : Int)))) ∧
      (o / 8 < buffer.length → o / 8 + 1 < (o % 8 + w - 1) / 8 + 1 →
        ∀ dt, dt = DataType.INT ∨ dt = DataType.UINT →
          binary_accessor_read host uninit o w dt buffer Endianness.LITTLE_ENDIAN
            = Except.error (ReadError.ArgError ArgReason.LittleEndianBitfieldInvalid)) ∧
      (∀ dt, outcome (binary_accessor_read_accesses host o w dt buffer Endianness.LITTLE_ENDIAN)
        = outcome (binary_accessor_read host uninit o w dt buffer Endianness.LITTLE_ENDIAN)) := by
  have hp := RSTRING_PTR_bytes buffer hb
  have hal : ¬ (aligned_width (o : Int) (w : Int) = true) := fun h => hna ((aligned_width_iff o w).mp h)
  refine ⟨?_, ?_, ?_, fun dt => in_range_outcome host uninit o w dt buffer _ hr⟩
  · intro hlow dt hdt
    have hs : buffer_too_short (buffer.length : Int) ((o / 8 : Nat) : Int) (((o + w - 1) / 8 : Nat) : Int)
        o w dt Endianness.LITTLE_ENDIAN = true := by
      rw [buffer_too_short_iff]
      exact ⟨hover, fun h => absurd h.2.2.2 (by omega)⟩
    rw [read_resolved host uninit o w hw]
    simp only [RSTRING_LEN]
    rw [if_pos hs]
  · intro hlow hspan
    set num := (o % 8 + w - 1) / 8 + 1 with hnum
    have hrb := read_bitfield_little ((o / 8 : Nat) : Int) (((o + w - 1) / 8 : Nat) : Int) o w hw
      (RSTRING_PTR buffer) (malloc uninit)
    rw [if_neg (by omega)] at hrb
    have hs : o % 8 < 8 := by omega
    have hfit2 : o % 8 + w ≤ 8 * num := by omega
    have he : 8 * num - o % 8 - w < 8 := by omega
    have hm0 : ByteMem (reverse_bytes (memcpy (malloc uninit)
        (fun i => RSTRING_PTR buffer (o / 8 + 1 - num + i)) num) num) :=
      reverse_bytes_bytes _ _ (memcpy_bytes _ _ _ (malloc_bytes uninit) (fun i => hp _))
    obtain ⟨hbt, -⟩ := bitfield_tail_value num (o % 8) w _ hm0 hs hfit2 he (by omega)
    refine ⟨_, rfl, ?_, ?_⟩
    · rw [read_resolved host uninit o w hw]
      simp only [RSTRING_LEN, buffer_fits_little buffer.length o w _ (Or.inr rfl) hal hlow, reduceCtorEq,
        ↓reduceIte, or_self, hal]
      rw [read_uint_bitfield_ok host uninit _ _ _ w hw _ _ _ hrb hbt,
        field_of_tail num (o % 8) w _ hm0 hs hfit2 he hw, be_value_reverse_memcpy]
    · rw [read_resolved host uninit o w hw]
      simp only [RSTRING_LEN, buffer_fits_little buffer.length o w _ (Or.inl rfl) hal hlow, reduceCtorEq,
        ↓reduceIte, or_self, hal]
      rw [read_int_bitfield_ok host uninit _ _ _ w hw _ _ _ hrb hbt,
        field_of_tail num (o % 8) w _ hm0 hs hfit2 he hw, be_value_reverse_memcpy]
  · intro hlow hspan dt hdt
    have hrb := read_bitfield_little ((o / 8 : Nat) : Int) (((o + w - 1) / 8 : Nat) : Int) o w hw
      (RSTRING_PTR buffer) (malloc uninit)
    rw [if_pos hspan] at hrb
    rw [read_resolved host uninit o w hw]
    simp only [RSTRING_LEN]
    rw [if_neg (buffer_fits_little buffer.length o w dt hdt hal hlow)]
    rcases hdt with rfl | rfl
    · simp only [reduceCtorEq, or_self, ↓reduceIte, hal, read_int_bitfield, hrb]
    · simp only [reduceCtorEq, or_self, ↓reduceIte, hal, read_uint_bitfield, hrb]

theorem C11_little_endian_tolerance_witness :
    IsBytes [0x12, 0x34] ∧ 1 ≤ 12 ∧ ¬ (12 % 8 = 0 ∧ (12 = 8 ∨ 12 = 16 ∨ 12 = 32 ∨ 12 = 64)) ∧
      ([0x12, 0x34] : List Nat).length ≤ (12 + 12 - 1) / 8 ∧ InRange [0x12, 0x34] (12 : Nat) (12 : Nat) ∧
      12 / 8 < ([0x12, 0x34] : List Nat).length ∧
      (12 % 8 + 12 - 1) / 8 + 1 ≤ 12 / 8 + 1 ∧
      binary_accessor_read Endianness.BIG_ENDIAN (fun _ => 0) 12 12 DataType.UINT [0x12, 0x34]
        Endianness.LITTLE_ENDIAN = Except.ok (Value.Integer 0x412) := by
  refine ⟨by decide, by decide, by decide, by decide, by decide, by decide, by decide, ?_⟩
  obtain ⟨u, hu, h, -⟩ := (C11_little_endian_tolerance Endianness.BIG_ENDIAN (fun _ => 0) [0x12, 0x34]
    (by decide) 12 12 (by decide) (by decide) (by decide) (by decide)).2.1 (by decide) (by decide)
  have hu2 : u = 0x412 := by
    rw [hu]
    simp [le_value, RSTRING_PTR]
  rw [hu2] at h
  simpa using h

/-- C12: for every data type other than STRING and BLOCK, every bit size `≤ 0`, every bit offset
(negative or not) and every buffer, the read fails with an argument error: never a buffer error and
never a value. -/
theorem C12_nonpositive_size_is_argument_error (host : Endianness) (uninit : Nat → Nat)
    (buffer : List Nat) (e : Endianness) (dt : DataType) (h1 : dt ≠ DataType.STRING)
    (h2 : dt ≠ DataType.BLOCK) (bit_offset bit_size : Int) (hs : bit_size ≤ 0) :
    binary_accessor_read host uninit bit_offset bit_size dt buffer e
      = Except.error (ReadError.ArgError
          (if bit_offset < 0 then ArgReason.NegativeOffsetNonPositiveSize else ArgReason.NonPositiveSize)) := by
  by_cases hneg : bit_offset < 0
  · rw [if_pos hneg]
    exact read_negative_nonpositive host uninit bit_offset bit_size hneg hs dt buffer e
  · rw [if_neg hneg]
    exact read_nonpositive_other host uninit bit_offset bit_size (by omega) hs dt h1 h2 buffer e

theorem C12_nonpositive_size_is_argument_error_witness :
    DataType.UINT ≠ DataType.STRING ∧ DataType.UINT ≠ DataType.BLOCK ∧ (0 : Int) ≤ 0 ∧
      binary_accessor_read Endianness.LITTLE_ENDIAN (fun _ => 0) 400 0 DataType.UINT [1, 2]
        Endianness.BIG_ENDIAN = Except.error (ReadError.ArgError ArgReason.NonPositiveSize) := by
  refine ⟨by decide, by decide, by decide, ?_⟩
  have h := C12_nonpositive_size_is_argument_error Endianness.LITTLE_ENDIAN (fun _ => 0) [1, 2]
    Endianness.BIG_ENDIAN DataType.UINT (by decide) (by decide) 400 0 (by decide)
  simpa using h

/-- C13 fails as stated: the STRING read at the misaligned bit offset 12 with 16 bits of a
three-byte buffer fails with a buffer error, not an argument error, and the STRING read at the
misaligned offset 21 with bit size -19 of a five-byte buffer returns the empty string. -/
theorem C13_counterexample :
    (12 : Int) % 8 ≠ 0 ∧
      binary_accessor_read Endianness.LITTLE_ENDIAN (fun _ => 0) 12 16 DataType.STRING [1, 2, 3]
        Endianness.BIG_ENDIAN = Except.error ReadError.BufferError ∧
      (21 : Int) % 8 ≠ 0 ∧
      binary_accessor_read Endianness.LITTLE_ENDIAN (fun _ => 0) 21 (-19) DataType.STRING
        [72, 69, 76, 76, 79] Endianness.BIG_ENDIAN = Except.ok (Value.Str []) :=
  ⟨by decide, by rfl, by decide, by rfl⟩

/-- C13, amended: for every read without `int` overflow, with data type STRING, BLOCK or FLOAT,
whose bit offset is not a multiple of 8 (given or resolved: the two differ by a multiple of 8), the
outcome is decided in this order.  A negative bit offset with a bit size that is not positive is an
argument error; a resolved bit offset below 0 is a buffer error; a bit size that is not positive
is an argument error for FLOAT; a resolved STRING or BLOCK size of 0 returns the empty string and a
negative one is a buffer error; an `upper_bound` at or past the end of the buffer is a buffer
error; and in every other case the read fails with the argument error "not byte aligned".  In
particular, with bit offset at least 0, bit size above 0 and `upper_bound` within the buffer it
fails with that argument error.  The 32-bit computation of the code has the same outcome. -/
theorem C13_misaligned_access (host : Endianness) (uninit : Nat → Nat) (buffer : List Nat)
    (e : Endianness) (dt : DataType)
    (hdt : dt = DataType.STRING ∨ dt = DataType.BLOCK ∨ dt = DataType.FLOAT)
    (bit_offset bit_size : Int) (hmis : bit_offset % 8 ≠ 0) (hr : InRange buffer bit_offset bit_size) :
    binary_accessor_read host uninit bit_offset bit_size dt buffer e
        = (if bit_offset < 0 ∧ bit_size ≤ 0 then
            Except.error (ReadError.ArgError ArgReason.NegativeOffsetNonPositiveSize)
          else if resolved_bit_offset buffer.length bit_offset < 0 then
            Except.error ReadError.BufferError
          else if bit_size ≤ 0 ∧ dt = DataType.FLOAT then
            Except.error (ReadError.ArgError ArgReason.NonPositiveSize)
          else if resolved_bit_size buffer.length bit_offset bit_size = 0 then
            Except.ok (Value.Str [])
          else if resolved_bit_size buffer.length bit_offset bit_size < 0 then
            Except.error ReadError.BufferError
          else if (buffer.length : Int) ≤ (resolved_bit_offset buffer.length bit_offset
              + resolved_bit_size buffer.length bit_offset bit_size - 1) / 8 then
            Except.error ReadError.BufferError
          else Except.error (ReadError.ArgError ArgReason.NotByteAligned)) ∧
      resolved_bit_offset buffer.length bit_offset % 8 = bit_offset % 8 ∧
      (0 ≤ bit_offset → 1 ≤ bit_size → (bit_offset + bit_size - 1) / 8 < buffer.length →
        binary_accessor_read host uninit bit_offset bit_size dt buffer e
          = Except.error (ReadError.ArgError ArgReason.NotByteAligned)) ∧
      outcome (binary_accessor_read_accesses host bit_offset bit_size dt buffer e)
        = outcome (binary_accessor_read host uninit bit_offset bit_size dt buffer e) := by
  have hres : ∀ o w : Nat, 1 ≤ w → o % 8 ≠ 0 →
      binary_accessor_read host uninit o w dt buffer e
        = if (buffer.length : Int) ≤ ((o : Int) + (w : Int) - 1) / 8 then Except.error ReadError.BufferError
          else Except.error (ReadError.ArgError ArgReason.NotByteAligned) := by
    intro o w hw ho
    rw [read_unaligned_resolved host uninit o w hw ho dt hdt buffer e]
    by_cases hu : buffer.length ≤ (o + w - 1) / 8
    · rw [if_pos hu, if_pos (by omega)]
    · rw [if_neg hu, if_neg (by omega)]
  have hmain : binary_accessor_read host uninit bit_offset bit_size dt buffer e
      = (if bit_offset < 0 ∧ bit_size ≤ 0 then
          Except.error (ReadError.ArgError ArgReason.NegativeOffsetNonPositiveSize)
        else if resolved_bit_offset buffer.length bit_offset < 0 then
          Except.error ReadError.BufferError
        else if bit_size ≤ 0 ∧ dt = DataType.FLOAT then
          Except.error (ReadError.ArgError ArgReason.NonPositiveSize)
        else if resolved_bit_size buffer.length bit_offset bit_size = 0 then
          Except.ok (Value.Str [])
        else if resolved_bit_size buffer.length bit_offset bit_size < 0 then
          Except.error ReadError.BufferError
        else if (buffer.length : Int) ≤ (resolved_bit_offset buffer.length bit_offset
            + resolved_bit_size buffer.length bit_offset bit_size - 1) / 8 then
          Except.error ReadError.BufferError
        else Except.error (ReadError.ArgError ArgReason.NotByteAligned)) := by
    by_cases hs : bit_size ≤ 0
    · by_cases hneg : bit_offset < 0
      · rw [if_pos ⟨hneg, hs⟩]
        exact read_negative_nonpositive host uninit bit_offset bit_size hneg hs dt buffer e
      · obtain ⟨o, rfl⟩ := Int.eq_ofNat_of_zero_le (show 0 ≤ bit_offset by omega)
        have hro : resolved_bit_offset buffer.length o = o := by
          simp only [resolved_bit_offset, hneg, ↓reduceIte]
        have hrs : resolved_bit_size buffer.length o bit_size = (buffer.length : Int) * 8 - o + bit_size := by
          simp only [resolved_bit_size, hs, ↓reduceIte, hro]
        have hc1 : ¬ ((o : Int) < 0 ∧ bit_size ≤ 0) := fun h => hneg h.1
        have ho0 : ¬ ((o : Int) < 0) := by omega
        rw [if_neg hc1, hro, hrs, if_neg ho0]
        by_cases hfl : dt = DataType.FLOAT
        · rw [if_pos ⟨hs, hfl⟩]
          subst hfl
          exact read_nonpositive_other host uninit o bit_size (by omega) hs _ (by decide) (by decide)
            buffer e
        · have hsb : dt = DataType.STRING ∨ dt = DataType.BLOCK := by
            rcases hdt with h | h | h
            · exact Or.inl h
            · exact Or.inr h
            · exact absurd h hfl
          have hc3 : ¬ (bit_size ≤ 0 ∧ dt = DataType.FLOAT) := fun h => hfl h.2
          rw [if_neg hc3, read_nonpositive_size host uninit o bit_size hs dt hsb buffer e]
          by_cases hz : (buffer.length : Int) * 8 - o + bit_size = 0
          · rw [if_pos hz, if_pos hz]
          · rw [if_neg hz, if_neg hz]
            by_cases hn : (buffer.length : Int) * 8 - o + bit_size < 0
            · rw [if_pos hn, if_pos hn]
            · rw [if_neg hn, if_neg hn]
              obtain ⟨r, hrr⟩ := Int.eq_ofNat_of_zero_le
                (show 0 ≤ (buffer.length : Int) * 8 - o + bit_size by omega)
              rw [hrr]
              exact hres o r (by omega) (by omega)
    · obtain ⟨w, rfl⟩ := Int.eq_ofNat_of_zero_le (show 0 ≤ bit_size by omega)
      have hrs : ∀ x : Int, resolved_bit_size buffer.length x w = w := by
        intro x
        simp only [resolved_bit_size, hs, ↓reduceIte]
      have hw0 : ¬ ((w : Int) = 0) := by omega
      have hwn : ¬ ((w : Int) < 0) := by omega
      have hc1 : ¬ (bit_offset < 0 ∧ (w : Int) ≤ 0) := fun h => hs h.2
      have hc3 : ¬ ((w : Int) ≤ 0 ∧ dt = DataType.FLOAT) := fun h => hs h.1
      simp only [hrs, hc1, hc3, hw0, hwn, ↓reduceIte]
      by_cases hneg : bit_offset < 0
      · obtain ⟨k, hk⟩ : ∃ k : Nat, bit_offset = -(k : Int) := ⟨(-bit_offset).toNat, by omega⟩
        subst hk
        have hro : resolved_bit_offset buffer.length (-(k : Int)) = (buffer.length : Int) * 8 + -(k : Int) := by
          simp only [resolved_bit_offset, hneg, ↓reduceIte]
        rw [hro, read_negative_offset host uninit k w (by omega) (by omega)]
        by_cases hlong : 8 * buffer.length < k
        · have hl2 : (buffer.length : Int) * 8 + -(k : Int) < 0 := by omega
          rw [if_pos hlong, if_pos hl2]
        · have hl2 : ¬ ((buffer.length : Int) * 8 + -(k : Int) < 0) := by omega
          have hk8 : (8 * buffer.length - k) % 8 ≠ 0 := by omega
          have hcast : (((8 * buffer.length - k : Nat) : Int)) = (buffer.length : Int) * 8 + -(k : Int) := by
            omega
          rw [if_neg hlong, if_neg hl2, hres (8 * buffer.length - k) w (by omega) hk8, hcast]
      · obtain ⟨o, rfl⟩ := Int.eq_ofNat_of_zero_le (show 0 ≤ bit_offset by omega)
        have hro : resolved_bit_offset buffer.length o = o := by
          simp only [resolved_bit_offset, hneg, ↓reduceIte]
        have ho0 : ¬ ((o : Int) < 0) := by omega
        rw [hro, if_neg ho0]
        exact hres o w (by omega) (by omega)
  refine ⟨hmain, ?_, ?_, in_range_outcome host uninit bit_offset bit_size dt buffer e hr⟩
  · simp only [resolved_bit_offset]
    split_ifs <;> omega
  · intro h0 h1 hin
    rw [hmain]
    have hro : resolved_bit_offset buffer.length bit_offset = bit_offset := by
      simp only [resolved_bit_offset]
      rw [if_neg (by omega)]
    have hrs : resolved_bit_size buffer.length bit_offset bit_size = bit_size := by
      simp only [resolved_bit_size]
      rw [if_neg (by omega)]
    have c1 : ¬ (bit_offset < 0 ∧ bit_size ≤ 0) := by omega
    have c2 : ¬ (bit_offset < 0) := by omega
    have c3 : ¬ (bit_size ≤ 0 ∧ dt = DataType.FLOAT) := fun h => by omega
    have c4 : ¬ (bit_size = 0) := by omega
    have c5 : ¬ (bit_size < 0) := by omega
    have c6 : ¬ ((buffer.length : Int) ≤ (bit_offset + bit_size - 1) / 8) := by omega
    rw [hro, hrs, if_neg c1, if_neg c2, if_neg c3, if_neg c4, if_neg c5, if_neg c6]

theorem C13_misaligned_access_witness :
    (DataType.STRING = DataType.STRING ∨ DataType.STRING = DataType.BLOCK ∨
        DataType.STRING = DataType.FLOAT) ∧
      (-12 : Int) % 8 ≠ 0 ∧ InRange [1, 2, 3] (-12) 8 ∧
      binary_accessor_read Endianness.LITTLE_ENDIAN (fun _ => 0) (-12) 8 DataType.STRING [1, 2, 3]
        Endianness.BIG_ENDIAN = Except.error (ReadError.ArgError ArgReason.NotByteAligned) := by
  have h := (C13_misaligned_access Endianness.LITTLE_ENDIAN (fun _ => 0) [1, 2, 3] Endianness.BIG_ENDIAN
    DataType.STRING (by decide) (-12) 8 (by decide) (by decide)).1
  refine ⟨by decide, by decide, by decide, ?_⟩
  rw [h]
  rfl

/-- C14 fails as stated: the direct read of 8 bits at offset 0 of the empty buffer with data type
DERIVED fails with a buffer error, not with the "not recognized" argument error. -/
theorem C14_counterexample :
    binary_accessor_read Endianness.LITTLE_ENDIAN (fun _ => 0) 0 8 DataType.DERIVED []
      Endianness.BIG_ENDIAN = Except.error ReadError.BufferError := by
  rfl

/-- C14, amended: every direct read with data type DERIVED (or any other data type outside INT,
UINT, FLOAT, STRING, BLOCK) fails and never returns a value, for every bit offset, bit size,
buffer and endianness: in the exact computation and in the 32-bit computation of the code alike.
With a bit size that is not positive it fails with an argument error.  With bit offset at least 0
and bit size above 0, on a request without `int` overflow, it fails with a buffer error when
`upper_bound` is not within the buffer and with the argument error "not recognized" when it is. -/
theorem C14_unrecognized_data_type (host : Endianness) (uninit : Nat → Nat) (buffer : List Nat)
    (e : Endianness) (dt : DataType) (h1 : dt ≠ DataType.INT) (h2 : dt ≠ DataType.UINT)
    (h3 : dt ≠ DataType.FLOAT) (h4 : dt ≠ DataType.STRING) (h5 : dt ≠ DataType.BLOCK)
    (bit_offset bit_size : Int) :
    (∀ o w : Nat, 1 ≤ w → InRange buffer o w →
      binary_accessor_read host uninit o w dt buffer e
          = (if buffer.length ≤ (o + w - 1) / 8 then Except.error ReadError.BufferError
            else Except.error (ReadError.ArgError ArgReason.NotRecognized)) ∧
        outcome (binary_accessor_read_accesses host o w dt buffer e)
          = (if buffer.length ≤ (o + w - 1) / 8 then Except.error ReadError.BufferError
            else Except.error (ReadError.ArgError ArgReason.NotRecognized))) ∧
    (bit_size ≤ 0 → ∃ reason,
      binary_accessor_read host uninit bit_offset bit_size dt buffer e
          = Except.error (ReadError.ArgError reason) ∧
        binary_accessor_read_accesses host bit_offset bit_size dt buffer e
          = Except.error (ReadError.ArgError reason)) ∧
    (∀ v, binary_accessor_read host uninit bit_offset bit_size dt buffer e ≠ Except.ok v) ∧
    (∀ trace, binary_accessor_read_accesses host bit_offset bit_size dt buffer e ≠ Except.ok trace) := by
  have hres := fun (o w : Nat) (hw : 1 ≤ w) =>
    read_unrecognized_resolved host uninit o w hw dt h1 h2 h3 h4 h5 buffer e
  have hnp : bit_size ≤ 0 → ∃ reason, binary_accessor_read host uninit bit_offset bit_size dt buffer e
      = Except.error (ReadError.ArgError reason) ∧
      binary_accessor_read_accesses host bit_offset bit_size dt buffer e
        = Except.error (ReadError.ArgError reason) := by
    intro hs
    by_cases hneg : bit_offset < 0
    · refine ⟨_, read_negative_nonpositive host uninit bit_offset bit_size hneg hs dt buffer e, ?_⟩
      simp only [binary_accessor_read_accesses, handle_negative_bit_offset_int, hneg, hs, ↓reduceIte]
    · refine ⟨_, read_nonpositive_other host uninit bit_offset bit_size (by omega) hs dt h4 h5 buffer e, ?_⟩
      simp only [binary_accessor_read_accesses, handle_negative_bit_offset_int, handle_bit_size_int, hneg, hs,
        h4, h5, or_self, ↓reduceIte]
  refine ⟨?_, hnp, ?_, ?_⟩
  · intro o w hw hr
    refine ⟨hres o w hw, ?_⟩
    rw [in_range_outcome host uninit o w dt buffer e hr, hres o w hw]
    split_ifs <;> rfl
  · intro v hv
    by_cases hs : bit_size ≤ 0
    · obtain ⟨reason, hr, -⟩ := hnp hs
      rw [hr] at hv
      exact absurd hv (by simp)
    · obtain ⟨w, rfl⟩ := Int.eq_ofNat_of_zero_le (show 0 ≤ bit_size by omega)
      have hfail : ∀ o : Nat, binary_accessor_read host uninit o w dt buffer e ≠ Except.ok v := by
        intro o ho
        rw [hres o w (by omega)] at ho
        split_ifs at ho
      by_cases hneg : bit_offset < 0
      · obtain ⟨k, hk⟩ : ∃ k : Nat, bit_offset = -(k : Int) := ⟨(-bit_offset).toNat, by omega⟩
        subst hk
        rw [read_negative_offset host uninit k w (by omega) (by omega)] at hv
        by_cases hlong : 8 * buffer.length < k
        · rw [if_pos hlong] at hv
          exact absurd hv (by simp)
        · rw [if_neg hlong] at hv
          exact hfail _ hv
      · obtain ⟨o, rfl⟩ := Int.eq_ofNat_of_zero_le (show 0 ≤ bit_offset by omega)
        exact hfail o hv
  · intro trace ht
    simp only [binary_accessor_read_accesses] at ht
    cases hoff : handle_negative_bit_offset_int (RSTRING_LEN buffer) bit_offset bit_size with
    | error x => simp only [hoff, reduceCtorEq] at ht
    | ok o' =>
      simp only [hoff] at ht
      cases hsz : handle_bit_size_int (RSTRING_LEN buffer) o' bit_size dt with
      | error x => simp only [hsz, reduceCtorEq] at ht
      | ok r =>
        cases r with
        | none =>
          simp only [handle_bit_size_int, h4, h5, or_self, ↓reduceIte] at hsz
          split_ifs at hsz
          cases hsz
        | some w' =>
          simp only [hsz, dispatch_accesses, h1, h2, h3, h4, h5, or_self, ↓reduceIte] at ht
          split_ifs at ht

theorem C14_unrecognized_data_type_witness :
    DataType.DERIVED ≠ DataType.INT ∧ DataType.DERIVED ≠ DataType.UINT ∧
      DataType.DERIVED ≠ DataType.FLOAT ∧ DataType.DERIVED ≠ DataType.STRING ∧
      DataType.DERIVED ≠ DataType.BLOCK ∧ 1 ≤ 8 ∧ InRange [1, 2] (8 : Nat) (8 : Nat) ∧
      binary_accessor_read Endianness.LITTLE_ENDIAN (fun _ => 0) 8 8 DataType.DERIVED [1, 2]
        Endianness.BIG_ENDIAN = Except.error (ReadError.ArgError ArgReason.NotRecognized) := by
  refine ⟨by decide, by decide, by decide, by decide, by decide, by decide, by decide, ?_⟩
  have h := ((C14_unrecognized_data_type Endianness.LITTLE_ENDIAN (fun _ => 0) [1, 2] Endianness.BIG_ENDIAN
    DataType.DERIVED (by decide) (by decide) (by decide) (by decide) (by decide) 0 0).1 8 8 (by decide)
    (by decide)).1
  simpa using h

/-- C15: `Item.compare` is a consistent total ordering on items: its result is always in
{-1, 0, 1}; `compare(a, b) = -compare(b, a)` for all items; and `compare(a, b) ≤ 0` and
`compare(b, c) ≤ 0` imply `compare(a, c) ≤ 0`. -/
theorem C15_compare_total_order (a b c : StructureItem) :
    (structure_item_spaceship a b = -1 ∨ structure_item_spaceship a b = 0 ∨
        structure_item_spaceship a b = 1) ∧
      structure_item_spaceship a b = -structure_item_spaceship b a ∧
      (structure_item_spaceship a b ≤ 0 → structure_item_spaceship b c ≤ 0 →
        structure_item_spaceship a c ≤ 0) := by
  refine ⟨?_, ?_, ?_⟩
  · simp only [structure_item_spaceship]
    split_ifs <;> simp
  · simp only [structure_item_spaceship]
    split_ifs <;> omega
  · rw [spaceship_nonpos a b, spaceship_nonpos b c, spaceship_nonpos a c]
    omega

theorem C15_compare_total_order_witness :
    structure_item_spaceship ⟨0, 0, DataType.DERIVED, none, Endianness.BIG_ENDIAN⟩
        ⟨16, 8, DataType.UINT, none, Endianness.BIG_ENDIAN⟩ ≤ 0 ∧
      structure_item_spaceship ⟨16, 8, DataType.UINT, none, Endianness.BIG_ENDIAN⟩
        ⟨-16, 16, DataType.UINT, none, Endianness.BIG_ENDIAN⟩ ≤ 0 ∧
      structure_item_spaceship ⟨0, 0, DataType.DERIVED, none, Endianness.BIG_ENDIAN⟩
        ⟨-16, 16, DataType.UINT, none, Endianness.BIG_ENDIAN⟩ ≤ 0 :=
  ⟨by decide, by decide,
    (C15_compare_total_order ⟨0, 0, DataType.DERIVED, none, Endianness.BIG_ENDIAN⟩
      ⟨16, 8, DataType.UINT, none, Endianness.BIG_ENDIAN⟩
      ⟨-16, 16, DataType.UINT, none, Endianness.BIG_ENDIAN⟩).2.2 (by decide) (by decide)⟩

/-- C16: for every pair of items whose bit offsets have different signs (one at least 0, the other
below 0) the item with the negative offset sorts after the other: `compare(nonneg, neg) = -1` and
`compare(neg, nonneg) = 1`.  For every pair with the same sign and different offsets, compare is
the numeric comparison of the offsets. -/
theorem C16_compare_by_sign (a b : StructureItem) :
    (0 ≤ a.bit_offset → b.bit_offset < 0 →
        structure_item_spaceship a b = -1 ∧ structure_item_spaceship b a = 1) ∧
      (((0 ≤ a.bit_offset ∧ 0 ≤ b.bit_offset) ∨ (a.bit_offset < 0 ∧ b.bit_offset < 0)) →
        a.bit_offset ≠ b.bit_offset →
        structure_item_spaceship a b = if a.bit_offset < b.bit_offset then -1 else 1) := by
  constructor
  · intro h1 h2
    constructor
    · simp only [structure_item_spaceship]
      split_ifs <;> omega
    · simp only [structure_item_spaceship]
      split_ifs <;> omega
  · intro h1 h2
    simp only [structure_item_spaceship]
    split_ifs <;> omega

theorem C16_compare_by_sign_witness :
    ((0 : Int) ≤ 16 ∧ (-16 : Int) < 0 ∧
        structure_item_spaceship ⟨16, 8, DataType.UINT, none, Endianness.BIG_ENDIAN⟩
          ⟨-16, 8, DataType.UINT, none, Endianness.BIG_ENDIAN⟩ = -1 ∧
        structure_item_spaceship ⟨-16, 8, DataType.UINT, none, Endianness.BIG_ENDIAN⟩
          ⟨16, 8, DataType.UINT, none, Endianness.BIG_ENDIAN⟩ = 1) ∧
      ((-32 : Int) < 0 ∧ (-16 : Int) < 0 ∧ (-32 : Int) ≠ -16 ∧
        structure_item_spaceship ⟨-32, 8, DataType.UINT, none, Endianness.BIG_ENDIAN⟩
          ⟨-16, 8, DataType.UINT, none, Endianness.BIG_ENDIAN⟩ = -1) := by
  have h1 := (C16_compare_by_sign ⟨16, 8, DataType.UINT, none, Endianness.BIG_ENDIAN⟩
    ⟨-16, 8, DataType.UINT, none, Endianness.BIG_ENDIAN⟩).1 (by decide) (by decide)
  have h2 := (C16_compare_by_sign ⟨-32, 8, DataType.UINT, none, Endianness.BIG_ENDIAN⟩
    ⟨-16, 8, DataType.UINT, none, Endianness.BIG_ENDIAN⟩).2 (Or.inr ⟨by decide, by decide⟩) (by decide)
  exact ⟨⟨by decide, by decide, h1.1, h1.2⟩, by decide, by decide, by decide, by simpa using h2⟩

/-- C17: for every two items that both have bit offset 0, compare orders them by bit size
ascending: it returns -1, 0 or 1 according to whether the bit size of the first is less than,
equal to or greater than the bit size of the second. -/
theorem C17_compare_offset_zero_by_size (a b : StructureItem) (ha : a.bit_offset = 0)
    (hb : b.bit_offset = 0) :
    structure_item_spaceship a b
      = if a.bit_size < b.bit_size then -1 else if a.bit_size = b.bit_size then 0 else 1 := by
  simp only [structure_item_spaceship]
  split_ifs <;> omega

theorem C17_compare_offset_zero_by_size_witness :
    (0 : Int) = 0 ∧
      structure_item_spaceship ⟨0, 0, DataType.DERIVED, none, Endianness.BIG_ENDIAN⟩
        ⟨0, 32, DataType.UINT, none, Endianness.BIG_ENDIAN⟩ = -1 := by
  have h := C17_compare_offset_zero_by_size ⟨0, 0, DataType.DERIVED, none, Endianness.BIG_ENDIAN⟩
    ⟨0, 32, DataType.UINT, none, Endianness.BIG_ENDIAN⟩ rfl rfl
  exact ⟨rfl, by simpa using h⟩

/-- C18 fails as stated: the items with bit offset 0 and bit sizes 0 and 32 have the same bit
offset, and compare returns -1, not 0. -/
theorem C18_counterexample :
    (⟨0, 0, DataType.DERIVED, none, Endianness.BIG_ENDIAN⟩ : StructureItem).bit_offset
        = (⟨0, 32, DataType.UINT, none, Endianness.BIG_ENDIAN⟩ : StructureItem).bit_offset ∧
      structure_item_spaceship ⟨0, 0, DataType.DERIVED, none, Endianness.BIG_ENDIAN⟩
        ⟨0, 32, DataType.UINT, none, Endianness.BIG_ENDIAN⟩ = -1 ∧
      structure_item_spaceship ⟨0, 0, DataType.DERIVED, none, Endianness.BIG_ENDIAN⟩
        ⟨0, 32, DataType.UINT, none, Endianness.BIG_ENDIAN⟩ ≠ 0 :=
  ⟨by decide, by decide, by decide⟩

/-- C18, amended: for every two StructureItems with the same bit offset other than 0, compare
returns 0 even when their bit sizes differ; when both bit offsets are 0, compare returns 0 exactly
when the bit sizes are equal. -/
theorem C18_compare_same_offset (a b : StructureItem) (h : a.bit_offset = b.bit_offset) :
    (a.bit_offset ≠ 0 → structure_item_spaceship a b = 0) ∧
      (a.bit_offset = 0 → (structure_item_spaceship a b = 0 ↔ a.bit_size = b.bit_size)) := by
  constructor
  · intro h0
    simp only [structure_item_spaceship]
    split_ifs <;> omega
  · intro h0
    simp only [structure_item_spaceship]
    split_ifs <;> constructor <;> intro h1 <;> first | omega | contradiction

theorem C18_compare_same_offset_witness :
    (24 : Int) = 24 ∧ (24 : Int) ≠ 0 ∧
      structure_item_spaceship ⟨24, 8, DataType.UINT, none, Endianness.BIG_ENDIAN⟩
        ⟨24, 16, DataType.INT, none, Endianness.LITTLE_ENDIAN⟩ = 0 :=
  ⟨rfl, by decide,
    (C18_compare_same_offset ⟨24, 8, DataType.UINT, none, Endianness.BIG_ENDIAN⟩
      ⟨24, 16, DataType.INT, none, Endianness.LITTLE_ENDIAN⟩ rfl).1 (by decide)⟩

/-- C19: `Structure.resizeBuffer` never shrinks and pads with zeros: for every structure with a
bound buffer `b` of length `L` and defined length `D ≥ 0`, after `resize_buffer` the buffer is `b`
followed by `max(0, D - L)` zero bytes (its length is `max(L, D)` and `b` is an unchanged prefix)
and the defined length is unchanged; when `L ≥ D`, or when no buffer is bound, the structure is
left unchanged; hence resizing twice has the effect of resizing once. -/
theorem C19_resize_buffer (self : Structure) :
    (∀ b, self.buffer = some b → 0 ≤ self.defined_length →
        (resize_buffer self).buffer
            = some (b ++ List.replicate (self.defined_length.toNat - b.length) 0) ∧
          (resize_buffer self).defined_length = self.defined_length ∧
          (∀ r, (resize_buffer self).buffer = some r →
            r.length = max b.length self.defined_length.toNat ∧ b <+: r)) ∧
      (∀ b, self.buffer = some b → self.defined_length ≤ b.length → resize_buffer self = self) ∧
      (self.buffer = none → resize_buffer self = self) ∧
      resize_buffer (resize_buffer self) = resize_buffer self := by
  refine ⟨?_, ?_, ?_, ?_⟩
  · intro b hb hD
    rw [resize_buffer_some self b hb]
    refine ⟨rfl, rfl, ?_⟩
    intro r hr
    simp only [Option.some.injEq] at hr
    subst hr
    refine ⟨?_, List.prefix_append _ _⟩
    simp only [List.length_append, List.length_replicate]
    omega
  · intro b hb hle
    have h : ¬ ((b.length : Int) < self.defined_length) := by omega
    simp only [resize_buffer, hb, RSTRING_LEN, h, ↓reduceIte]
  · intro hn
    simp only [resize_buffer, hn]
  · cases hbuf : self.buffer with
    | none =>
      have h : resize_buffer self = self := by simp only [resize_buffer, hbuf]
      rw [h, h]
    | some b =>
      rw [resize_buffer_some self b hbuf]
      rw [resize_buffer_some _ (b ++ List.replicate (self.defined_length.toNat - b.length) 0) rfl]
      have h : self.defined_length.toNat
          - (b ++ List.replicate (self.defined_length.toNat - b.length) 0).length = 0 := by
        simp only [List.length_append, List.length_replicate]
        omega
      simp only [h, List.replicate_zero, List.append_nil]

theorem C19_resize_buffer_witness :
    (⟨some [1, 2], 5⟩ : Structure).buffer = some [1, 2] ∧ (0 : Int) ≤ (⟨some [1, 2], 5⟩ : Structure).defined_length ∧
      (resize_buffer ⟨some [1, 2], 5⟩).buffer = some [1, 2, 0, 0, 0] := by
  have h := ((C19_resize_buffer ⟨some [1, 2], 5⟩).1 [1, 2] rfl (by decide)).1
  exact ⟨rfl, by decide, by simpa using h⟩

/-- C20 fails as stated for an item whose data type is DERIVED: with no buffer bound and no
explicit buffer passed, `read_item` raises no error and returns nil. -/
theorem C20_counterexample :
    read_item Endianness.LITTLE_ENDIAN (fun _ => 0) (fun _ _ _ _ _ _ => Except.ok ItemValue.Nil)
        ⟨none, 0⟩ 1 ⟨0, 0, DataType.DERIVED, none, Endianness.BIG_ENDIAN⟩ none
      = Except.ok ItemValue.Nil := by
  rfl

/-- C20, amended: for every item whose data type is not DERIVED, calling `Structure.readItem` when
no buffer is bound and no explicit buffer is passed (one or two arguments), or when the explicit
buffer is nil (three arguments), fails with the "No buffer given" error and returns no value; for
an item whose data type is DERIVED a call with one, two or three arguments returns nil without an
error, whether or not a buffer is bound or passed. -/
theorem C20_read_item_without_buffer (host : Endianness) (uninit : Nat → Nat)
    (read_array : Int → Int → DataType → Int → List Nat → Endianness → Except ItemError ItemValue)
    (self : Structure) (argc : Nat) (item : StructureItem) (explicit_buffer : Option (List Nat)) :
    (item.data_type ≠ DataType.DERIVED →
        ((argc = 1 ∨ argc = 2) ∧ self.buffer = none) ∨ (argc = 3 ∧ explicit_buffer = none) →
        read_item host uninit read_array self argc item explicit_buffer
          = Except.error ItemError.NoBufferGiven) ∧
      (item.data_type = DataType.DERIVED → argc = 1 ∨ argc = 2 ∨ argc = 3 →
        read_item host uninit read_array self argc item explicit_buffer = Except.ok ItemValue.Nil) := by
  constructor
  · intro hd hnb
    rcases hnb with ⟨hargc, hbuf⟩ | ⟨hargc, hbuf⟩
    · simp only [read_item, hargc, ↓reduceIte, read_item_internal, hd, hbuf]
    · subst hargc
      simp only [read_item, read_item_internal, hd, hbuf, ↓reduceIte]
      simp
  · intro hd hargc
    rcases hargc with h | h | h
    · simp only [read_item, h, read_item_internal, hd, ↓reduceIte]
      simp
    · simp only [read_item, h, read_item_internal, hd, ↓reduceIte]
      simp
    · simp only [read_item, h, read_item_internal, hd, ↓reduceIte]
      simp

theorem C20_read_item_without_buffer_witness :
    ((⟨0, 8, DataType.UINT, none, Endianness.BIG_ENDIAN⟩ : StructureItem).data_type ≠ DataType.DERIVED ∧
      (((2 = 1 ∨ 2 = 2) ∧ (⟨none, 4⟩ : Structure).buffer = none) ∨
        (2 = 3 ∧ (none : Option (List Nat)) = none)) ∧
      read_item Endianness.LITTLE_ENDIAN (fun _ => 0) (fun _ _ _ _ _ _ => Except.ok ItemValue.Nil)
          ⟨none, 4⟩ 2 ⟨0, 8, DataType.UINT, none, Endianness.BIG_ENDIAN⟩ none
        = Except.error ItemError.NoBufferGiven) ∧
    ((⟨0, 0, DataType.DERIVED, none, Endianness.BIG_ENDIAN⟩ : StructureItem).data_type = DataType.DERIVED ∧
      (1 = 1 ∨ 1 = 2 ∨ 1 = 3) ∧
      read_item Endianness.LITTLE_ENDIAN (fun _ => 0) (fun _ _ _ _ _ _ => Except.ok ItemValue.Nil)
          ⟨some [1, 2], 2⟩ 1 ⟨0, 0, DataType.DERIVED, none, Endianness.BIG_ENDIAN⟩ none
        = Except.ok ItemValue.Nil) :=
  ⟨⟨by decide, Or.inl ⟨Or.inr rfl, rfl⟩,
    (C20_read_item_without_buffer Endianness.LITTLE_ENDIAN (fun _ => 0)
      (fun _ _ _ _ _ _ => Except.ok ItemValue.Nil) ⟨none, 4⟩ 2
      ⟨0, 8, DataType.UINT, none, Endianness.BIG_ENDIAN⟩ none).1 (by decide) (Or.inl ⟨Or.inr rfl, rfl⟩)⟩,
   ⟨rfl, Or.inl rfl,
    (C20_read_item_without_buffer Endianness.LITTLE_ENDIAN (fun _ => 0)
      (fun _ _ _ _ _ _ => Except.ok ItemValue.Nil) ⟨some [1, 2], 2⟩ 1
      ⟨0, 0, DataType.DERIVED, none, Endianness.BIG_ENDIAN⟩ none).2 rfl (Or.inl rfl)⟩⟩

/-- C21: `left_shift_byte_array` is a big-endian logical left shift: for every byte array `a` of
length `L` (`L ≥ 1`, and the empty run as well) and every `n` with `0 < n < 8`, the array after the call, read as a big-endian integer
(index 0 most significant), equals `(V * 2 ^ n) mod 2 ^ (8 * L)`, where `V` is the big-endian integer
of the array before the call; the array keeps its length: its elements are bytes again and nothing
at or after index `L` is written. -/
theorem C21_left_shift_big_endian (a : Nat → Nat) (ha : ByteMem a) (L n : Nat)
    (hn0 : 0 < n) (hn : n < 8) :
    be_value (left_shift_byte_array a L n) L = (be_value a L * 2 ^ n) % 2 ^ (8 * L) ∧
      ByteMem (left_shift_byte_array a L n) ∧
      ∀ j, L ≤ j → left_shift_byte_array a L n j = a j := by
  rw [left_shift_byte_array_eq n hn0 hn a ha L]
  refine ⟨?_, shl_byte_lt n hn0 hn a ha L, fun j hj => shl_byte_outside n a L j hj⟩
  rw [be_value_shl n hn0 hn a ha L, pow_256]

theorem C21_left_shift_big_endian_witness :
    ByteMem (RSTRING_PTR [0x81, 0x42]) ∧ 0 < 3 ∧ 3 < 8 ∧
      be_value (left_shift_byte_array (RSTRING_PTR [0x81, 0x42]) 2 3) 2 = 0x0A10 := by
  have hb : ByteMem (RSTRING_PTR [0x81, 0x42]) := RSTRING_PTR_bytes _ (by decide)
  have h := (C21_left_shift_big_endian (RSTRING_PTR [0x81, 0x42]) hb 2 3 (by decide) (by decide)).1
  refine ⟨hb, by decide, by decide, ?_⟩
  simpa [be_value, RSTRING_PTR] using h

/-- C22: `unsigned_right_shift_byte_array` is a big-endian logical right shift: for every byte array
`a` of length `L ≥ 1` and every `n` with `1 ≤ n ≤ 8`, the array after the call, read as a big-endian
integer, equals `floor(V / 2 ^ n)`, where `V` is its big-endian integer before the call; the top `n`
bits of byte 0 are zero. -/
theorem C22_unsigned_right_shift_big_endian (a : Nat → Nat) (ha : ByteMem a) (L n : Nat) (hL : 1 ≤ L)
    (hn0 : 1 ≤ n) (hn : n ≤ 8) :
    be_value (unsigned_right_shift_byte_array a L n) L = be_value a L / 2 ^ n ∧
      unsigned_right_shift_byte_array a L n 0 < 2 ^ (8 - n) := by
  rw [unsigned_right_shift_byte_array_eq n hn0 hn a ha L]
  refine ⟨be_value_shr n hn0 hn a ha L, ?_⟩
  have h0 := ha 0
  have hL0 : 0 < L := hL
  simp only [shr_byte, hL0, lt_self_iff_false, ↓reduceIte]
  interval_cases n <;> simp only [Nat.reducePow, Nat.reduceSub] <;> omega

theorem C22_unsigned_right_shift_big_endian_witness :
    ByteMem (RSTRING_PTR [0x81, 0x42]) ∧ 1 ≤ 2 ∧ 1 ≤ 8 ∧ 8 ≤ 8 ∧
      be_value (unsigned_right_shift_byte_array (RSTRING_PTR [0x81, 0x42]) 2 8) 2 = 0x81 ∧
      unsigned_right_shift_byte_array (RSTRING_PTR [0x81, 0x42]) 2 8 0 < 1 := by
  have hb : ByteMem (RSTRING_PTR [0x81, 0x42]) := RSTRING_PTR_bytes _ (by decide)
  have h := C22_unsigned_right_shift_big_endian (RSTRING_PTR [0x81, 0x42]) hb 2 8 (by decide)
    (by decide) (by decide)
  refine ⟨hb, by decide, by decide, by decide, ?_, ?_⟩
  · simpa [be_value, RSTRING_PTR] using h.1
  · simpa using h.2

/-- C23: for every byte array `a` and every `n` with `0 < n < 8`, a left shift by `n` followed by an
unsigned right shift by `n` over the same `L` bytes yields `a` with only the top `n` bits of byte 0
cleared: byte 0 becomes `a[0] mod 2 ^ (8 - n)` and every other byte is the original one (an empty
run, `L = 0`, is left as it is). -/
theorem C23_left_then_right_shift (a : Nat → Nat) (ha : ByteMem a) (L n : Nat) (hn0 : 0 < n) (hn : n < 8) :
    ∀ j, unsigned_right_shift_byte_array (left_shift_byte_array a L n) L n j
      = if j = 0 ∧ 0 < L then a 0 % 2 ^ (8 - n) else a j := by
  intro j
  rw [left_shift_byte_array_eq n hn0 hn a ha L,
    unsigned_right_shift_byte_array_eq n hn0 (by omega) _ (shl_byte_lt n hn0 hn a ha L) L]
  exact shr_shl_byte n hn0 hn a ha L j

theorem C23_left_then_right_shift_witness :
    ByteMem (RSTRING_PTR [0xFF, 0x42, 0x99]) ∧ 0 < 3 ∧ 3 < 8 ∧
      unsigned_right_shift_byte_array (left_shift_byte_array (RSTRING_PTR [0xFF, 0x42, 0x99]) 3 3) 3 3 0 = 0x1F ∧
      unsigned_right_shift_byte_array (left_shift_byte_array (RSTRING_PTR [0xFF, 0x42, 0x99]) 3 3) 3 3 2 = 0x99 := by
  have hb : ByteMem (RSTRING_PTR [0xFF, 0x42, 0x99]) := RSTRING_PTR_bytes _ (by decide)
  have h := C23_left_then_right_shift (RSTRING_PTR [0xFF, 0x42, 0x99]) hb 3 3 (by decide) (by decide)
  refine ⟨hb, by decide, by decide, ?_, ?_⟩
  · simpa [RSTRING_PTR] using h 0
  · simpa [RSTRING_PTR] using h 2

/-- C24 fails as stated: `read_bitfield` does not shift the run right by `start_bits`. For the
8-bit field at bit offset 4 of the bytes `12 34` (the field is `0x23`, `start_bits = 4`,
`end_bits = 4`) the returned two-byte run is `23 00`: the field is left-aligned. A right-aligned
run would read `0x0023`, and the masked run `12 30` shifted right by `start_bits` would read
`0x0123`. -/
theorem C24_counterexample :
    ∃ r, read_bitfield 0 1 4 8 Endianness.BIG_ENDIAN (RSTRING_PTR [0x12, 0x34]) (malloc (fun _ => 0))
          = Except.ok r ∧
      be_value r 2 = 0x2300 ∧ be_value r 2 ≠ 0x0023 ∧ be_value r 2 ≠ 0x0123 := by
  refine ⟨_, rfl, ?_⟩
  decide

/-- C24, amended: output alignment of the bitfield reader. For every bitfield of `w ≥ 1` bits at
bit offset `o` (in the little-endian case: whose span does not start before the buffer), with
`start_bits = o mod 8`, `num_bytes = (start_bits + w - 1) / 8 + 1` and
`end_bits = 8 * num_bytes - start_bits - w`, `read_bitfield` masks the last byte with
`0xFF << end_bits` and shifts the run LEFT by `start_bits`: the returned run of `num_bytes` bytes
holds the field left-aligned, its most significant bit at the first bit of the run and zeros after
its least significant bit, i.e. the run reads as `field * 2 ^ (8 * num_bytes - w)` where
`field = (V >> end_bits) mod 2 ^ w` and `V` is the span in the byte order of the field. -/
theorem C24_bitfield_left_aligned (o w : Nat) (hw : 1 ≤ w) (e : Endianness) (p : Nat → Nat)
    (hp : ByteMem p) (uninit : Nat → Nat)
    (hlower : e = Endianness.LITTLE_ENDIAN → (o % 8 + w - 1) / 8 + 1 ≤ o / 8 + 1) :
    ∃ r, read_bitfield ((o / 8 : Nat) : Int) (((o + w - 1) / 8 : Nat) : Int) o w e p (malloc uninit)
          = Except.ok r ∧ ByteMem r ∧
      be_value r ((o % 8 + w - 1) / 8 + 1)
        = (wire_value e (fun i => p ((if e = Endianness.LITTLE_ENDIAN then
                o / 8 + 1 - ((o % 8 + w - 1) / 8 + 1) else o / 8) + i)) ((o % 8 + w - 1) / 8 + 1)
            / 2 ^ (8 * ((o % 8 + w - 1) / 8 + 1) - o % 8 - w)) % 2 ^ w
          * 2 ^ (8 * ((o % 8 + w - 1) / 8 + 1) - w) := by
  have hnum : (o + w - 1) / 8 - o / 8 + 1 = (o % 8 + w - 1) / 8 + 1 := by omega
  set num := (o % 8 + w - 1) / 8 + 1 with hnum_def
  have hs : o % 8 < 8 := by omega
  have hfit : o % 8 + w ≤ 8 * num := by omega
  have he : 8 * num - o % 8 - w < 8 := by omega
  cases e with
  | BIG_ENDIAN =>
    have hrb := read_bitfield_big o w hw p (malloc uninit)
    rw [hnum] at hrb
    have hm0 : ByteMem (memcpy (malloc uninit) (fun i => p (o / 8 + i)) num) :=
      memcpy_bytes _ _ _ (malloc_bytes uninit) (fun i => hp _)
    obtain ⟨hbt, hv⟩ := bitfield_tail_value num (o % 8) w _ hm0 hs hfit he (by omega)
    refine ⟨_, hrb, hbt, ?_⟩
    rw [hv, be_value_memcpy]
    simp only [wire_value, reduceCtorEq, ↓reduceIte]
  | LITTLE_ENDIAN =>
    have hrb := read_bitfield_little ((o / 8 : Nat) : Int) (((o + w - 1) / 8 : Nat) : Int) o w hw p
      (malloc uninit)
    have hlow := hlower rfl
    rw [if_neg (by omega)] at hrb
    have hm0 : ByteMem (reverse_bytes (memcpy (malloc uninit) (fun i => p (o / 8 + 1 - num + i)) num) num) :=
      reverse_bytes_bytes _ _ (memcpy_bytes _ _ _ (malloc_bytes uninit) (fun i => hp _))
    obtain ⟨hbt, hv⟩ := bitfield_tail_value num (o % 8) w _ hm0 hs hfit he (by omega)
    refine ⟨_, hrb, hbt, ?_⟩
    rw [hv, be_value_reverse_memcpy]
    simp only [wire_value, ↓reduceIte]

theorem C24_bitfield_left_aligned_witness :
    1 ≤ 8 ∧ ByteMem (RSTRING_PTR [0x12, 0x34]) ∧
      (Endianness.BIG_ENDIAN = Endianness.LITTLE_ENDIAN → (4 % 8 + 8 - 1) / 8 + 1 ≤ 4 / 8 + 1) ∧
      ∃ r, read_bitfield 0 1 4 8 Endianness.BIG_ENDIAN (RSTRING_PTR [0x12, 0x34]) (malloc (fun _ => 0xA5))
            = Except.ok r ∧ be_value r 2 = 0x23 * 2 ^ 8 := by
  have hb : ByteMem (RSTRING_PTR [0x12, 0x34]) := RSTRING_PTR_bytes _ (by decide)
  obtain ⟨r, hr, -, hv⟩ := C24_bitfield_left_aligned 4 8 (by decide) Endianness.BIG_ENDIAN
    (RSTRING_PTR [0x12, 0x34]) hb (fun _ => 0xA5) (by decide)
  refine ⟨by decide, hb, by decide, r, hr, ?_⟩
  simpa [wire_value, be_value, RSTRING_PTR] using hv

/-- C25: determinism with respect to uninitialised scratch memory. For every request (any bit
offset, bit size, data type and endianness, on either host) and every two initial contents of the
allocated scratch memory, `read` returns the same result (the same value or the same error): in the
INT/UINT bitfield path the bytes of the scratch array that `read_bitfield` never writes, although
they lie within the `num_words * 4` bytes that are shifted, cannot influence the result. -/
theorem C25_scratch_determinism (host : Endianness) (uninit1 uninit2 : Nat → Nat)
    (bit_offset bit_size : Int) (dt : DataType) (buffer : List Nat) (hb : IsBytes buffer) (e : Endianness) :
    binary_accessor_read host uninit1 bit_offset bit_size dt buffer e
      = binary_accessor_read host uninit2 bit_offset bit_size dt buffer e :=
  read_scratch_independent host uninit1 uninit2 bit_offset bit_size dt buffer hb e

theorem C25_scratch_determinism_witness :
    IsBytes [0x12, 0x34, 0x56] ∧
      binary_accessor_read Endianness.LITTLE_ENDIAN (fun _ => 0) 4 12 DataType.INT [0x12, 0x34, 0x56]
          Endianness.BIG_ENDIAN
        = binary_accessor_read Endianness.LITTLE_ENDIAN (fun i => 0xFF - i) 4 12 DataType.INT
            [0x12, 0x34, 0x56] Endianness.BIG_ENDIAN :=
  ⟨by decide, C25_scratch_determinism Endianness.LITTLE_ENDIAN (fun _ => 0) (fun i => 0xFF - i) 4 12
    DataType.INT [0x12, 0x34, 0x56] (by decide) Endianness.BIG_ENDIAN⟩

/-- C26 fails on the code. The read of a 16-bit UINT at bit offset 2147483640 of a two-byte buffer
passes the offset and size resolution and the bounds check, and then reads `buffer[-268435455]` and
`buffer[268435455]`, both outside `[0, 2)`: the `int` sum `bit_offset + bit_size` of line 352 wraps
to `-2147483640`, so `upper_bound` is negative and the test `upper_bound >= buffer_length` of
line 358 lets the request through. -/
theorem C26_out_of_bounds_access :
    int_add 2147483640 16 = -2147483640 ∧
      buffer_too_short (RSTRING_LEN [0, 0]) 268435455 (-268435455) 2147483640 16 DataType.UINT
        Endianness.BIG_ENDIAN = false ∧
      binary_accessor_read_accesses Endianness.LITTLE_ENDIAN 2147483640 16 DataType.UINT [0, 0]
          Endianness.BIG_ENDIAN
        = Except.ok [Access.Buffer (-268435455), Access.Buffer 268435455] ∧
      in_bounds (RSTRING_LEN [0, 0]) (scratch_array_length 16) (Access.Buffer (-268435455)) = false ∧
      in_bounds (RSTRING_LEN [0, 0]) (scratch_array_length 16) (Access.Buffer 268435455) = false := by
  refine ⟨by decide, by decide, rfl, by decide, by decide⟩

end Cosmos
